import Mathlib

/-!
# Verification of the go-strategy-app core against its specification

This file shallowly embeds the core of the repository (board model with
capture rules, symmetry transforms and canonical Zobrist fingerprinting,
the SQLite-backed analysis cache with its dominance `put` / lookup `get` /
cross-store merge, the GTP engine client's snapshot parser and fallback,
and the analyzer's orientation / symmetry-expansion logic) and proves or
refutes the frozen claims about it.

Modelling conventions:
* Python `int` is `Int`, Python `float` is modelled as an exact rational
  (`Rat`); none of the verified claims depends on binary floating point
  rounding.
* Python dicts keyed by coordinates are modelled as association lists
  (`List (key × value)`) with first-match lookup; where a claim needs the
  dict property of unique keys it is carried as an explicit hypothesis.
* Fallible Python code is modelled in `Except PyErr`, with one error
  constructor per Python exception class that the control flow
  distinguishes.
* SQLite TEXT columns holding JSON are modelled by their parse result:
  `Option JsonVal`, where `none` stands for text that `json.loads`
  rejects.
-/

set_option maxHeartbeats 1000000
set_option maxRecDepth 8000

namespace GoApp

/-- Python exception classes distinguished by the embedded control flow. -/
inductive PyErr where
  | valueError
  | typeError
  | keyError
  | indexError
  | jsonDecodeError
  deriving DecidableEq, Repr

/-! ## Symmetry transforms (src/board.py, D4 dihedral group) -/

/-- The 8 symmetry transformations of a square board (src/board.py `SymmetryTransform`). -/
inductive SymmetryTransform where
  | IDENTITY
  | ROTATE_90
  | ROTATE_180
  | ROTATE_270
  | FLIP_HORIZONTAL
  | FLIP_VERTICAL
  | FLIP_DIAGONAL
  | FLIP_ANTIDIAGONAL
  deriving DecidableEq, Repr

open SymmetryTransform

/-- src/board.py `apply_transform`: apply a symmetry transformation to
coordinates, with `n = size - 1`. -/
def apply_transform (x y : Int) (size : Int) (t : SymmetryTransform) : Int × Int :=
  let n := size - 1
  match t with
  | IDENTITY => (x, y)
  | ROTATE_90 => (n - y, x)
  | ROTATE_180 => (n - x, n - y)
  | ROTATE_270 => (y, n - x)
  | FLIP_HORIZONTAL => (n - x, y)
  | FLIP_VERTICAL => (x, n - y)
  | FLIP_DIAGONAL => (y, x)
  | FLIP_ANTIDIAGONAL => (n - y, n - x)

/-- src/board.py `get_inverse_transform`: the inverse of a symmetry
transformation, from the source's lookup table. -/
def get_inverse_transform (t : SymmetryTransform) : SymmetryTransform :=
  match t with
  | IDENTITY => IDENTITY
  | ROTATE_90 => ROTATE_270
  | ROTATE_180 => ROTATE_180
  | ROTATE_270 => ROTATE_90
  | FLIP_HORIZONTAL => FLIP_HORIZONTAL
  | FLIP_VERTICAL => FLIP_VERTICAL
  | FLIP_DIAGONAL => FLIP_DIAGONAL
  | FLIP_ANTIDIAGONAL => FLIP_ANTIDIAGONAL

/-- src/board.py `ALL_TRANSFORMS = list(SymmetryTransform)`, in enum order. -/
def ALL_TRANSFORMS : List SymmetryTransform :=
  [IDENTITY, ROTATE_90, ROTATE_180, ROTATE_270,
   FLIP_HORIZONTAL, FLIP_VERTICAL, FLIP_DIAGONAL, FLIP_ANTIDIAGONAL]

/-- Composition of two transforms: `compT t1 t2` is "apply `t1`, then `t2`".
The table is determined by `apply_transform` (see `apply_transform_comp`). -/
def compT (t1 t2 : SymmetryTransform) : SymmetryTransform :=
  match t1, t2 with
  | IDENTITY, IDENTITY => IDENTITY
  | IDENTITY, ROTATE_90 => ROTATE_90
  | IDENTITY, ROTATE_180 => ROTATE_180
  | IDENTITY, ROTATE_270 => ROTATE_270
  | IDENTITY, FLIP_HORIZONTAL => FLIP_HORIZONTAL
  | IDENTITY, FLIP_VERTICAL => FLIP_VERTICAL
  | IDENTITY, FLIP_DIAGONAL => FLIP_DIAGONAL
  | IDENTITY, FLIP_ANTIDIAGONAL => FLIP_ANTIDIAGONAL
  | ROTATE_90, IDENTITY => ROTATE_90
  | ROTATE_90, ROTATE_90 => ROTATE_180
  | ROTATE_90, ROTATE_180 => ROTATE_270
  | ROTATE_90, ROTATE_270 => IDENTITY
  | ROTATE_90, FLIP_HORIZONTAL => FLIP_DIAGONAL
  | ROTATE_90, FLIP_VERTICAL => FLIP_ANTIDIAGONAL
  | ROTATE_90, FLIP_DIAGONAL => FLIP_VERTICAL
  | ROTATE_90, FLIP_ANTIDIAGONAL => FLIP_HORIZONTAL
  | ROTATE_180, IDENTITY => ROTATE_180
  | ROTATE_180, ROTATE_90 => ROTATE_270
  | ROTATE_180, ROTATE_180 => IDENTITY
  | ROTATE_180, ROTATE_270 => ROTATE_90
  | ROTATE_180, FLIP_HORIZONTAL => FLIP_VERTICAL
  | ROTATE_180, FLIP_VERTICAL => FLIP_HORIZONTAL
  | ROTATE_180, FLIP_DIAGONAL => FLIP_ANTIDIAGONAL
  | ROTATE_180, FLIP_ANTIDIAGONAL => FLIP_DIAGONAL
  | ROTATE_270, IDENTITY => ROTATE_270
  | ROTATE_270, ROTATE_90 => IDENTITY
  | ROTATE_270, ROTATE_180 => ROTATE_90
  | ROTATE_270, ROTATE_270 => ROTATE_180
  | ROTATE_270, FLIP_HORIZONTAL => FLIP_ANTIDIAGONAL
  | ROTATE_270, FLIP_VERTICAL => FLIP_DIAGONAL
  | ROTATE_270, FLIP_DIAGONAL => FLIP_HORIZONTAL
  | ROTATE_270, FLIP_ANTIDIAGONAL => FLIP_VERTICAL
  | FLIP_HORIZONTAL, IDENTITY => FLIP_HORIZONTAL
  | FLIP_HORIZONTAL, ROTATE_90 => FLIP_ANTIDIAGONAL
  | FLIP_HORIZONTAL, ROTATE_180 => FLIP_VERTICAL
  | FLIP_HORIZONTAL, ROTATE_270 => FLIP_DIAGONAL
  | FLIP_HORIZONTAL, FLIP_HORIZONTAL => IDENTITY
  | FLIP_HORIZONTAL, FLIP_VERTICAL => ROTATE_180
  | FLIP_HORIZONTAL, FLIP_DIAGONAL => ROTATE_270
  | FLIP_HORIZONTAL, FLIP_ANTIDIAGONAL => ROTATE_90
  | FLIP_VERTICAL, IDENTITY => FLIP_VERTICAL
  | FLIP_VERTICAL, ROTATE_90 => FLIP_DIAGONAL
  | FLIP_VERTICAL, ROTATE_180 => FLIP_HORIZONTAL
  | FLIP_VERTICAL, ROTATE_270 => FLIP_ANTIDIAGONAL
  | FLIP_VERTICAL, FLIP_HORIZONTAL => ROTATE_180
  | FLIP_VERTICAL, FLIP_VERTICAL => IDENTITY
  | FLIP_VERTICAL, FLIP_DIAGONAL => ROTATE_90
  | FLIP_VERTICAL, FLIP_ANTIDIAGONAL => ROTATE_270
  | FLIP_DIAGONAL, IDENTITY => FLIP_DIAGONAL
  | FLIP_DIAGONAL, ROTATE_90 => FLIP_HORIZONTAL
  | FLIP_DIAGONAL, ROTATE_180 => FLIP_ANTIDIAGONAL
  | FLIP_DIAGONAL, ROTATE_270 => FLIP_VERTICAL
  | FLIP_DIAGONAL, FLIP_HORIZONTAL => ROTATE_90
  | FLIP_DIAGONAL, FLIP_VERTICAL => ROTATE_270
  | FLIP_DIAGONAL, FLIP_DIAGONAL => IDENTITY
  | FLIP_DIAGONAL, FLIP_ANTIDIAGONAL => ROTATE_180
  | FLIP_ANTIDIAGONAL, IDENTITY => FLIP_ANTIDIAGONAL
  | FLIP_ANTIDIAGONAL, ROTATE_90 => FLIP_VERTICAL
  | FLIP_ANTIDIAGONAL, ROTATE_180 => FLIP_DIAGONAL
  | FLIP_ANTIDIAGONAL, ROTATE_270 => FLIP_HORIZONTAL
  | FLIP_ANTIDIAGONAL, FLIP_HORIZONTAL => ROTATE_270
  | FLIP_ANTIDIAGONAL, FLIP_VERTICAL => ROTATE_90
  | FLIP_ANTIDIAGONAL, FLIP_DIAGONAL => ROTATE_180
  | FLIP_ANTIDIAGONAL, FLIP_ANTIDIAGONAL => IDENTITY

/-- Applying two transforms in sequence is applying their composition. -/
theorem apply_transform_comp (t1 t2 : SymmetryTransform) (x y size : Int) :
    apply_transform (apply_transform x y size t1).1 (apply_transform x y size t1).2 size t2
      = apply_transform x y size (compT t1 t2) := by
  cases t1 <;> cases t2 <;> simp [apply_transform, compT] <;> omega

theorem compT_inverse_right (t : SymmetryTransform) :
    compT t (get_inverse_transform t) = IDENTITY := by
  cases t <;> rfl

theorem apply_transform_identity (x y size : Int) :
    apply_transform x y size IDENTITY = (x, y) := rfl

/-- Left-composition with a fixed transform permutes the list of all 8 transforms. -/
theorem compT_perm_all (t : SymmetryTransform) :
    (ALL_TRANSFORMS.map (compT t)).Perm ALL_TRANSFORMS := by
  cases t <;> decide

/-- Applying a transform keeps in-range coordinates in range. -/
theorem apply_transform_mem_range (t : SymmetryTransform) (x y size : Int)
    (hx : 0 ≤ x ∧ x < size) (hy : 0 ≤ y ∧ y < size) :
    (0 ≤ (apply_transform x y size t).1 ∧ (apply_transform x y size t).1 < size) ∧
      (0 ≤ (apply_transform x y size t).2 ∧ (apply_transform x y size t).2 < size) := by
  cases t <;> simp [apply_transform] <;> omega

/-- **C9.** For each of the 8 symmetry transforms `T`,
`get_inverse_transform (get_inverse_transform T) = T`, and for every board
size and every in-range coordinate `(x, y)`, applying `T` and then
`get_inverse_transform T` yields `(x, y)` again
(src/board.py `get_inverse_transform`, `apply_transform`). -/
theorem inverse_transform_involutive_and_roundtrip
    (T : SymmetryTransform) (size x y : Int)
    (hx : 0 ≤ x ∧ x < size) (hy : 0 ≤ y ∧ y < size) :
    get_inverse_transform (get_inverse_transform T) = T ∧
      apply_transform (apply_transform x y size T).1 (apply_transform x y size T).2
        size (get_inverse_transform T) = (x, y) := by
  constructor
  · cases T <;> rfl
  · cases T <;> simp [apply_transform, get_inverse_transform] <;> omega

/-- Witness for C9: instantiated at `T = ROTATE_90`, `size = 9`, `(x, y) = (2, 5)`. -/
theorem inverse_transform_involutive_and_roundtrip_witness :
    (0 ≤ (2 : Int) ∧ (2 : Int) < 9) ∧ (0 ≤ (5 : Int) ∧ (5 : Int) < 9) ∧
      (get_inverse_transform (get_inverse_transform ROTATE_90) = ROTATE_90 ∧
        apply_transform (apply_transform 2 5 9 ROTATE_90).1 (apply_transform 2 5 9 ROTATE_90).2
          9 (get_inverse_transform ROTATE_90) = (2, 5)) :=
  ⟨by decide, by decide,
    inverse_transform_involutive_and_roundtrip ROTATE_90 9 2 5 (by decide) (by decide)⟩

/-! ## GTP coordinates (src/board.py `gtp_to_coords`, `coords_to_gtp`) -/

/-- src/board.py `GTP_COLUMNS = "ABCDEFGHJKLMNOPQRST"` (the letter I is skipped). -/
def GTP_COLUMNS : String := "ABCDEFGHJKLMNOPQRST"

def isAsciiDigit (c : Char) : Bool := '0' ≤ c && c ≤ '9'

def digitsToNat (l : List Char) : Nat :=
  l.foldl (fun a c => a * 10 + (c.toNat - '0'.toNat)) 0

/-- Python `int(s)` on a string: optional sign followed by decimal digits.
(We do not model surrounding whitespace or underscore separators, which
never occur in the strings this code parses.) `none` models `ValueError`. -/
def pyInt? (s : String) : Option Int :=
  match s.data with
  | [] => none
  | '-' :: rest =>
    if rest ≠ [] && rest.all isAsciiDigit then some (-(digitsToNat rest : Int)) else none
  | '+' :: rest =>
    if rest ≠ [] && rest.all isAsciiDigit then some (digitsToNat rest : Int) else none
  | l => if l.all isAsciiDigit then some (digitsToNat l : Int) else none

/-- Python string indexing `s[i]` (a negative index counts from the end;
`none` models `IndexError`). -/
def pyStrGet? (l : List Char) (i : Int) : Option Char :=
  let j := if i < 0 then i + l.length else i
  if 0 ≤ j then l[j.toNat]? else none

/-- Python `str.upper()` for the ASCII strings this program handles,
defined character-wise so that it evaluates by kernel reduction. -/
def pyUpper (s : String) : String := String.mk (s.data.map Char.toUpper)

/-- src/board.py `gtp_to_coords`: convert a GTP coordinate such as "Q16"
to a 0-based `(x, y)` pair, validating column letter, row number and
bounds; every rejection raises `ValueError`. -/
def gtp_to_coords (gtp_coord : String) (board_size : Int) : Except PyErr (Int × Int) :=
  match gtp_coord.data with
  | [] => .error .valueError
  | [_] => .error .valueError
  | c :: rest =>
    let col := c.toUpper
    match pyInt? (String.mk rest) with
    | none => .error .valueError
    | some row =>
      match GTP_COLUMNS.data.findIdx? (fun d => d = col) with
      | none => .error .valueError
      | some xi =>
        let x : Int := xi
        let y : Int := row - 1
        if 0 ≤ x ∧ x < board_size ∧ 0 ≤ y ∧ y < board_size then .ok (x, y)
        else .error .valueError

/-- src/board.py `coords_to_gtp`: `f"{GTP_COLUMNS[x]}{y + 1}"`.
An out-of-range column index raises `IndexError` as in Python. -/
def coords_to_gtp (x y : Int) : Except PyErr String :=
  match pyStrGet? GTP_COLUMNS.data x with
  | none => .error .indexError
  | some col => .ok (String.mk (col :: (toString (y + 1)).data))

/-- src/board.py `transform_gtp_coord`: transform a GTP coordinate
through a symmetry ("PASS" is fixed). -/
def transform_gtp_coord (gtp_coord : String) (size : Int) (t : SymmetryTransform) :
    Except PyErr String :=
  if pyUpper gtp_coord = "PASS" then .ok "PASS"
  else do
    let p ← gtp_to_coords gtp_coord size
    let q := apply_transform p.1 p.2 size t
    coords_to_gtp q.1 q.2

/-- Proof-side decomposition of `gtp_to_coords` before its range check. -/
def gtpParseHead (s : String) : Option (Nat × Int) :=
  match s.data with
  | [] => none
  | [_] => none
  | c :: rest =>
    match pyInt? (String.mk rest), GTP_COLUMNS.data.findIdx? (fun d => d = c.toUpper) with
    | some row, some xi => some (xi, row)
    | _, _ => none

theorem gtp_to_coords_of_parseHead (s : String) (xi : Nat) (row : Int) (size : Int)
    (h : gtpParseHead s = some (xi, row)) :
    gtp_to_coords s size =
      (if 0 ≤ (xi : Int) ∧ (xi : Int) < size ∧ 0 ≤ row - 1 ∧ row - 1 < size
        then .ok ((xi : Int), row - 1) else .error .valueError) := by
  unfold gtpParseHead at h
  unfold gtp_to_coords
  match hs : s.data with
  | [] => rw [hs] at h; exact absurd h (by simp)
  | [_] => rw [hs] at h; exact absurd h (by simp)
  | c :: d :: rest =>
    rw [hs] at h
    simp only at h ⊢
    cases hint : pyInt? (String.mk (d :: rest)) with
    | none => rw [hint] at h; simp at h
    | some r =>
      rw [hint] at h
      cases hidx : GTP_COLUMNS.data.findIdx? (fun e => e = c.toUpper) with
      | none => rw [hidx] at h; simp at h
      | some i =>
        rw [hidx] at h
        simp only [Option.some.injEq, Prod.mk.injEq] at h
        obtain ⟨h1, h2⟩ := h
        subst h1; subst h2
        rfl

/-- Round-trip of printing and re-parsing, verified exhaustively for all
columns and rows of boards up to 19 (the only sizes the program accepts). -/
theorem coords_print_parse_bounded :
    ∀ xn : Nat, xn < 19 → ∀ yn : Nat, yn < 19 →
      ((coords_to_gtp (xn : Int) (yn : Int)).toOption.bind gtpParseHead)
        = some (xn, (yn : Int) + 1) := by decide

/-- Printing an in-range coordinate and parsing it back is the identity. -/
theorem coords_to_gtp_roundtrip (x y size : Int) (hsize : size ≤ 19)
    (hx : 0 ≤ x ∧ x < size) (hy : 0 ≤ y ∧ y < size) :
    ∃ s, coords_to_gtp x y = .ok s ∧ gtp_to_coords s size = .ok (x, y) := by
  have hx19 : x.toNat < 19 := by omega
  have hy19 : y.toNat < 19 := by omega
  have hb := coords_print_parse_bounded x.toNat hx19 y.toNat hy19
  have hxx : ((x.toNat : Int)) = x := Int.toNat_of_nonneg hx.1
  have hyy : ((y.toNat : Int)) = y := Int.toNat_of_nonneg hy.1
  rw [hxx, hyy] at hb
  cases hc : coords_to_gtp x y with
  | error e => rw [hc] at hb; simp [Except.toOption] at hb
  | ok s =>
    rw [hc] at hb
    simp only [Except.toOption, Option.bind_some] at hb
    refine ⟨s, rfl, ?_⟩
    rw [gtp_to_coords_of_parseHead s x.toNat (y + 1) size hb]
    rw [hxx]
    simp only [add_sub_cancel_right]
    have : (0 ≤ x ∧ x < size ∧ 0 ≤ y ∧ y < size) := ⟨hx.1, hx.2, hy.1, hy.2⟩
    simp [this]

/-! ## Stones and Zobrist hashing (src/board.py) -/

/-- A board's stones: Python `Dict[Tuple[int, int], str]` as an
association list in insertion order (keys unique in every state the
program builds). -/
abbrev Stones := List ((Int × Int) × String)

/-- src/board.py `transform_stones`: dict comprehension remapping every
key through `apply_transform` (injective, so no key collisions). -/
def transform_stones (stones : Stones) (size : Int) (t : SymmetryTransform) : Stones :=
  stones.map (fun e => (apply_transform e.1.1 e.1.2 size t, e.2))

theorem transform_stones_comp (s : Stones) (size : Int) (t1 t2 : SymmetryTransform) :
    transform_stones (transform_stones s size t1) size t2
      = transform_stones s size (compT t1 t2) := by
  unfold transform_stones
  rw [List.map_map]
  apply List.map_congr_left
  intro e _
  simp only [Function.comp]
  rw [apply_transform_comp]

theorem transform_stones_id (s : Stones) (size : Int) :
    transform_stones s size IDENTITY = s := by
  unfold transform_stones
  conv_rhs => rw [← List.map_id s]
  apply List.map_congr_left
  intro e _
  simp [apply_transform]

/-- The Zobrist hash tables of src/board.py `ZobristHasher.__init__`.
The Python instance fills them from a seeded Mersenne-Twister generator;
every claim below holds for arbitrary table contents, so the tables are a
parameter. `stone_hash` takes the color index (0 for 'B', 1 otherwise)
and the cell coordinates. -/
structure ZobristTables where
  stone_hash : Nat → Int → Int → Nat
  player_hash : Nat
  komi_hash : Rat → Nat
  size_hash : Int → Nat

/-- Python `round` (banker's rounding, half to even) on an exact rational. -/
def pyRound (q : Rat) : Int :=
  let f : Int := ⌊q⌋
  let r : Rat := q - f
  if r < 1/2 then f
  else if 1/2 < r then f + 1
  else if f % 2 = 0 then f else f + 1

/-- src/board.py `ZobristHasher._quantize_komi`: `round(komi * 2) / 2`. -/
def quantize_komi (komi : Rat) : Rat := (pyRound (komi * 2) : Rat) / 2

/-- src/board.py `ZobristHasher._compute_hash_int`: XOR of the size salt,
every stone's table entry, the mover salt when White is to move, and the
komi-bucket salt. The Python `komi_hash` dict holds exactly the half-point
multiples in [-100, 100], so its membership test is the range test here
(quantized komi is always a half-point multiple). -/
def compute_hash_int (tb : ZobristTables) (stones : Stones) (next_player : String)
    (komi : Rat) (board_size : Int) : Nat :=
  let h0 := 0 ^^^ tb.size_hash board_size
  let h1 := stones.foldl
    (fun h e => h ^^^ tb.stone_hash (if e.2 = "B" then 0 else 1) e.1.1 e.1.2) h0
  let h2 := if next_player = "W" then h1 ^^^ tb.player_hash else h1
  let q := quantize_komi komi
  if -100 ≤ q ∧ q ≤ 100 then h2 ^^^ tb.komi_hash q else h2

/-- One iteration of the minimum-search loop in
src/board.py `ZobristHasher.compute_canonical_hash`
(`if min_hash is None or h < min_hash`). -/
def minStep (g : SymmetryTransform → Nat) (acc : Option (Nat × SymmetryTransform))
    (t : SymmetryTransform) : Option (Nat × SymmetryTransform) :=
  match acc with
  | none => some (g t, t)
  | some (m, mt) => if g t < m then some (g t, t) else some (m, mt)

/-- Python `format(h, '016x')`: lowercase hex, zero-padded to 16 digits. -/
def format016x (n : Nat) : String :=
  let digits := Nat.toDigits 16 n
  String.mk (List.replicate (16 - digits.length) '0' ++ digits)

/-- src/board.py `ZobristHasher.compute_canonical_hash`: hash all 8
transformed stone sets, keep the minimum hash (first transform wins ties),
return the hex fingerprint and the winning transform. The `none` branch
of the final match is unreachable because `ALL_TRANSFORMS` is nonempty. -/
def compute_canonical_hash (tb : ZobristTables) (stones : Stones) (next_player : String)
    (komi : Rat) (board_size : Int) : String × SymmetryTransform :=
  match ALL_TRANSFORMS.foldl
      (minStep (fun t => compute_hash_int tb (transform_stones stones board_size t)
        next_player komi board_size)) none with
  | some (m, mt) => (format016x m, mt)
  | none => ("", IDENTITY)

theorem minStep_fold_some (g : SymmetryTransform → Nat) (l : List SymmetryTransform) :
    ∀ (m : Nat) (t : SymmetryTransform),
      ∃ m' t', l.foldl (minStep g) (some (m, t)) = some (m', t') ∧
        (m' = m ∨ ∃ u ∈ l, m' = g u) ∧ m' ≤ m ∧ ∀ u ∈ l, m' ≤ g u := by
  induction l with
  | nil => intro m t; exact ⟨m, t, rfl, Or.inl rfl, le_refl m, by simp⟩
  | cons a l ih =>
    intro m t
    simp only [List.foldl_cons]
    by_cases hlt : g a < m
    · obtain ⟨m', t', hfold, hmem, hle, hall⟩ := ih (g a) a
      refine ⟨m', t', ?_, ?_, ?_, ?_⟩
      · simp [minStep, hlt, hfold]
      · rcases hmem with h | ⟨u, hu, he⟩
        · exact Or.inr ⟨a, by simp, h⟩
        · exact Or.inr ⟨u, by simp [hu], he⟩
      · omega
      · intro u hu
        rcases List.mem_cons.mp hu with h | h
        · subst h; omega
        · exact hall u h
    · obtain ⟨m', t', hfold, hmem, hle, hall⟩ := ih m t
      refine ⟨m', t', ?_, ?_, hle, ?_⟩
      · simp [minStep, hlt, hfold]
      · rcases hmem with h | ⟨u, hu, he⟩
        · exact Or.inl h
        · exact Or.inr ⟨u, by simp [hu], he⟩
      · intro u hu
        rcases List.mem_cons.mp hu with h | h
        · subst h; omega
        · exact hall u h

theorem minStep_fold_none (g : SymmetryTransform → Nat) (a : SymmetryTransform)
    (l : List SymmetryTransform) :
    ∃ m' t', (a :: l).foldl (minStep g) none = some (m', t') ∧
      (∃ u ∈ a :: l, m' = g u) ∧ ∀ u ∈ a :: l, m' ≤ g u := by
  simp only [List.foldl_cons]
  obtain ⟨m', t', hfold, hmem, hle, hall⟩ := minStep_fold_some g l (g a) a
  refine ⟨m', t', by simpa [minStep] using hfold, ?_, ?_⟩
  · rcases hmem with h | ⟨u, hu, he⟩
    · exact ⟨a, by simp, h⟩
    · exact ⟨u, by simp [hu], he⟩
  · intro u hu
    rcases List.mem_cons.mp hu with h | h
    · subst h; omega
    · exact hall u h

/-- **C2.** For every board position (stones, next player, komi, board
size) and every one of the 8 symmetry transforms `T`, the canonical
fingerprint of the position with all stones transformed by `T` equals the
canonical fingerprint of the original position
(src/board.py `ZobristHasher.compute_canonical_hash`, `transform_stones`).
Proved for arbitrary Zobrist table contents and arbitrary stone lists, so
in particular for every board position. -/
theorem compute_canonical_hash_transform_invariant
    (tb : ZobristTables) (stones : Stones) (T : SymmetryTransform)
    (next_player : String) (komi : Rat) (board_size : Int) :
    (compute_canonical_hash tb (transform_stones stones board_size T)
        next_player komi board_size).1
      = (compute_canonical_hash tb stones next_player komi board_size).1 := by
  unfold compute_canonical_hash
  set g := fun t => compute_hash_int tb (transform_stones stones board_size t)
    next_player komi board_size with hg
  have hcomp : (fun t => compute_hash_int tb
      (transform_stones (transform_stones stones board_size T) board_size t)
      next_player komi board_size) = fun t => g (compT T t) := by
    funext t
    rw [hg]
    simp only
    rw [transform_stones_comp]
  rw [hcomp]
  -- both folds are over the nonempty list ALL_TRANSFORMS
  obtain ⟨m1, t1, hf1, ⟨u1, hu1, he1⟩, hall1⟩ :=
    minStep_fold_none (fun t => g (compT T t)) IDENTITY
      [ROTATE_90, ROTATE_180, ROTATE_270, FLIP_HORIZONTAL, FLIP_VERTICAL,
        FLIP_DIAGONAL, FLIP_ANTIDIAGONAL]
  obtain ⟨m2, t2, hf2, ⟨u2, hu2, he2⟩, hall2⟩ :=
    minStep_fold_none g IDENTITY
      [ROTATE_90, ROTATE_180, ROTATE_270, FLIP_HORIZONTAL, FLIP_VERTICAL,
        FLIP_DIAGONAL, FLIP_ANTIDIAGONAL]
  have hALL : (IDENTITY :: [ROTATE_90, ROTATE_180, ROTATE_270, FLIP_HORIZONTAL,
      FLIP_VERTICAL, FLIP_DIAGONAL, FLIP_ANTIDIAGONAL]) = ALL_TRANSFORMS := rfl
  rw [hALL] at hf1 hf2 hu1 hu2 hall1 hall2
  rw [hg] at hf1 hf2
  simp only at hf1 hf2 ⊢
  rw [hf1, hf2]
  simp only
  -- m1 = m2 by antisymmetry, using that compT T permutes ALL_TRANSFORMS
  have hmem_image : ∀ u ∈ ALL_TRANSFORMS, compT T u ∈ ALL_TRANSFORMS := by
    intro u hu
    have := (compT_perm_all T).mem_iff (a := compT T u)
    exact this.mp (List.mem_map_of_mem (compT T) hu)
  have hsurj : ∀ v ∈ ALL_TRANSFORMS, ∃ u ∈ ALL_TRANSFORMS, compT T u = v := by
    intro v hv
    have := (compT_perm_all T).mem_iff (a := v)
    obtain ⟨u, hu, he⟩ := List.mem_map.mp (this.mpr hv)
    exact ⟨u, hu, he⟩
  have h12 : m1 ≤ m2 := by
    obtain ⟨u, hu, he⟩ := hsurj u2 hu2
    have := hall1 u hu
    rw [he] at this
    omega
  have h21 : m2 ≤ m1 := by
    have := hall2 (compT T u1) (hmem_image u1 hu1)
    omega
  have : m1 = m2 := le_antisymm h12 h21
  rw [this]

/-! ## Board state (src/board.py `BoardState`) -/

/-- src/board.py `BoardState`. The `prisoners` dict (default
`{'B': 0, 'W': 0}`) is modelled as a total function from color to count;
the program only ever reads the keys 'B' and 'W'. -/
structure BoardState where
  size : Int := 19
  stones : Stones := []
  moves : List (String × String) := []
  handicap_stones : List String := []
  komi : Rat := 15/2
  next_player : String := "B"
  prisoners : String → Nat := fun _ => 0

/-- src/board.py `BoardState.copy`: rebuilds a `BoardState` from
`size`, `stones`, `moves`, `handicap_stones`, `komi` and `next_player`;
the constructor call omits `prisoners`, so the copy gets the dataclass
default (all counts zero). -/
def BoardState.copy (b : BoardState) : BoardState :=
  { size := b.size, stones := b.stones, moves := b.moves,
    handicap_stones := b.handicap_stones, komi := b.komi,
    next_player := b.next_player }

/-- Python `self.stones.get(p)`: first-match association-list lookup. -/
def stoneAt (stones : Stones) (p : Int × Int) : Option String :=
  (stones.find? (fun e => e.1 = p)).map (fun e => e.2)

/-- The four orthogonal neighbors `[(x+1,y), (x-1,y), (x,y+1), (x,y-1)]`,
in the source's order. -/
def neighbors4 (p : Int × Int) : List (Int × Int) :=
  [(p.1 + 1, p.2), (p.1 - 1, p.2), (p.1, p.2 + 1), (p.1, p.2 - 1)]

/-- `0 <= x < size and 0 <= y < size`. -/
def inRange (p : Int × Int) (size : Int) : Prop :=
  0 ≤ p.1 ∧ p.1 < size ∧ 0 ≤ p.2 ∧ p.2 < size

instance (p : Int × Int) (size : Int) : Decidable (inRange p size) := by
  unfold inRange; infer_instance

/-- All in-range cells of a board, used as the termination measure bound
for the flood fill. -/
def boardCells (size : Int) : Finset (Int × Int) :=
  Finset.Icc 0 (size - 1) ×ˢ Finset.Icc 0 (size - 1)

theorem mem_boardCells (p : Int × Int) (size : Int) :
    p ∈ boardCells size ↔ inRange p size := by
  unfold boardCells inRange
  rw [Finset.mem_product, Finset.mem_Icc, Finset.mem_Icc]
  omega

/-- One neighbor check of the flood-fill loop body in
src/board.py `BoardState._get_group`:
`if in-range and not in group and same color: add to group, push`. -/
def groupConsider (stones : Stones) (size : Int) (color : String)
    (acc : Finset (Int × Int) × List (Int × Int)) (q : Int × Int) :
    Finset (Int × Int) × List (Int × Int) :=
  if inRange q size ∧ q ∉ acc.1 ∧ stoneAt stones q = some color
  then (insert q acc.1, q :: acc.2) else acc

def groupMeasure (size : Int) (acc : Finset (Int × Int) × List (Int × Int)) : Nat :=
  5 * (boardCells size \ acc.1).card + acc.2.length

theorem groupConsider_measure (stones : Stones) (size : Int) (color : String)
    (acc : Finset (Int × Int) × List (Int × Int)) (q : Int × Int) :
    groupMeasure size (groupConsider stones size color acc q) ≤ groupMeasure size acc := by
  unfold groupConsider groupMeasure
  by_cases h : inRange q size ∧ q ∉ acc.1 ∧ stoneAt stones q = some color
  · rw [if_pos h]
    dsimp only
    have hq : q ∈ boardCells size \ acc.1 :=
      Finset.mem_sdiff.mpr ⟨(mem_boardCells q size).mpr h.1, h.2.1⟩
    have hcard : (boardCells size \ insert q acc.1).card
        = (boardCells size \ acc.1).card - 1 := by
      rw [Finset.sdiff_insert]
      exact Finset.card_erase_of_mem hq
    have hpos : 1 ≤ (boardCells size \ acc.1).card := Finset.card_pos.mpr ⟨q, hq⟩
    rw [hcard, List.length_cons]
    omega
  · rw [if_neg h]

theorem groupFold_measure (stones : Stones) (size : Int) (color : String)
    (l : List (Int × Int)) (acc : Finset (Int × Int) × List (Int × Int)) :
    groupMeasure size (l.foldl (groupConsider stones size color) acc)
      ≤ groupMeasure size acc := by
  induction l generalizing acc with
  | nil => simp
  | cons a l ih =>
    simp only [List.foldl_cons]
    exact le_trans (ih (groupConsider stones size color acc a))
      (groupConsider_measure stones size color acc a)

/-- The `while stack:` loop of src/board.py `BoardState._get_group`:
pop a cell, scan its four neighbors (adding new same-color in-range cells
to the group and the stack), repeat until the stack empties. -/
def getGroupLoop (stones : Stones) (size : Int) (color : String)
    (group : Finset (Int × Int)) (stack : List (Int × Int)) : Finset (Int × Int) :=
  match stack with
  | [] => group
  | p :: rest =>
    let next := (neighbors4 p).foldl (groupConsider stones size color) (group, rest)
    getGroupLoop stones size color next.1 next.2
termination_by groupMeasure size (group, stack)
decreasing_by
  have h := groupFold_measure stones size color (neighbors4 p) (group, rest)
  unfold groupMeasure at h ⊢
  dsimp only at h ⊢
  simp only [List.length_cons]
  omega

/-- src/board.py `BoardState._get_group`: the connected same-color group
containing `start` (empty if `start` holds no stone; the Python truthiness
test `if not color` also treats an empty-string color as no stone). -/
def getGroup (stones : Stones) (size : Int) (start : Int × Int) : Finset (Int × Int) :=
  match stoneAt stones start with
  | none => ∅
  | some color =>
    if color = "" then ∅
    else getGroupLoop stones size color {start} [start]

/-- src/board.py `BoardState._get_liberties`: the number of distinct
empty in-range cells adjacent to any member of the group. -/
def getLiberties (stones : Stones) (size : Int) (group : Finset (Int × Int)) : Nat :=
  (group.biUnion (fun p => ((neighbors4 p).filter
    (fun q => decide (inRange q size) && (stoneAt stones q).isNone)).toFinset)).card

/-- The deletion loop `for gx, gy in group: del self.stones[(gx, gy)]`. -/
def removeStones (stones : Stones) (cells : Finset (Int × Int)) : Stones :=
  stones.filter (fun e => e.1 ∉ cells)

/-- `'W' if color == 'B' else 'B'`. -/
def flip_player (color : String) : String := if color = "B" then "W" else "B"

/-- One neighbor of the capture scan in src/board.py `BoardState.play`
(steps 2: capture any adjacent zero-liberty opponent group, counting the
removed stones). -/
def captureStep (size : Int) (opponent : String) (acc : Stones × Nat)
    (n : Int × Int) : Stones × Nat :=
  if inRange n size ∧ stoneAt acc.1 n = some opponent then
    let group := getGroup acc.1 size n
    if getLiberties acc.1 size group = 0
    then (removeStones acc.1 group, acc.2 + group.card)
    else acc
  else acc

/-- src/board.py `BoardState.play`: pass handling, coordinate validation,
stone placement, sequential capture of adjacent zero-liberty opponent
groups, prisoner accounting, and suicide removal when nothing was
captured. -/
def BoardState.play (b : BoardState) (color coord : String) : Except PyErr BoardState :=
  if pyUpper coord = "PASS" then
    .ok { b with moves := b.moves ++ [(color, "PASS")], next_player := flip_player color }
  else
    match gtp_to_coords coord b.size with
    | .error e => .error e
    | .ok xy =>
      if (stoneAt b.stones xy).isSome then .error .valueError
      else
        let stones1 := b.stones ++ [(xy, color)]
        let opponent := if color = "B" then "W" else "B"
        let res := (neighbors4 xy).foldl (captureStep b.size opponent) (stones1, 0)
        let captured_total := res.2
        let prisoners2 := fun c =>
          if c = color then b.prisoners c + captured_total else b.prisoners c
        let stones3 :=
          if captured_total = 0 then
            let own_group := getGroup res.1 b.size xy
            if getLiberties res.1 b.size own_group = 0
            then removeStones res.1 own_group else res.1
          else res.1
        .ok { b with
              stones := stones3
              moves := b.moves ++ [(color, coord)]
              next_player := flip_player color
              prisoners := prisoners2 }

/-! ### Correctness of the flood fill -/

/-- One 4-connectivity step onto a same-color in-range stone. -/
def adjStep (stones : Stones) (size : Int) (col : String) (p q : Int × Int) : Prop :=
  q ∈ neighbors4 p ∧ inRange q size ∧ stoneAt stones q = some col

/-- Connectivity through same-color in-range stones. -/
def Conn (stones : Stones) (size : Int) (col : String) (start p : Int × Int) : Prop :=
  Relation.ReflTransGen (adjStep stones size col) start p

theorem neighbors4_symm (p q : Int × Int) : q ∈ neighbors4 p ↔ p ∈ neighbors4 q := by
  simp only [neighbors4, List.mem_cons, List.mem_singleton, List.not_mem_nil, or_false,
    Prod.ext_iff]
  omega

theorem groupConsider_cases (stones : Stones) (size : Int) (col : String)
    (acc : Finset (Int × Int) × List (Int × Int)) (q : Int × Int) :
    (inRange q size ∧ q ∉ acc.1 ∧ stoneAt stones q = some col ∧
        groupConsider stones size col acc q = (insert q acc.1, q :: acc.2)) ∨
      groupConsider stones size col acc q = acc := by
  unfold groupConsider
  by_cases h : inRange q size ∧ q ∉ acc.1 ∧ stoneAt stones q = some col
  · exact Or.inl ⟨h.1, h.2.1, h.2.2, if_pos h⟩
  · exact Or.inr (if_neg h)

theorem groupFold_fst_mono (stones : Stones) (size : Int) (col : String)
    (l : List (Int × Int)) :
    ∀ acc, acc.1 ⊆ (l.foldl (groupConsider stones size col) acc).1 := by
  induction l with
  | nil => intro acc; exact subset_rfl
  | cons a l ih =>
    intro acc
    simp only [List.foldl_cons]
    refine subset_trans ?_ (ih (groupConsider stones size col acc a))
    rcases groupConsider_cases stones size col acc a with ⟨_, _, _, he⟩ | he
    · rw [he]; exact Finset.subset_insert _ _
    · rw [he]

theorem groupFold_fst_char (stones : Stones) (size : Int) (col : String)
    (l : List (Int × Int)) :
    ∀ acc, ∀ x ∈ (l.foldl (groupConsider stones size col) acc).1,
      x ∈ acc.1 ∨ (x ∈ l ∧ inRange x size ∧ stoneAt stones x = some col) := by
  induction l with
  | nil => intro acc x hx; exact Or.inl hx
  | cons a l ih =>
    intro acc x hx
    simp only [List.foldl_cons] at hx
    rcases ih (groupConsider stones size col acc a) x hx with hx' | ⟨h1, h2, h3⟩
    · rcases groupConsider_cases stones size col acc a with ⟨hr, _, hc, he⟩ | he
      · rw [he] at hx'
        rcases Finset.mem_insert.mp hx' with hxa | hxa
        · subst hxa; exact Or.inr ⟨List.mem_cons_self _ _, hr, hc⟩
        · exact Or.inl hxa
      · rw [he] at hx'; exact Or.inl hx'
    · exact Or.inr ⟨List.mem_cons_of_mem _ h1, h2, h3⟩

theorem groupFold_snd_sup (stones : Stones) (size : Int) (col : String)
    (l : List (Int × Int)) :
    ∀ acc, ∀ x ∈ acc.2, x ∈ (l.foldl (groupConsider stones size col) acc).2 := by
  induction l with
  | nil => intro acc x hx; exact hx
  | cons a l ih =>
    intro acc x hx
    simp only [List.foldl_cons]
    refine ih (groupConsider stones size col acc a) x ?_
    rcases groupConsider_cases stones size col acc a with ⟨_, _, _, he⟩ | he
    · rw [he]; exact List.mem_cons_of_mem _ hx
    · rw [he]; exact hx

theorem groupFold_snd_char (stones : Stones) (size : Int) (col : String)
    (l : List (Int × Int)) :
    ∀ acc, ∀ x ∈ (l.foldl (groupConsider stones size col) acc).2,
      x ∈ acc.2 ∨ (x ∈ l ∧ inRange x size ∧ stoneAt stones x = some col) := by
  induction l with
  | nil => intro acc x hx; exact Or.inl hx
  | cons a l ih =>
    intro acc x hx
    simp only [List.foldl_cons] at hx
    rcases ih (groupConsider stones size col acc a) x hx with hx' | ⟨h1, h2, h3⟩
    · rcases groupConsider_cases stones size col acc a with ⟨hr, _, hc, he⟩ | he
      · rw [he] at hx'
        rcases List.mem_cons.mp hx' with hxa | hxa
        · subst hxa; exact Or.inr ⟨List.mem_cons_self _ _, hr, hc⟩
        · exact Or.inl hxa
      · rw [he] at hx'; exact Or.inl hx'
    · exact Or.inr ⟨List.mem_cons_of_mem _ h1, h2, h3⟩

theorem groupFold_covers (stones : Stones) (size : Int) (col : String)
    (l : List (Int × Int)) :
    ∀ acc, ∀ q ∈ l, inRange q size → stoneAt stones q = some col →
      q ∈ (l.foldl (groupConsider stones size col) acc).1 := by
  induction l with
  | nil => intro acc q hq; exact absurd hq (List.not_mem_nil q)
  | cons a l ih =>
    intro acc q hq hr hc
    simp only [List.foldl_cons]
    rcases List.mem_cons.mp hq with hqa | hqa
    · subst hqa
      refine Finset.mem_of_subset (groupFold_fst_mono stones size col l _) ?_
      rcases groupConsider_cases stones size col acc q with ⟨_, _, _, he⟩ | he
      · rw [he]; exact Finset.mem_insert_self _ _
      · rw [he]
        -- the guard failed although q is in range and colored: q was already in the group
        by_cases hmem : q ∈ acc.1
        · exact hmem
        · exfalso
          have hcond : inRange q size ∧ q ∉ acc.1 ∧ stoneAt stones q = some col :=
            ⟨hr, hmem, hc⟩
          rw [groupConsider, if_pos hcond] at he
          have h2 := congrArg Prod.snd he
          exact List.cons_ne_self q acc.2 h2
    · exact ih (groupConsider stones size col acc a) q hqa hr hc

theorem groupFold_fst_stack (stones : Stones) (size : Int) (col : String)
    (l : List (Int × Int)) :
    ∀ acc, ∀ x ∈ (l.foldl (groupConsider stones size col) acc).1,
      x ∈ acc.1 ∨ x ∈ (l.foldl (groupConsider stones size col) acc).2 := by
  induction l with
  | nil => intro acc x hx; exact Or.inl hx
  | cons a l ih =>
    intro acc x hx
    simp only [List.foldl_cons] at hx ⊢
    rcases ih (groupConsider stones size col acc a) x hx with hx' | hx'
    · rcases groupConsider_cases stones size col acc a with ⟨_, _, _, he⟩ | he
      · rw [he] at hx'
        rcases Finset.mem_insert.mp hx' with hxa | hxa
        · subst hxa
          refine Or.inr (groupFold_snd_sup stones size col l _ x ?_)
          rw [he]; exact List.mem_cons_self _ _
        · exact Or.inl hxa
      · rw [he] at hx'; exact Or.inl hx'
    · exact Or.inr hx'

theorem getGroupLoop_supset (stones : Stones) (size : Int) (col : String) :
    ∀ group stack, group ⊆ getGroupLoop stones size col group stack := by
  intro group stack
  induction group, stack using getGroupLoop.induct stones size col with
  | case1 group => rw [getGroupLoop]
  | case2 group p rest nxt =>
    rename_i ih
    rw [getGroupLoop]
    exact subset_trans (groupFold_fst_mono stones size col (neighbors4 p) (group, rest)) ih

theorem getGroupLoop_sound (stones : Stones) (size : Int) (col : String)
    (P : (Int × Int) → Prop)
    (hstep : ∀ p q, P p → q ∈ neighbors4 p → inRange q size →
      stoneAt stones q = some col → P q) :
    ∀ group stack, (∀ x ∈ group, P x) → (∀ x ∈ stack, P x) →
      ∀ x ∈ getGroupLoop stones size col group stack, P x := by
  intro group stack
  induction group, stack using getGroupLoop.induct stones size col with
  | case1 group =>
    intro hg _ x hx
    rw [getGroupLoop] at hx
    exact hg x hx
  | case2 group p rest nxt =>
    rename_i ih
    intro hg hs x hx
    rw [getGroupLoop] at hx
    refine ih ?_ ?_ x hx
    · intro z hz
      rcases groupFold_fst_char stones size col (neighbors4 p) (group, rest) z hz
        with h | ⟨hzl, hzr, hzc⟩
      · exact hg z h
      · exact hstep p z (hs p (List.mem_cons_self _ _)) hzl hzr hzc
    · intro z hz
      rcases groupFold_snd_char stones size col (neighbors4 p) (group, rest) z hz
        with h | ⟨hzl, hzr, hzc⟩
      · exact hs z (List.mem_cons_of_mem _ h)
      · exact hstep p z (hs p (List.mem_cons_self _ _)) hzl hzr hzc

/-- A set closed under same-color in-range adjacency. -/
def GroupClosed (stones : Stones) (size : Int) (col : String)
    (A : Finset (Int × Int)) : Prop :=
  ∀ x ∈ A, ∀ q ∈ neighbors4 x, inRange q size → stoneAt stones q = some col → q ∈ A

theorem getGroupLoop_closed (stones : Stones) (size : Int) (col : String) :
    ∀ group stack,
      (∀ x ∈ group, x ∈ stack ∨
        ∀ q ∈ neighbors4 x, inRange q size → stoneAt stones q = some col → q ∈ group) →
      GroupClosed stones size col (getGroupLoop stones size col group stack) := by
  intro group stack
  induction group, stack using getGroupLoop.induct stones size col with
  | case1 group =>
    intro hinv x hx q hq hr hc
    rw [getGroupLoop] at hx ⊢
    rcases hinv x hx with h | h
    · exact absurd h (List.not_mem_nil x)
    · exact h q hq hr hc
  | case2 group p rest nxt =>
    rename_i ih
    intro hinv
    rw [getGroupLoop]
    refine ih ?_
    intro x hx
    rcases groupFold_fst_stack stones size col (neighbors4 p) (group, rest) x hx
      with hxg | hxs
    · rcases hinv x hxg with hxstk | hcl
      · rcases List.mem_cons.mp hxstk with hxp | hxr
        · subst hxp
          exact Or.inr (fun q hq hr hc =>
            groupFold_covers stones size col (neighbors4 x) (group, rest) q hq hr hc)
        · exact Or.inl (groupFold_snd_sup stones size col (neighbors4 p) (group, rest) x hxr)
      · exact Or.inr (fun q hq hr hc =>
          Finset.mem_of_subset (groupFold_fst_mono stones size col (neighbors4 p) (group, rest))
            (hcl q hq hr hc))
    · exact Or.inl hxs

theorem getGroup_of_colored (stones : Stones) (size : Int) (start : Int × Int)
    (col : String) (hc : stoneAt stones start = some col) (hne : col ≠ "") :
    getGroup stones size start = getGroupLoop stones size col {start} [start] := by
  unfold getGroup
  rw [hc]
  exact if_neg hne

theorem getGroup_mem_self (stones : Stones) (size : Int) (start : Int × Int)
    (col : String) (hc : stoneAt stones start = some col) (hne : col ≠ "") :
    start ∈ getGroup stones size start := by
  rw [getGroup_of_colored stones size start col hc hne]
  exact getGroupLoop_supset stones size col {start} [start] (Finset.mem_singleton_self start)

theorem getGroup_subset_conn (stones : Stones) (size : Int) (start : Int × Int)
    (col : String) (hc : stoneAt stones start = some col) (hne : col ≠ "") :
    ∀ p ∈ getGroup stones size start, Conn stones size col start p := by
  intro p hp
  rw [getGroup_of_colored stones size start col hc hne] at hp
  refine getGroupLoop_sound stones size col (Conn stones size col start)
    (fun a q hPa hq hr hc' => Relation.ReflTransGen.tail hPa ⟨hq, hr, hc'⟩)
    {start} [start] ?_ ?_ p hp
  · intro x hx
    rw [Finset.mem_singleton] at hx
    subst hx
    exact Relation.ReflTransGen.refl
  · intro x hx
    rcases List.mem_singleton.mp hx with hx
    subst hx
    exact Relation.ReflTransGen.refl

theorem getGroup_closed (stones : Stones) (size : Int) (start : Int × Int)
    (col : String) (hc : stoneAt stones start = some col) (hne : col ≠ "") :
    GroupClosed stones size col (getGroup stones size start) := by
  rw [getGroup_of_colored stones size start col hc hne]
  refine getGroupLoop_closed stones size col {start} [start] ?_
  intro x hx
  rw [Finset.mem_singleton] at hx
  subst hx
  exact Or.inl (List.mem_singleton_self _)

theorem conn_subset_getGroup (stones : Stones) (size : Int) (start : Int × Int)
    (col : String) (hc : stoneAt stones start = some col) (hne : col ≠ "") :
    ∀ p, Conn stones size col start p → p ∈ getGroup stones size start := by
  intro p hp
  induction hp with
  | refl => exact getGroup_mem_self stones size start col hc hne
  | tail hab hbc ih =>
    exact getGroup_closed stones size start col hc hne _ ih _ hbc.1 hbc.2.1 hbc.2.2

theorem getGroup_mem_iff (stones : Stones) (size : Int) (start : Int × Int)
    (col : String) (hc : stoneAt stones start = some col) (hne : col ≠ "") (p : Int × Int) :
    p ∈ getGroup stones size start ↔ Conn stones size col start p :=
  ⟨fun h => getGroup_subset_conn stones size start col hc hne p h,
   fun h => conn_subset_getGroup stones size start col hc hne p h⟩

theorem getGroup_colored (stones : Stones) (size : Int) (start : Int × Int)
    (col : String) (hc : stoneAt stones start = some col) (hne : col ≠ "") :
    ∀ p ∈ getGroup stones size start, stoneAt stones p = some col := by
  rw [getGroup_of_colored stones size start col hc hne]
  refine getGroupLoop_sound stones size col (fun p => stoneAt stones p = some col)
    (fun a q _ _ _ hq => hq) {start} [start] ?_ ?_
  · intro x hx; rw [Finset.mem_singleton] at hx; subst hx; exact hc
  · intro x hx; rcases List.mem_singleton.mp hx with hx; subst hx; exact hc

theorem getGroup_inRange (stones : Stones) (size : Int) (start : Int × Int)
    (col : String) (hc : stoneAt stones start = some col) (hne : col ≠ "")
    (hin : inRange start size) :
    ∀ p ∈ getGroup stones size start, inRange p size := by
  rw [getGroup_of_colored stones size start col hc hne]
  refine getGroupLoop_sound stones size col (fun p => inRange p size)
    (fun a q _ _ hr _ => hr) {start} [start] ?_ ?_
  · intro x hx; rw [Finset.mem_singleton] at hx; subst hx; exact hin
  · intro x hx; rcases List.mem_singleton.mp hx with hx; subst hx; exact hin

theorem conn_props (stones : Stones) (size : Int) (col : String) (start p : Int × Int)
    (h : Conn stones size col start p) :
    p = start ∨ (inRange p size ∧ stoneAt stones p = some col) := by
  induction h with
  | refl => exact Or.inl rfl
  | tail _ hbc _ => exact Or.inr ⟨hbc.2.1, hbc.2.2⟩

theorem conn_symm (stones : Stones) (size : Int) (col : String) (start : Int × Int)
    (hin : inRange start size) (hc : stoneAt stones start = some col) :
    ∀ p, Conn stones size col start p → Conn stones size col p start := by
  intro p h
  induction h with
  | refl => exact Relation.ReflTransGen.refl
  | tail hab hbc ih =>
    refine Relation.ReflTransGen.head ?_ ih
    rcases conn_props stones size col start _ hab with hb | ⟨hbr, hbc'⟩
    · subst hb; exact ⟨(neighbors4_symm _ _).mp hbc.1, hin, hc⟩
    · exact ⟨(neighbors4_symm _ _).mp hbc.1, hbr, hbc'⟩

theorem getGroup_eq_of_mem (stones : Stones) (size : Int) (start q : Int × Int)
    (col : String) (hin : inRange start size)
    (hc : stoneAt stones start = some col) (hne : col ≠ "")
    (hq : q ∈ getGroup stones size start) :
    getGroup stones size q = getGroup stones size start := by
  have hcq : stoneAt stones q = some col := getGroup_colored stones size start col hc hne q hq
  have hconnq : Conn stones size col start q :=
    getGroup_subset_conn stones size start col hc hne q hq
  ext p
  rw [getGroup_mem_iff stones size q col hcq hne, getGroup_mem_iff stones size start col hc hne]
  constructor
  · exact fun h => hconnq.trans h
  · exact fun h => (conn_symm stones size col start hin hc q hconnq).trans h

/-! ### Stability of groups and liberties under removal of other stones -/

theorem stoneAt_cons (e : (Int × Int) × String) (st : Stones) (p : Int × Int) :
    stoneAt (e :: st) p = if e.1 = p then some e.2 else stoneAt st p := by
  unfold stoneAt
  by_cases h : e.1 = p
  · rw [List.find?_cons_of_pos _ (by simpa using h), if_pos h]
    rfl
  · rw [List.find?_cons_of_neg _ (by simpa using h), if_neg h]

theorem removeStones_cons (e : (Int × Int) × String) (st : Stones)
    (cells : Finset (Int × Int)) :
    removeStones (e :: st) cells =
      if e.1 ∈ cells then removeStones st cells else e :: removeStones st cells := by
  unfold removeStones
  by_cases h : e.1 ∈ cells
  · rw [List.filter_cons_of_neg (by simpa using h), if_pos h]
  · rw [List.filter_cons_of_pos (by simpa using h), if_neg h]

theorem stoneAt_removeStones (st : Stones) (cells : Finset (Int × Int)) (p : Int × Int) :
    stoneAt (removeStones st cells) p = if p ∈ cells then none else stoneAt st p := by
  induction st with
  | nil =>
    unfold removeStones stoneAt
    simp only [List.filter_nil, List.find?_nil, Option.map_none]
    split <;> rfl
  | cons e st ih =>
    rw [removeStones_cons]
    by_cases hec : e.1 ∈ cells
    · rw [if_pos hec, ih, stoneAt_cons]
      by_cases hpc : p ∈ cells
      · rw [if_pos hpc, if_pos hpc]
      · rw [if_neg hpc, if_neg hpc, if_neg]
        intro hep
        exact hpc (hep ▸ hec)
    · rw [if_neg hec, stoneAt_cons, stoneAt_cons, ih]
      by_cases hep : e.1 = p
      · rw [if_pos hep, if_neg (hep ▸ hec), if_pos hep]
      · rw [if_neg hep, if_neg hep]

theorem removeStones_empty (st : Stones) : removeStones st ∅ = st := by
  unfold removeStones
  apply List.filter_eq_self.mpr
  intro a _
  simp

theorem removeStones_removeStones (st : Stones) (A B : Finset (Int × Int)) :
    removeStones (removeStones st A) B = removeStones st (A ∪ B) := by
  unfold removeStones
  rw [List.filter_filter]
  apply List.filter_congr
  intro e _
  simp only [Finset.mem_union, decide_not, Bool.and_eq_true, Bool.not_eq_true',
    decide_eq_false_iff_not, decide_eq_true_eq]
  by_cases hA : e.1 ∈ A <;> by_cases hB : e.1 ∈ B <;> simp [hA, hB]

theorem conn_removeStones_iff (st : Stones) (size : Int) (col : String)
    (cells : Finset (Int × Int)) (start : Int × Int)
    (hdisj : ∀ p, Conn st size col start p → p ∉ cells) :
    ∀ p, Conn (removeStones st cells) size col start p ↔ Conn st size col start p := by
  intro p
  constructor
  · intro h
    induction h with
    | refl => exact Relation.ReflTransGen.refl
    | tail hab hbc ih =>
      rename_i b q
      refine Relation.ReflTransGen.tail ih ⟨hbc.1, hbc.2.1, ?_⟩
      have hq := hbc.2.2
      rw [stoneAt_removeStones] at hq
      by_cases hc2 : q ∈ cells
      · rw [if_pos hc2] at hq; exact absurd hq (by simp)
      · rw [if_neg hc2] at hq; exact hq
  · intro h
    induction h with
    | refl => exact Relation.ReflTransGen.refl
    | tail hab hbc ih =>
      have hreach := Relation.ReflTransGen.tail hab hbc
      refine Relation.ReflTransGen.tail ih ⟨hbc.1, hbc.2.1, ?_⟩
      rw [stoneAt_removeStones, if_neg (hdisj _ hreach)]
      exact hbc.2.2

theorem getGroup_removeStones (st : Stones) (size : Int) (cells : Finset (Int × Int))
    (start : Int × Int) (col : String)
    (hc : stoneAt st start = some col) (hne : col ≠ "")
    (hsn : start ∉ cells)
    (hdisj : ∀ p ∈ getGroup st size start, p ∉ cells) :
    getGroup (removeStones st cells) size start = getGroup st size start := by
  have hc' : stoneAt (removeStones st cells) start = some col := by
    rw [stoneAt_removeStones, if_neg hsn]; exact hc
  have hdisj' : ∀ p, Conn st size col start p → p ∉ cells :=
    fun p hp => hdisj p (conn_subset_getGroup st size start col hc hne p hp)
  ext p
  rw [getGroup_mem_iff _ size start col hc' hne, getGroup_mem_iff st size start col hc hne]
  exact conn_removeStones_iff st size col cells start hdisj' p

theorem getLiberties_removeStones (st : Stones) (size : Int)
    (cells : Finset (Int × Int)) (G : Finset (Int × Int))
    (hnoadj : ∀ p ∈ G, ∀ q ∈ neighbors4 p, inRange q size → q ∉ cells) :
    getLiberties (removeStones st cells) size G = getLiberties st size G := by
  unfold getLiberties
  congr 1
  apply Finset.biUnion_congr rfl
  intro p hp
  congr 1
  apply List.filter_congr
  intro q hq
  by_cases hr : inRange q size
  · have hqc : q ∉ cells := hnoadj p hp q hq hr
    rw [stoneAt_removeStones, if_neg hqc]
  · simp [hr]

/-! ### The sequential capture scan computes the captured-set union -/

/-- The claim's captured set: the union, over the scanned cells that hold
the opponent's color in range and whose group (on the board with the new
stone placed) has zero liberties, of those whole groups. -/
def capturedOverList (mid : Stones) (size : Int) (opp : String) :
    List (Int × Int) → Finset (Int × Int)
  | [] => ∅
  | n :: l =>
    (if inRange n size ∧ stoneAt mid n = some opp ∧
        getLiberties mid size (getGroup mid size n) = 0
      then getGroup mid size n else ∅) ∪ capturedOverList mid size opp l

theorem mem_capturedOverList (mid : Stones) (size : Int) (opp : String)
    (l : List (Int × Int)) (p : Int × Int) :
    p ∈ capturedOverList mid size opp l ↔
      ∃ n ∈ l, inRange n size ∧ stoneAt mid n = some opp ∧
        getLiberties mid size (getGroup mid size n) = 0 ∧ p ∈ getGroup mid size n := by
  induction l with
  | nil => simp [capturedOverList]
  | cons n l ih =>
    unfold capturedOverList
    rw [Finset.mem_union, ih]
    constructor
    · intro h
      rcases h with h | ⟨m, hm, hp⟩
      · by_cases hg : inRange n size ∧ stoneAt mid n = some opp ∧
            getLiberties mid size (getGroup mid size n) = 0
        · rw [if_pos hg] at h
          exact ⟨n, List.mem_cons_self _ _, hg.1, hg.2.1, hg.2.2, h⟩
        · rw [if_neg hg] at h
          exact absurd h (Finset.not_mem_empty p)
      · exact ⟨m, List.mem_cons_of_mem _ hm, hp⟩
    · intro ⟨m, hm, h1, h2, h3, h4⟩
      rcases List.mem_cons.mp hm with hmn | hml
      · subst hmn
        exact Or.inl (by rw [if_pos ⟨h1, h2, h3⟩]; exact h4)
      · exact Or.inr ⟨m, hml, h1, h2, h3, h4⟩

theorem captureFold_spec (mid : Stones) (size : Int) (opp : String) (hopp : opp ≠ "")
    (l : List (Int × Int)) :
    ∀ (D : Finset (Int × Int)),
      (∀ p ∈ D, stoneAt mid p = some opp ∧ inRange p size) →
      (∀ p ∈ D, getGroup mid size p ⊆ D) →
      (l.foldl (captureStep size opp) (removeStones mid D, D.card)).1
          = removeStones mid (D ∪ capturedOverList mid size opp l) ∧
        (l.foldl (captureStep size opp) (removeStones mid D, D.card)).2
          = (D ∪ capturedOverList mid size opp l).card ∧
        (∀ p ∈ D ∪ capturedOverList mid size opp l,
          stoneAt mid p = some opp ∧ inRange p size) ∧
        (∀ p ∈ D ∪ capturedOverList mid size opp l,
          getGroup mid size p ⊆ D ∪ capturedOverList mid size opp l) := by
  induction l with
  | nil =>
    intro D h1 h2
    have he : capturedOverList mid size opp [] = ∅ := rfl
    rw [he, Finset.union_empty]
    exact ⟨rfl, rfl, h1, h2⟩
  | cons n l ih =>
    intro D h1 h2
    simp only [List.foldl_cons]
    unfold capturedOverList
    by_cases hg : inRange n size ∧ stoneAt (removeStones mid D) n = some opp
    · -- the scan sees an in-range opponent stone, so n is not yet captured
      have hnD : n ∉ D := by
        intro hin
        have := stoneAt_removeStones mid D n
        rw [if_pos hin] at this
        rw [this] at hg
        exact Option.noConfusion hg.2
      have hmidn : stoneAt mid n = some opp := by
        have := stoneAt_removeStones mid D n
        rw [if_neg hnD] at this
        rw [this] at hg
        exact hg.2
      have hdisjG : ∀ p ∈ getGroup mid size n, p ∉ D := by
        intro p hpG hpD
        have hsub : getGroup mid size p ⊆ D := h2 p hpD
        have heq : getGroup mid size p = getGroup mid size n :=
          getGroup_eq_of_mem mid size n p opp hg.1 hmidn hopp hpG
        have : n ∈ D := hsub (heq ▸ getGroup_mem_self mid size n opp hmidn hopp)
        exact hnD this
      have hGeq : getGroup (removeStones mid D) size n = getGroup mid size n :=
        getGroup_removeStones mid size D n opp hmidn hopp hnD hdisjG
      have hnoadj : ∀ p ∈ getGroup mid size n, ∀ q ∈ neighbors4 p,
          inRange q size → q ∉ D := by
        intro p hpG q hq hr hqD
        have hqc : stoneAt mid q = some opp := (h1 q hqD).1
        have hconn : Conn mid size opp n q :=
          Relation.ReflTransGen.tail
            (getGroup_subset_conn mid size n opp hmidn hopp p hpG) ⟨hq, hr, hqc⟩
        have : q ∈ getGroup mid size n :=
          conn_subset_getGroup mid size n opp hmidn hopp q hconn
        exact hdisjG q this hqD
      have hLeq : getLiberties (removeStones mid D) size (getGroup mid size n)
          = getLiberties mid size (getGroup mid size n) :=
        getLiberties_removeStones mid size D (getGroup mid size n) hnoadj
      unfold captureStep
      rw [if_pos (by exact hg)]
      simp only
      rw [hGeq, hLeq]
      by_cases hz : getLiberties mid size (getGroup mid size n) = 0
      · rw [if_pos hz]
        have hdisjF : Disjoint D (getGroup mid size n) :=
          Finset.disjoint_right.mpr (fun {a} ha => hdisjG a ha)
        have hcard : D.card + (getGroup mid size n).card
            = (D ∪ getGroup mid size n).card :=
          (Finset.card_union_of_disjoint hdisjF).symm
        have hrm : removeStones (removeStones mid D) (getGroup mid size n)
            = removeStones mid (D ∪ getGroup mid size n) :=
          removeStones_removeStones mid D (getGroup mid size n)
        have h1' : ∀ p ∈ D ∪ getGroup mid size n,
            stoneAt mid p = some opp ∧ inRange p size := by
          intro p hp
          rcases Finset.mem_union.mp hp with hp | hp
          · exact h1 p hp
          · exact ⟨getGroup_colored mid size n opp hmidn hopp p hp,
              getGroup_inRange mid size n opp hmidn hopp hg.1 p hp⟩
        have h2' : ∀ p ∈ D ∪ getGroup mid size n,
            getGroup mid size p ⊆ D ∪ getGroup mid size n := by
          intro p hp
          rcases Finset.mem_union.mp hp with hp | hp
          · exact subset_trans (h2 p hp) Finset.subset_union_left
          · rw [getGroup_eq_of_mem mid size n p opp hg.1 hmidn hopp hp]
            exact Finset.subset_union_right
        have hrec := ih (D ∪ getGroup mid size n) h1' h2'
        rw [hrm, hcard]
        rw [if_pos ⟨hg.1, hmidn, hz⟩]
        have hassoc : D ∪ getGroup mid size n ∪ capturedOverList mid size opp l
            = D ∪ (getGroup mid size n ∪ capturedOverList mid size opp l) :=
          Finset.union_assoc D (getGroup mid size n) (capturedOverList mid size opp l)
        rw [← hassoc]
        exact hrec
      · rw [if_neg hz, if_neg (by intro h; exact hz h.2.2)]
        rw [Finset.empty_union]
        exact ih D h1 h2
    · -- the scan skips this cell
      unfold captureStep
      rw [if_neg hg]
      by_cases hr : inRange n size
      · by_cases hmid : stoneAt mid n = some opp
        · -- n is already captured: its whole group is already inside D
          have hnD : n ∈ D := by
            by_contra hnD
            refine hg ⟨hr, ?_⟩
            rw [stoneAt_removeStones, if_neg hnD]
            exact hmid
          have hsub : getGroup mid size n ⊆ D := h2 n hnD
          have hcollapse :
              D ∪ ((if inRange n size ∧ stoneAt mid n = some opp ∧
                  getLiberties mid size (getGroup mid size n) = 0
                then getGroup mid size n else ∅) ∪ capturedOverList mid size opp l)
              = D ∪ capturedOverList mid size opp l := by
            by_cases hz : getLiberties mid size (getGroup mid size n) = 0
            · rw [if_pos ⟨hr, hmid, hz⟩, ← Finset.union_assoc,
                Finset.union_eq_left.mpr hsub]
            · rw [if_neg (by intro h; exact hz h.2.2), Finset.empty_union]
          rw [hcollapse]
          exact ih D h1 h2
        · rw [if_neg (by intro h; exact hmid h.2.1), Finset.empty_union]
          exact ih D h1 h2
      · rw [if_neg (by intro h; exact hr h.1), Finset.empty_union]
        exact ih D h1 h2

theorem stoneAt_append_self (st : Stones) (xy : Int × Int) (c : String)
    (h : stoneAt st xy = none) : stoneAt (st ++ [(xy, c)]) xy = some c := by
  induction st with
  | nil => simp [stoneAt]
  | cons e st ih =>
    rw [List.cons_append, stoneAt_cons]
    rw [stoneAt_cons] at h
    by_cases he : e.1 = xy
    · rw [if_pos he] at h; exact absurd h (by simp)
    · rw [if_neg he] at h ⊢; exact ih h

theorem stoneAt_append_other (st : Stones) (xy p : Int × Int) (c : String)
    (h : p ≠ xy) : stoneAt (st ++ [(xy, c)]) p = stoneAt st p := by
  induction st with
  | nil =>
    rw [List.nil_append, stoneAt_cons, if_neg (fun he => h he.symm)]
  | cons e st ih =>
    rw [List.cons_append, stoneAt_cons, stoneAt_cons]
    by_cases he : e.1 = p
    · rw [if_pos he, if_pos he]
    · rw [if_neg he, if_neg he]; exact ih

/-- **C3.** For every non-pass play of a stone on an unoccupied in-range
cell: each orthogonally adjacent opponent group whose liberty count is
zero after the stone is placed is removed in full, and the mover's
prisoner count increases by exactly the total number of removed opponent
stones (other counts unchanged); if no opponent stones were removed and
the placed stone's own group has zero liberties, that whole group is
removed and no prisoner count changes. The statement evaluates groups and
liberties on the intermediate board `b.stones ++ [(xy, color)]` — the
position right after placement — and `capturedOverList … (neighbors4 xy)`
is the union of the zero-liberty adjacent opponent groups
(src/board.py `BoardState.play`, `_get_group`, `_get_liberties`). -/
theorem play_capture_correct (b : BoardState) (color coord : String) (xy : Int × Int)
    (hcolor : color ≠ "")
    (hpass : pyUpper coord ≠ "PASS")
    (hparse : gtp_to_coords coord b.size = .ok xy)
    (hempty : stoneAt b.stones xy = none) :
    ∃ b', b.play color coord = .ok b' ∧
      -- (i) each adjacent opponent group with zero liberties after placement
      --     is removed in full
      (∀ n ∈ neighbors4 xy, inRange n b.size →
        stoneAt (b.stones ++ [(xy, color)]) n = some (if color = "B" then "W" else "B") →
        getLiberties (b.stones ++ [(xy, color)]) b.size
          (getGroup (b.stones ++ [(xy, color)]) b.size n) = 0 →
        ∀ p ∈ getGroup (b.stones ++ [(xy, color)]) b.size n,
          stoneAt b'.stones p = none) ∧
      -- (ii) the mover's prisoners grow by exactly the number of removed stones
      b'.prisoners color = b.prisoners color +
        (capturedOverList (b.stones ++ [(xy, color)]) b.size
          (if color = "B" then "W" else "B") (neighbors4 xy)).card ∧
      (∀ c, c ≠ color → b'.prisoners c = b.prisoners c) ∧
      -- (iii) stones outside the captured groups are untouched (capture case)
      (capturedOverList (b.stones ++ [(xy, color)]) b.size
          (if color = "B" then "W" else "B") (neighbors4 xy) ≠ ∅ →
        ∀ p, p ∉ capturedOverList (b.stones ++ [(xy, color)]) b.size
            (if color = "B" then "W" else "B") (neighbors4 xy) →
          stoneAt b'.stones p = stoneAt (b.stones ++ [(xy, color)]) p) ∧
      -- (iv) suicide: no capture and the own group has zero liberties
      (capturedOverList (b.stones ++ [(xy, color)]) b.size
          (if color = "B" then "W" else "B") (neighbors4 xy) = ∅ →
        getLiberties (b.stones ++ [(xy, color)]) b.size
          (getGroup (b.stones ++ [(xy, color)]) b.size xy) = 0 →
        (∀ p ∈ getGroup (b.stones ++ [(xy, color)]) b.size xy,
          stoneAt b'.stones p = none) ∧
        (∀ p, p ∉ getGroup (b.stones ++ [(xy, color)]) b.size xy →
          stoneAt b'.stones p = stoneAt (b.stones ++ [(xy, color)]) p) ∧
        ∀ c, b'.prisoners c = b.prisoners c) ∧
      -- (v) no capture, no suicide: the board is exactly the placement
      (capturedOverList (b.stones ++ [(xy, color)]) b.size
          (if color = "B" then "W" else "B") (neighbors4 xy) = ∅ →
        getLiberties (b.stones ++ [(xy, color)]) b.size
          (getGroup (b.stones ++ [(xy, color)]) b.size xy) ≠ 0 →
        ∀ p, stoneAt b'.stones p = stoneAt (b.stones ++ [(xy, color)]) p) := by
  have hopp_ne : (if color = "B" then "W" else "B") ≠ "" := by
    by_cases h : color = "B" <;> simp [h]
  have hps := captureFold_spec (b.stones ++ [(xy, color)]) b.size
    (if color = "B" then "W" else "B") hopp_ne (neighbors4 xy) ∅ (by simp) (by simp)
  rw [removeStones_empty, Finset.card_empty, Finset.empty_union] at hps
  obtain ⟨hst, hcap, hprops, hclosed⟩ := hps
  have hplay : b.play color coord = .ok
      { b with
        stones :=
          if ((neighbors4 xy).foldl
              (captureStep b.size (if color = "B" then "W" else "B"))
              (b.stones ++ [(xy, color)], 0)).2 = 0 then
            (if getLiberties ((neighbors4 xy).foldl
                  (captureStep b.size (if color = "B" then "W" else "B"))
                  (b.stones ++ [(xy, color)], 0)).1 b.size
                (getGroup ((neighbors4 xy).foldl
                  (captureStep b.size (if color = "B" then "W" else "B"))
                  (b.stones ++ [(xy, color)], 0)).1 b.size xy) = 0
              then removeStones ((neighbors4 xy).foldl
                  (captureStep b.size (if color = "B" then "W" else "B"))
                  (b.stones ++ [(xy, color)], 0)).1
                (getGroup ((neighbors4 xy).foldl
                  (captureStep b.size (if color = "B" then "W" else "B"))
                  (b.stones ++ [(xy, color)], 0)).1 b.size xy)
              else ((neighbors4 xy).foldl
                  (captureStep b.size (if color = "B" then "W" else "B"))
                  (b.stones ++ [(xy, color)], 0)).1)
          else ((neighbors4 xy).foldl
              (captureStep b.size (if color = "B" then "W" else "B"))
              (b.stones ++ [(xy, color)], 0)).1
        moves := b.moves ++ [(color, coord)]
        next_player := flip_player color
        prisoners := fun c => if c = color then b.prisoners c +
          ((neighbors4 xy).foldl
            (captureStep b.size (if color = "B" then "W" else "B"))
            (b.stones ++ [(xy, color)], 0)).2 else b.prisoners c } := by
    unfold BoardState.play
    rw [if_neg hpass, hparse]
    simp only [hempty, Option.isSome_none, Bool.false_eq_true, if_false]
  rw [hst, hcap] at hplay
  refine ⟨_, hplay, ?_, ?_, ?_, ?_, ?_, ?_⟩
  · -- (i)
    intro n hn hr hcoln hlib p hp
    have hpcap : p ∈ capturedOverList (b.stones ++ [(xy, color)]) b.size
        (if color = "B" then "W" else "B") (neighbors4 xy) :=
      (mem_capturedOverList _ _ _ _ p).mpr ⟨n, hn, hr, hcoln, hlib, hp⟩
    have hne : (capturedOverList (b.stones ++ [(xy, color)]) b.size
        (if color = "B" then "W" else "B") (neighbors4 xy)).card ≠ 0 := by
      rw [ne_eq, Finset.card_eq_zero]
      intro h
      rw [h] at hpcap
      exact Finset.not_mem_empty p hpcap
    show stoneAt (if _ = 0 then _ else _) p = none
    rw [if_neg hne, stoneAt_removeStones, if_pos hpcap]
  · -- (ii) mover's prisoners
    show (if color = color then _ else _) = _
    rw [if_pos rfl]
  · -- (ii') other colors
    intro c hc
    show (if c = color then _ else _) = _
    rw [if_neg hc]
  · -- (iii) frame, capture case
    intro hnonempty p hp
    have hne : (capturedOverList (b.stones ++ [(xy, color)]) b.size
        (if color = "B" then "W" else "B") (neighbors4 xy)).card ≠ 0 := by
      rw [ne_eq, Finset.card_eq_zero]; exact hnonempty
    show stoneAt (if _ = 0 then _ else _) p = _
    rw [if_neg hne, stoneAt_removeStones, if_neg hp]
  · -- (iv) suicide
    intro hemptycap hlib
    have hzero : (capturedOverList (b.stones ++ [(xy, color)]) b.size
        (if color = "B" then "W" else "B") (neighbors4 xy)).card = 0 := by
      rw [Finset.card_eq_zero]; exact hemptycap
    refine ⟨?_, ?_, ?_⟩
    · intro p hp
      show stoneAt (if _ = 0 then _ else _) p = none
      rw [if_pos hzero]
      rw [hemptycap, removeStones_empty]
      rw [if_pos hlib, stoneAt_removeStones, if_pos hp]
    · intro p hp
      show stoneAt (if _ = 0 then _ else _) p = _
      rw [if_pos hzero]
      rw [hemptycap, removeStones_empty]
      rw [if_pos hlib, stoneAt_removeStones, if_neg hp]
    · intro c
      show (if c = color then _ else _) = _
      by_cases hc : c = color
      · rw [if_pos hc, hzero, hc, Nat.add_zero]
      · rw [if_neg hc]
  · -- (v) neither capture nor suicide
    intro hemptycap hlib p
    have hzero : (capturedOverList (b.stones ++ [(xy, color)]) b.size
        (if color = "B" then "W" else "B") (neighbors4 xy)).card = 0 := by
      rw [Finset.card_eq_zero]; exact hemptycap
    show stoneAt (if _ = 0 then _ else _) p = _
    rw [if_pos hzero]
    rw [hemptycap, removeStones_empty]
    rw [if_neg hlib]

/-- A concrete 9×9 position: White at A1, Black at A2; Black plays B1,
capturing the lone white stone. -/
def c3Board : BoardState :=
  { size := 9, stones := [((0, 0), "W"), ((0, 1), "B")], komi := 11/2, next_player := "B" }

/-- Witness for C3: the capture theorem instantiated at `c3Board`,
Black playing "B1" (cell `(1, 0)`), with every hypothesis discharged
concretely. -/
theorem play_capture_correct_witness :
    ("B" : String) ≠ "" ∧ pyUpper "B1" ≠ "PASS" ∧
      gtp_to_coords "B1" c3Board.size = .ok (1, 0) ∧
      stoneAt c3Board.stones (1, 0) = none ∧
      (∃ b', c3Board.play "B" "B1" = .ok b' ∧
        (∀ n ∈ neighbors4 (1, 0), inRange n c3Board.size →
          stoneAt (c3Board.stones ++ [((1, 0), "B")]) n
            = some (if "B" = "B" then "W" else "B") →
          getLiberties (c3Board.stones ++ [((1, 0), "B")]) c3Board.size
            (getGroup (c3Board.stones ++ [((1, 0), "B")]) c3Board.size n) = 0 →
          ∀ p ∈ getGroup (c3Board.stones ++ [((1, 0), "B")]) c3Board.size n,
            stoneAt b'.stones p = none) ∧
        b'.prisoners "B" = c3Board.prisoners "B" +
          (capturedOverList (c3Board.stones ++ [((1, 0), "B")]) c3Board.size
            (if "B" = "B" then "W" else "B") (neighbors4 (1, 0))).card ∧
        (∀ c, c ≠ "B" → b'.prisoners c = c3Board.prisoners c) ∧
        (capturedOverList (c3Board.stones ++ [((1, 0), "B")]) c3Board.size
            (if "B" = "B" then "W" else "B") (neighbors4 (1, 0)) ≠ ∅ →
          ∀ p, p ∉ capturedOverList (c3Board.stones ++ [((1, 0), "B")]) c3Board.size
              (if "B" = "B" then "W" else "B") (neighbors4 (1, 0)) →
            stoneAt b'.stones p = stoneAt (c3Board.stones ++ [((1, 0), "B")]) p) ∧
        (capturedOverList (c3Board.stones ++ [((1, 0), "B")]) c3Board.size
            (if "B" = "B" then "W" else "B") (neighbors4 (1, 0)) = ∅ →
          getLiberties (c3Board.stones ++ [((1, 0), "B")]) c3Board.size
            (getGroup (c3Board.stones ++ [((1, 0), "B")]) c3Board.size (1, 0)) = 0 →
          (∀ p ∈ getGroup (c3Board.stones ++ [((1, 0), "B")]) c3Board.size (1, 0),
            stoneAt b'.stones p = none) ∧
          (∀ p, p ∉ getGroup (c3Board.stones ++ [((1, 0), "B")]) c3Board.size (1, 0) →
            stoneAt b'.stones p = stoneAt (c3Board.stones ++ [((1, 0), "B")]) p) ∧
          ∀ c, b'.prisoners c = c3Board.prisoners c) ∧
        (capturedOverList (c3Board.stones ++ [((1, 0), "B")]) c3Board.size
            (if "B" = "B" then "W" else "B") (neighbors4 (1, 0)) = ∅ →
          getLiberties (c3Board.stones ++ [((1, 0), "B")]) c3Board.size
            (getGroup (c3Board.stones ++ [((1, 0), "B")]) c3Board.size (1, 0)) ≠ 0 →
          ∀ p, stoneAt b'.stones p = stoneAt (c3Board.stones ++ [((1, 0), "B")]) p)) :=
  ⟨by decide, by decide, rfl, rfl,
    play_capture_correct c3Board "B" "B1" (1, 0) (by decide) (by decide) rfl rfl⟩

/-- **C10.** For every board state `b`, `b.copy` returns a state whose
stones, moves, handicap stones, size, komi and next player equal `b`'s,
but whose prisoner counts are reset to zero for both colors — even when
`b` records captured prisoners (src/board.py `BoardState.copy` omits
`prisoners` from the constructor call, so the dataclass default applies). -/
theorem copy_preserves_all_but_prisoners (b : BoardState) :
    b.copy.size = b.size ∧ b.copy.stones = b.stones ∧ b.copy.moves = b.moves ∧
      b.copy.handicap_stones = b.handicap_stones ∧ b.copy.komi = b.komi ∧
      b.copy.next_player = b.next_player ∧
      b.copy.prisoners "B" = 0 ∧ b.copy.prisoners "W" = 0 :=
  ⟨rfl, rfl, rfl, rfl, rfl, rfl, rfl, rfl⟩

/-! ## JSON payloads and the analysis cache (src/cache.py) -/

/-- A parsed JSON value, as produced by `json.loads`. Objects keep their
key/value pairs as an association list (duplicate keys are already
collapsed by the parser). -/
inductive JsonVal where
  | null
  | jbool (b : Bool)
  | jnum (q : Rat)
  | jstr (s : String)
  | jarr (l : List JsonVal)
  | jobj (l : List (String × JsonVal))

mutual

/-- Python `==` on parsed JSON values (deep structural equality; the
Python quirks `True == 1` and `1 == 1.0` do not arise for the payloads
this program stores). -/
def jsonBeq : JsonVal → JsonVal → Bool
  | .null, .null => true
  | .jbool a, .jbool b => a == b
  | .jnum a, .jnum b => a == b
  | .jstr a, .jstr b => a == b
  | .jarr a, .jarr b => jsonBeqList a b
  | .jobj a, .jobj b => jsonBeqObj a b
  | _, _ => false

def jsonBeqList : List JsonVal → List JsonVal → Bool
  | [], [] => true
  | a :: as, b :: bs => jsonBeq a b && jsonBeqList as bs
  | _, _ => false

def jsonBeqObj : List (String × JsonVal) → List (String × JsonVal) → Bool
  | [], [] => true
  | a :: as, b :: bs => (a.1 == b.1) && jsonBeq a.2 b.2 && jsonBeqObj as bs
  | _, _ => false

end

/-- Python `v[k]` for a parsed JSON value: objects look keys up (a missing
key raises `KeyError`); every non-mapping value raises `TypeError`. -/
def pyGetItem (v : JsonVal) (k : String) : Except PyErr JsonVal :=
  match v with
  | .jobj l =>
    match l.find? (fun e => e.1 = k) with
    | some e => .ok e.2
    | none => .error .keyError
  | _ => .error .typeError

/-- Python iteration over a parsed JSON value: arrays yield elements,
objects yield their keys, strings yield their characters; numbers,
booleans and null raise `TypeError`. -/
def pyIterate (v : JsonVal) : Except PyErr (List JsonVal) :=
  match v with
  | .jarr l => .ok l
  | .jobj l => .ok (l.map (fun e => JsonVal.jstr e.1))
  | .jstr s => .ok (s.data.map (fun c => JsonVal.jstr (String.mk [c])))
  | _ => .error .typeError

/-- src/cache.py `MoveCandidate` as rebuilt by `from_dict` from stored
JSON: the four field values, whose types Python does not check. -/
structure RawCand where
  move : JsonVal
  winrate : JsonVal
  score_lead : JsonVal
  visits : JsonVal

/-- src/cache.py `MoveCandidate.from_dict`: reads the four required keys
in declaration order. -/
def MoveCandidate_from_dict (v : JsonVal) : Except PyErr RawCand := do
  let m ← pyGetItem v "move"
  let w ← pyGetItem v "winrate"
  let s ← pyGetItem v "score_lead"
  let vi ← pyGetItem v "visits"
  .ok ⟨m, w, s, vi⟩

/-- src/cache.py `MoveCandidate.to_dict` (dataclass `asdict`, field order). -/
def RawCand.to_dict (c : RawCand) : JsonVal :=
  .jobj [("move", c.move), ("winrate", c.winrate),
         ("score_lead", c.score_lead), ("visits", c.visits)]

/-- `json.dumps([m.to_dict() for m in top_moves])`, modelled by its parse
result: dumps-then-loads is the identity on JSON values. -/
def serialize_top_moves (l : List RawCand) : JsonVal := .jarr (l.map RawCand.to_dict)

/-- src/cache.py `MoveCandidate` with its annotated field types, as the
engine parser and the analyzer construct it. -/
structure MoveCandidate where
  move : String
  winrate : Rat
  score_lead : Rat
  visits : Int
  deriving DecidableEq, Repr

/-- The JSON image of a well-typed candidate. -/
def rawOfCand (m : MoveCandidate) : RawCand :=
  ⟨.jstr m.move, .jnum m.winrate, .jnum m.score_lead, .jnum (m.visits : Rat)⟩

/-- One row of the `analysis_cache` table (src/cache.py `CREATE_TABLE_SQL`
plus the three partial-calculation columns). `analysis_result` holds the
TEXT column by its JSON parse result (`none` = text `json.loads`
rejects); `stopped_by_limit` holds the INTEGER column 1/0/NULL;
`created_at` is an abstract timestamp. -/
structure CacheRow where
  board_hash : String
  moves_sequence : Option String
  board_size : Int
  komi : Rat
  analysis_result : Option JsonVal
  engine_visits : Int
  model_name : String
  created_at : Nat
  calculation_duration : Option Rat
  stopped_by_limit : Option Bool
  limit_setting : Option String

/-- `WHERE board_hash = ? AND engine_visits = ? AND komi = ?`. -/
def rowMatches (h : String) (v : Int) (k : Rat) (r : CacheRow) : Bool :=
  decide (r.board_hash = h) && decide (r.engine_visits = v) && decide (r.komi = k)

/-- The keyword arguments of src/cache.py `AnalysisCache.put`
(`calculation_duration`, `stopped_by_limit` and `limit_setting` default
to `None`, as in the source). -/
structure PutArgs where
  board_hash : String
  moves_sequence : Option String
  board_size : Int
  komi : Rat
  top_moves : List RawCand
  engine_visits : Int
  model_name : String
  calculation_duration : Option Rat := none
  stopped_by_limit : Option Bool := none
  limit_setting : Option String := none

/-- The row written by `INSERT OR REPLACE` in src/cache.py
`AnalysisCache.put` (`created_at = datetime.now()` is the `now`
parameter; `stopped_by_limit` stores 1/0/NULL). -/
def rowOfPut (a : PutArgs) (now : Nat) : CacheRow :=
  { board_hash := a.board_hash, moves_sequence := a.moves_sequence,
    board_size := a.board_size, komi := a.komi,
    analysis_result := some (serialize_top_moves a.top_moves),
    engine_visits := a.engine_visits, model_name := a.model_name,
    created_at := now, calculation_duration := a.calculation_duration,
    stopped_by_limit := a.stopped_by_limit, limit_setting := a.limit_setting }

/-- The dominance decision of src/cache.py `AnalysisCache.put`:
rule 1 completeness (converged beats resource-limited), rule 2 effort
(keep the existing row only when its duration exceeds the new one by more
than 10%), rule 3 recency (otherwise the newer entry wins). -/
def put_should_update (a : PutArgs) (existing : Option CacheRow) : Bool :=
  match existing with
  | none => true
  | some e =>
    if e.stopped_by_limit = some false ∧ a.stopped_by_limit = some true then false
    else if e.stopped_by_limit = some true ∧ a.stopped_by_limit = some false then true
    else if e.stopped_by_limit = a.stopped_by_limit then
      match e.calculation_duration, a.calculation_duration with
      | some ed, some nd => if ed > nd * (11/10) then false else true
      | _, _ => true
    else true

/-- src/cache.py `AnalysisCache.put`: read the row with the same
`(board_hash, engine_visits, komi)` key, apply the 3-tier dominance
policy, and `INSERT OR REPLACE` when the new entry wins. The replacement
removes the conflicting row and appends the new one at the end (highest
rowid), which is the SQLite scan order our list models. -/
def cache_put (store : List CacheRow) (a : PutArgs) (now : Nat) : List CacheRow :=
  if put_should_update a (store.find? (rowMatches a.board_hash a.engine_visits a.komi)) then
    store.filter (fun r => ! rowMatches a.board_hash a.engine_visits a.komi r)
      ++ [rowOfPut a now]
  else store

/-- The `try: json.loads … from_dict … except (JSONDecodeError, KeyError):
return None` of src/cache.py `AnalysisCache.get`: undecodable text or a
candidate object lacking a required key is a miss; any other exception
(a non-sequence payload, a non-mapping candidate entry) propagates. -/
def parse_analysis_result (payload : Option JsonVal) :
    Except PyErr (Option (List RawCand)) :=
  match payload with
  | none => .ok none
  | some v =>
    match pyIterate v with
    | .error e => .error e
    | .ok items =>
      match items.mapM MoveCandidate_from_dict with
      | .ok cands => .ok (some cands)
      | .error .keyError => .ok none
      | .error e => .error e

/-- The fields of `AnalysisResult` that src/cache.py `AnalysisCache.get`
fills from a row. -/
structure CacheResult where
  board_hash : String
  board_size : Int
  komi : Rat
  moves_sequence : String
  top_moves : List RawCand
  engine_visits : Int
  model_name : String
  from_cache : Bool
  timestamp : Option Nat
  calculation_duration : Option Rat
  stopped_by_limit : Option Bool
  limit_setting : Option String

def rowToResult (r : CacheRow) (tm : List RawCand) : CacheResult :=
  { board_hash := r.board_hash, board_size := r.board_size, komi := r.komi,
    moves_sequence := r.moves_sequence.getD "", top_moves := tm,
    engine_visits := r.engine_visits, model_name := r.model_name,
    from_cache := true, timestamp := some r.created_at,
    calculation_duration := r.calculation_duration,
    stopped_by_limit := r.stopped_by_limit, limit_setting := r.limit_setting }

/-- `ORDER BY engine_visits DESC LIMIT 1`: a row with the largest visit
count (the table's unique key rules out ties, so the tie order of the
SQL sort does not matter). -/
def maxVisitsRow : List CacheRow → Option CacheRow
  | [] => none
  | r :: rest =>
    match maxVisitsRow rest with
    | none => some r
    | some m => if m.engine_visits > r.engine_visits then some m else some r

/-- The row selection of src/cache.py `AnalysisCache.get`: exact
`(hash, komi, visits)` match when `required_visits` is given, otherwise
the `(hash, komi)` row with the largest visit count. -/
def cache_get_row (store : List CacheRow) (board_hash : String) (komi : Rat) :
    Option Int → Option CacheRow
  | some v => store.find? (rowMatches board_hash v komi)
  | none => maxVisitsRow (store.filter (fun r =>
      decide (r.board_hash = board_hash) && decide (r.komi = komi)))

/-- src/cache.py `AnalysisCache.get`: select the row (see
`cache_get_row`), then parse the stored payload
(see `parse_analysis_result`). -/
def cache_get (store : List CacheRow) (board_hash : String) (komi : Rat)
    (required_visits : Option Int) : Except PyErr (Option CacheResult) :=
  match cache_get_row store board_hash komi required_visits with
  | none => .ok none
  | some row =>
    match parse_analysis_result row.analysis_result with
    | .ok (some tm) => .ok (some (rowToResult row tm))
    | .ok none => .ok none
    | .error e => .error e

/-! ### Cache lemmas and claims C4, C5 -/

theorem find?_append_right_single {α} (l : List α) (r : α) (p : α → Bool)
    (hl : ∀ x ∈ l, ¬ p x = true) (hr : p r = true) : (l ++ [r]).find? p = some r := by
  induction l with
  | nil => exact List.find?_cons_of_pos _ hr
  | cons e l ih =>
    rw [List.cons_append, List.find?_cons_of_neg _ (hl e (List.mem_cons_self _ _))]
    exact ih (fun x hx => hl x (List.mem_cons_of_mem _ hx))

theorem filter_not_match_none (store : List CacheRow) (h : String) (v : Int) (k : Rat) :
    ∀ x ∈ store.filter (fun r => ! rowMatches h v k r), ¬ rowMatches h v k x = true := by
  intro x hx hcontra
  have h2 := (List.mem_filter.mp hx).2
  rw [hcontra] at h2
  simp at h2

theorem rowMatches_rowOfPut (a : PutArgs) (now : Nat) :
    rowMatches a.board_hash a.engine_visits a.komi (rowOfPut a now) = true := by
  simp [rowMatches, rowOfPut]

/-- `cache_put` on a store with no row at the key inserts the new row. -/
theorem cache_put_fresh (store : List CacheRow) (a : PutArgs) (now : Nat)
    (hfresh : store.find? (rowMatches a.board_hash a.engine_visits a.komi) = none) :
    cache_put store a now =
      store.filter (fun r => ! rowMatches a.board_hash a.engine_visits a.komi r)
        ++ [rowOfPut a now] := by
  unfold cache_put
  rw [hfresh]
  simp [put_should_update]

/-- `cache_put` when the dominance check keeps the existing row. -/
theorem cache_put_keep (store : List CacheRow) (a : PutArgs) (now : Nat) (E : CacheRow)
    (hfind : store.find? (rowMatches a.board_hash a.engine_visits a.komi) = some E)
    (hkeep : put_should_update a (some E) = false) :
    cache_put store a now = store := by
  unfold cache_put
  rw [hfind, hkeep]
  simp

/-- `cache_put` when the dominance check lets the new entry replace. -/
theorem cache_put_replace (store : List CacheRow) (a : PutArgs) (now : Nat) (E : CacheRow)
    (hfind : store.find? (rowMatches a.board_hash a.engine_visits a.komi) = some E)
    (hupd : put_should_update a (some E) = true) :
    cache_put store a now =
      store.filter (fun r => ! rowMatches a.board_hash a.engine_visits a.komi r)
        ++ [rowOfPut a now] := by
  unfold cache_put
  rw [hfind, hupd]
  simp

/-- **C4.** For every cache key and entries `A` with
`stoppedByLimit = false` and `B` with `stoppedByLimit = true` for that
key: `put A; put B` leaves `A`'s row stored, and `put B; put A` also
leaves `A`'s row stored; and when an existing row and a new entry carry
the same `stoppedByLimit`, the existing row is kept exactly when both
durations are present and the existing one exceeds the new one by more
than 10%, and otherwise the newer entry replaces it
(src/cache.py `AnalysisCache.put`). -/
theorem cache_put_dominance (store : List CacheRow) (A B : PutArgs) (now1 now2 : Nat)
    (hkeyh : B.board_hash = A.board_hash) (hkeyv : B.engine_visits = A.engine_visits)
    (hkeyk : B.komi = A.komi)
    (hA : A.stopped_by_limit = some false) (hB : B.stopped_by_limit = some true)
    (hfresh : store.find? (rowMatches A.board_hash A.engine_visits A.komi) = none) :
    (cache_put (cache_put store A now1) B now2).find?
        (rowMatches A.board_hash A.engine_visits A.komi) = some (rowOfPut A now1) ∧
      (cache_put (cache_put store B now1) A now2).find?
        (rowMatches A.board_hash A.engine_visits A.komi) = some (rowOfPut A now2) ∧
      (∀ (store2 : List CacheRow) (N : PutArgs) (E : CacheRow) (s : Bool) (now : Nat),
        store2.find? (rowMatches N.board_hash N.engine_visits N.komi) = some E →
        E.stopped_by_limit = some s → N.stopped_by_limit = some s →
        ((∃ ed nd, E.calculation_duration = some ed ∧ N.calculation_duration = some nd ∧
            ed > nd * (11/10)) → cache_put store2 N now = store2) ∧
        (¬(∃ ed nd, E.calculation_duration = some ed ∧ N.calculation_duration = some nd ∧
            ed > nd * (11/10)) →
          cache_put store2 N now =
            store2.filter (fun r => ! rowMatches N.board_hash N.engine_visits N.komi r)
              ++ [rowOfPut N now])) := by
  have hput1 : cache_put store A now1 =
      store.filter (fun r => ! rowMatches A.board_hash A.engine_visits A.komi r)
        ++ [rowOfPut A now1] := cache_put_fresh store A now1 hfresh
  have hfind1 : (cache_put store A now1).find?
      (rowMatches A.board_hash A.engine_visits A.komi) = some (rowOfPut A now1) := by
    rw [hput1]
    exact find?_append_right_single _ _ _
      (filter_not_match_none store A.board_hash A.engine_visits A.komi)
      (rowMatches_rowOfPut A now1)
  have hfreshB : store.find? (rowMatches B.board_hash B.engine_visits B.komi) = none := by
    rw [hkeyh, hkeyv, hkeyk]; exact hfresh
  have hput2 : cache_put store B now1 =
      store.filter (fun r => ! rowMatches B.board_hash B.engine_visits B.komi r)
        ++ [rowOfPut B now1] := cache_put_fresh store B now1 hfreshB
  have hfind2 : (cache_put store B now1).find?
      (rowMatches A.board_hash A.engine_visits A.komi) = some (rowOfPut B now1) := by
    rw [hput2, ← hkeyh, ← hkeyv, ← hkeyk]
    exact find?_append_right_single _ _ _
      (filter_not_match_none store B.board_hash B.engine_visits B.komi)
      (rowMatches_rowOfPut B now1)
  refine ⟨?_, ?_, ?_⟩
  · -- put A then put B: B loses on completeness, store unchanged
    have hBfind : (cache_put store A now1).find?
        (rowMatches B.board_hash B.engine_visits B.komi) = some (rowOfPut A now1) := by
      rw [hkeyh, hkeyv, hkeyk]; exact hfind1
    have hupd : put_should_update B (some (rowOfPut A now1)) = false := by
      simp [put_should_update, rowOfPut, hA, hB]
    have : cache_put (cache_put store A now1) B now2 = cache_put store A now1 :=
      cache_put_keep _ _ _ _ hBfind hupd
    rw [this]
    exact hfind1
  · -- put B then put A: A wins on completeness and replaces B's row
    have hAfind : (cache_put store B now1).find?
        (rowMatches A.board_hash A.engine_visits A.komi) = some (rowOfPut B now1) := hfind2
    have hupd : put_should_update A (some (rowOfPut B now1)) = true := by
      simp [put_should_update, rowOfPut, hA, hB]
    have hrepl : cache_put (cache_put store B now1) A now2 =
        (cache_put store B now1).filter
          (fun r => ! rowMatches A.board_hash A.engine_visits A.komi r)
          ++ [rowOfPut A now2] :=
      cache_put_replace _ _ _ _ hAfind hupd
    rw [hrepl]
    exact find?_append_right_single _ _ _
      (filter_not_match_none _ A.board_hash A.engine_visits A.komi)
      (rowMatches_rowOfPut A now2)
  · -- equal completeness: duration rule, else recency
    intro store2 N E s now hfind hE hN
    have hc1 : ¬(E.stopped_by_limit = some false ∧ N.stopped_by_limit = some true) := by
      rw [hE, hN]
      cases s <;> simp
    have hc2 : ¬(E.stopped_by_limit = some true ∧ N.stopped_by_limit = some false) := by
      rw [hE, hN]
      cases s <;> simp
    have hc3 : E.stopped_by_limit = N.stopped_by_limit := by rw [hE, hN]
    constructor
    · intro ⟨ed, nd, hed, hnd, hgt⟩
      have hupd : put_should_update N (some E) = false := by
        simp only [put_should_update]
        rw [if_neg hc1, if_neg hc2, if_pos hc3, hed, hnd]
        show (if ed > nd * (11/10) then (false : Bool) else true) = false
        rw [if_pos hgt]
      exact cache_put_keep _ _ now _ hfind hupd
    · intro hnot
      have hupd : put_should_update N (some E) = true := by
        simp only [put_should_update]
        rw [if_neg hc1, if_neg hc2, if_pos hc3]
        cases hed : E.calculation_duration with
        | none => rfl
        | some ed =>
          cases hnd : N.calculation_duration with
          | none => rfl
          | some nd =>
            show (if ed > nd * (11/10) then (false : Bool) else true) = true
            rw [if_neg (fun hgt => hnot ⟨ed, nd, hed, hnd, hgt⟩)]
      exact cache_put_replace _ _ now _ hfind hupd

/-- A converged entry (`stopped_by_limit = false`). -/
def c4A : PutArgs :=
  { board_hash := "h", moves_sequence := some "B[E5]", board_size := 9, komi := 7,
    top_moves := [rawOfCand ⟨"E5", 1/2, 0, 30⟩], engine_visits := 50,
    model_name := "m1", calculation_duration := some 10,
    stopped_by_limit := some false, limit_setting := some "50v" }

/-- A resource-limited entry for the same key (`stopped_by_limit = true`). -/
def c4B : PutArgs :=
  { board_hash := "h", moves_sequence := some "B[E5]", board_size := 9, komi := 7,
    top_moves := [rawOfCand ⟨"E5", 3/5, 1, 99⟩], engine_visits := 50,
    model_name := "m2", calculation_duration := some 99,
    stopped_by_limit := some true, limit_setting := some "99v" }

/-- Witness for C4: the dominance theorem instantiated on an empty store
with the concrete entries `c4A` (converged) and `c4B` (limited). -/
theorem cache_put_dominance_witness :
    c4B.board_hash = c4A.board_hash ∧ c4B.engine_visits = c4A.engine_visits ∧
      c4B.komi = c4A.komi ∧ c4A.stopped_by_limit = some false ∧
      c4B.stopped_by_limit = some true ∧
      ([] : List CacheRow).find?
        (rowMatches c4A.board_hash c4A.engine_visits c4A.komi) = none ∧
      ((cache_put (cache_put [] c4A 0) c4B 1).find?
          (rowMatches c4A.board_hash c4A.engine_visits c4A.komi)
          = some (rowOfPut c4A 0) ∧
        (cache_put (cache_put [] c4B 0) c4A 1).find?
          (rowMatches c4A.board_hash c4A.engine_visits c4A.komi)
          = some (rowOfPut c4A 1) ∧
        (∀ (store2 : List CacheRow) (N : PutArgs) (E : CacheRow) (s : Bool) (now : Nat),
          store2.find? (rowMatches N.board_hash N.engine_visits N.komi) = some E →
          E.stopped_by_limit = some s → N.stopped_by_limit = some s →
          ((∃ ed nd, E.calculation_duration = some ed ∧
              N.calculation_duration = some nd ∧ ed > nd * (11/10)) →
            cache_put store2 N now = store2) ∧
          (¬(∃ ed nd, E.calculation_duration = some ed ∧
              N.calculation_duration = some nd ∧ ed > nd * (11/10)) →
            cache_put store2 N now =
              store2.filter
                (fun r => ! rowMatches N.board_hash N.engine_visits N.komi r)
                ++ [rowOfPut N now]))) :=
  ⟨rfl, rfl, rfl, rfl, rfl, rfl,
    cache_put_dominance [] c4A c4B 0 1 rfl rfl rfl rfl rfl rfl⟩

/-! ### Claim C5: cache lookup semantics -/

theorem maxVisitsRow_cons_isSome (b : CacheRow) (rows : List CacheRow) :
    (maxVisitsRow (b :: rows)).isSome = true := by
  simp only [maxVisitsRow]
  cases maxVisitsRow rows with
  | none => rfl
  | some m =>
    simp only
    split <;> rfl

theorem maxVisitsRow_spec (rows : List CacheRow) (R : CacheRow)
    (h : maxVisitsRow rows = some R) :
    R ∈ rows ∧ ∀ r ∈ rows, r.engine_visits ≤ R.engine_visits := by
  induction rows generalizing R with
  | nil => exact absurd h (by simp [maxVisitsRow])
  | cons b rows ih =>
    simp only [maxVisitsRow] at h
    cases hm : maxVisitsRow rows with
    | none =>
      rw [hm] at h
      have hR : R = b := (Option.some.inj h).symm
      have hempty : rows = [] := by
        cases rows with
        | nil => rfl
        | cons c rest =>
          exfalso
          have hsome := maxVisitsRow_cons_isSome c rest
          rw [hm] at hsome
          exact Bool.noConfusion hsome
      subst hempty
      rw [hR]
      exact ⟨List.mem_singleton_self b, by
        intro r hr
        rcases List.mem_singleton.mp hr with hr
        subst hr
        exact le_refl _⟩
    | some m =>
      rw [hm] at h
      replace h : (if m.engine_visits > b.engine_visits then some m else some b)
          = some R := h
      obtain ⟨hmem, hall⟩ := ih m hm
      by_cases hgt : m.engine_visits > b.engine_visits
      · rw [if_pos hgt] at h
        have hR : R = m := (Option.some.inj h).symm
        subst hR
        refine ⟨List.mem_cons_of_mem _ hmem, ?_⟩
        intro r hr
        rcases List.mem_cons.mp hr with hr | hr
        · subst hr; omega
        · exact hall r hr
      · rw [if_neg hgt] at h
        have hR : R = b := (Option.some.inj h).symm
        subst hR
        refine ⟨List.mem_cons_self _ _, ?_⟩
        intro r hr
        rcases List.mem_cons.mp hr with hr | hr
        · subst hr; exact le_refl _
        · exact le_trans (hall r hr) (by omega)

/-- A row whose stored payload is valid JSON of the wrong shape: the
array `[5]`, whose only element is a number rather than an object. -/
def c5BadRow : CacheRow :=
  { board_hash := "h", moves_sequence := none, board_size := 9, komi := 7,
    analysis_result := some (.jarr [.jnum 5]), engine_visits := 100,
    model_name := "m", created_at := 0, calculation_duration := none,
    stopped_by_limit := none, limit_setting := none }

/-- **C5 counterexample.** The claim says a row whose stored candidate
payload is malformed is treated as a miss, not an error. Here the store
holds exactly one row at the queried key whose payload is the malformed
JSON `[5]`, and `get` raises `TypeError` (Python subscripts the number 5
with `'move'`) instead of returning a miss
(src/cache.py `AnalysisCache.get` catches only `json.JSONDecodeError`
and `KeyError`). -/
theorem cache_get_malformed_payload_raises :
    rowMatches "h" 100 7 c5BadRow = true ∧
      cache_get [c5BadRow] "h" 7 (some 100) = .error .typeError ∧
      ∀ o : Option CacheResult,
        (Except.error PyErr.typeError : Except PyErr (Option CacheResult)) ≠ .ok o :=
  ⟨rfl, rfl, fun o h => Except.noConfusion h⟩

/-- **C5 (amended).** `get` with a non-null budget returns a row only
when a row with exactly that budget exists for `(fingerprint, komi)`;
`get` with a null budget returns the row with the largest budget; and a
row whose payload is undecodable JSON, or whose candidate objects lack a
required key, is treated as a miss — while a payload of the wrong JSON
shape (as in the counterexample) raises instead
(src/cache.py `AnalysisCache.get`). -/
theorem cache_get_semantics :
    (∀ (store : List CacheRow) (h : String) (k : Rat) (v : Int),
      (∀ r ∈ store, rowMatches h v k r = false) →
      cache_get store h k (some v) = .ok none) ∧
    (∀ (store : List CacheRow) (h : String) (k : Rat) (v : Int) (res : CacheResult),
      cache_get store h k (some v) = .ok (some res) →
      ∃ r ∈ store, rowMatches h v k r = true ∧ res.engine_visits = v) ∧
    (∀ (store : List CacheRow) (h : String) (k : Rat) (R : CacheRow) (tm : List RawCand),
      maxVisitsRow (store.filter (fun r =>
        decide (r.board_hash = h) && decide (r.komi = k))) = some R →
      parse_analysis_result R.analysis_result = .ok (some tm) →
      cache_get store h k none = .ok (some (rowToResult R tm)) ∧ R ∈ store ∧
        ∀ r ∈ store, r.board_hash = h → r.komi = k →
          r.engine_visits ≤ R.engine_visits) ∧
    (∀ (store : List CacheRow) (h : String) (k : Rat) (v : Int) (R : CacheRow),
      store.find? (rowMatches h v k) = some R → R.analysis_result = none →
      cache_get store h k (some v) = .ok none) ∧
    (∀ (store : List CacheRow) (h : String) (k : Rat) (v : Int) (R : CacheRow)
        (obj : List (String × JsonVal)),
      store.find? (rowMatches h v k) = some R →
      R.analysis_result = some (.jarr [.jobj obj]) →
      (∀ e ∈ obj, e.1 ≠ "move") →
      cache_get store h k (some v) = .ok none) := by
  refine ⟨?_, ?_, ?_, ?_, ?_⟩
  · intro store h k v hall
    have hf : store.find? (rowMatches h v k) = none :=
      List.find?_eq_none.mpr (fun x hx hpx => by
        rw [hall x hx] at hpx; exact Bool.noConfusion hpx)
    have hrow : cache_get_row store h k (some v) = none := hf
    unfold cache_get
    rw [hrow]
  · intro store h k v res hget
    unfold cache_get at hget
    cases hf : store.find? (rowMatches h v k) with
    | none =>
      have hrow : cache_get_row store h k (some v) = none := hf
      rw [hrow] at hget
      exact absurd hget (by simp)
    | some R =>
      have hrow : cache_get_row store h k (some v) = some R := hf
      rw [hrow] at hget
      replace hget : (match parse_analysis_result R.analysis_result with
          | .ok (some tm) => Except.ok (some (rowToResult R tm))
          | .ok none => Except.ok none
          | .error e => Except.error e) = Except.ok (some res) := hget
      have hmem := List.mem_of_find?_eq_some hf
      have hp := List.find?_some hf
      cases hparse : parse_analysis_result R.analysis_result with
      | error e => rw [hparse] at hget; exact absurd hget (by simp)
      | ok o =>
        cases o with
        | none => rw [hparse] at hget; exact absurd hget (by simp)
        | some tm =>
          rw [hparse] at hget
          simp only [Except.ok.injEq, Option.some.injEq] at hget
          refine ⟨R, hmem, hp, ?_⟩
          rw [← hget]
          have : R.engine_visits = v := by
            have := hp
            unfold rowMatches at this
            simp only [Bool.and_eq_true, decide_eq_true_eq] at this
            exact this.1.2
          exact this
  · intro store h k R tm hmax hparse
    have hspec := maxVisitsRow_spec _ R hmax
    refine ⟨?_, ?_, ?_⟩
    · have hrow : cache_get_row store h k none = some R := hmax
      unfold cache_get
      rw [hrow]
      show (match parse_analysis_result R.analysis_result with
          | .ok (some tm) => Except.ok (some (rowToResult R tm))
          | .ok none => Except.ok none
          | .error e => Except.error e) = Except.ok (some (rowToResult R tm))
      rw [hparse]
    · exact (List.mem_filter.mp hspec.1).1
    · intro r hr hh hk
      refine hspec.2 r (List.mem_filter.mpr ⟨hr, ?_⟩)
      simp [hh, hk]
  · intro store h k v R hfind hnone
    have hrow : cache_get_row store h k (some v) = some R := hfind
    unfold cache_get
    rw [hrow]
    show (match parse_analysis_result R.analysis_result with
        | .ok (some tm) => Except.ok (some (rowToResult R tm))
        | .ok none => Except.ok none
        | .error e => Except.error e) = Except.ok none
    rw [hnone]
    rfl
  · intro store h k v R obj hfind hshape hnokey
    have hrow : cache_get_row store h k (some v) = some R := hfind
    unfold cache_get
    rw [hrow]
    show (match parse_analysis_result R.analysis_result with
        | .ok (some tm) => Except.ok (some (rowToResult R tm))
        | .ok none => Except.ok none
        | .error e => Except.error e) = Except.ok none
    rw [hshape]
    have hfd : List.find? (fun e => decide (e.1 = "move")) obj = none :=
      List.find?_eq_none.mpr (fun e he hpe => by
        have he1 : e.1 = "move" := by simpa using hpe
        exact hnokey e he he1)
    have hget1 : pyGetItem (.jobj obj) "move" = .error .keyError := by
      show (match List.find? (fun e => decide (e.1 = "move")) obj with
        | some e => Except.ok e.2
        | none => Except.error PyErr.keyError) = .error .keyError
      rw [hfd]
    have hfrom : MoveCandidate_from_dict (.jobj obj) = .error .keyError := by
      unfold MoveCandidate_from_dict
      rw [hget1]
      rfl
    have hmapm : (([JsonVal.jobj obj] : List JsonVal).mapM MoveCandidate_from_dict)
        = (.error PyErr.keyError : Except PyErr (List RawCand)) := by
      rw [List.mapM_cons, hfrom]
      rfl
    have hparse : parse_analysis_result (some (.jarr [.jobj obj])) = .ok none := by
      show (match ([JsonVal.jobj obj] : List JsonVal).mapM MoveCandidate_from_dict with
        | .ok cands => Except.ok (some cands)
        | .error .keyError => Except.ok none
        | .error e => Except.error e) = Except.ok none
      rw [hmapm]
    rw [hparse]

/-- Witness for C5's amended lookup semantics: the miss-on-missing-key
and miss-on-undecodable cases at concrete stores, and the exact-match
miss on an empty store. -/
theorem cache_get_semantics_witness :
    cache_get [] "h" 7 (some 5) = .ok none ∧
      cache_get [{ c5BadRow with analysis_result := none }] "h" 7 (some 100)
        = .ok none :=
  ⟨cache_get_semantics.1 [] "h" 7 5 (fun r hr => absurd hr (List.not_mem_nil r)),
    (cache_get_semantics.2.2.2.1) _ "h" 7 100 _ rfl rfl⟩

/-! ## Merging a foreign database (src/cache.py `AnalysisCache.merge_database`) -/

/-- The numeric value of a JSON scalar under Python arithmetic
(`bool` is an `int` subclass: `True` counts as 1). -/
def jnumVal? : JsonVal → Option Rat
  | .jnum q => some q
  | .jbool b => some (if b then 1 else 0)
  | _ => none

/-- Python `a + b` on parsed JSON values: numbers (and booleans) add,
strings and lists concatenate, every other combination raises
`TypeError`. -/
def pyAdd (a b : JsonVal) : Except PyErr JsonVal :=
  match jnumVal? a, jnumVal? b with
  | some x, some y => .ok (.jnum (x + y))
  | _, _ =>
    match a, b with
    | .jstr x, .jstr y => .ok (.jstr (x ++ y))
    | .jarr x, .jarr y => .ok (.jarr (x ++ y))
    | _, _ => .error .typeError

/-- Python `a / 2` on a parsed JSON value: only numbers (and booleans)
divide, everything else raises `TypeError`. -/
def pyDiv2 (a : JsonVal) : Except PyErr JsonVal :=
  match jnumVal? a with
  | some x => .ok (.jnum (x / 2))
  | none => .error .typeError

/-- Whether a JSON value may be a Python `dict` key / `set` element
(lists and dicts are unhashable). -/
def pyHashable : JsonVal → Bool
  | .jarr _ => false
  | .jobj _ => false
  | _ => true

/-- Building `existing_map = \x7bm.move: m for m in existing.top_moves\x7d`
raises `TypeError` as soon as some key is unhashable. -/
def checkHashable (l : List RawCand) : Except PyErr Unit :=
  if l.all (fun m => pyHashable m.move) then .ok () else .error .typeError

/-- `new_move.move in existing_map` followed by
`existing_map[new_move.move]`: an unhashable probe raises `TypeError`;
otherwise the dict built by the comprehension maps each key to the LAST
candidate carrying it. -/
def lookupExisting (existing_moves : List RawCand) (key : JsonVal) :
    Except PyErr (Option RawCand) :=
  if pyHashable key then
    .ok ((existing_moves.filter (fun m => jsonBeq m.move key)).getLast?)
  else .error .typeError

/-- The averaged candidate of src/cache.py `merge_database` (winrate and
score_lead are the arithmetic means, the visit figure is the foreign
side's). -/
def avgCand (old_move new_move : RawCand) : Except PyErr RawCand := do
  let wsum ← pyAdd old_move.winrate new_move.winrate
  let w ← pyDiv2 wsum
  let ssum ← pyAdd old_move.score_lead new_move.score_lead
  let s ← pyDiv2 ssum
  .ok ⟨new_move.move, w, s, new_move.visits⟩

/-- The `for new_move in top_moves:` loop of `merge_database`: average
with the existing candidate at the same coordinate when there is one,
otherwise pass the foreign candidate through. -/
def mergeNewMoves (existing_moves : List RawCand) :
    List RawCand → Except PyErr (List RawCand)
  | [] => .ok []
  | new_move :: rest => do
    let hd ← match ← lookupExisting existing_moves new_move.move with
      | some old_move => avgCand old_move new_move
      | none => .ok new_move
    let tl ← mergeNewMoves existing_moves rest
    .ok (hd :: tl)

/-- The trailing `for old_move in existing.top_moves:` loop of
`merge_database`: keep existing candidates at coordinates absent from
the foreign list. -/
def keepOldMoves (existing_moves top_moves : List RawCand) : List RawCand :=
  existing_moves.filter (fun old_move =>
    ! top_moves.any (fun new_move => jsonBeq new_move.move old_move.move))

/-- The `put` arguments of the insert branch of `merge_database`
(the three partial-calculation keywords are not passed, so they default
to `None`). -/
def insertPutArgs (row : CacheRow) (tm : List RawCand) : PutArgs :=
  { board_hash := row.board_hash, moves_sequence := row.moves_sequence,
    board_size := row.board_size, komi := row.komi, top_moves := tm,
    engine_visits := row.engine_visits, model_name := row.model_name }

/-- The `put` arguments of the merge branch of `merge_database`: the
foreign model name tagged with `+merged`. -/
def mergePutArgs (row : CacheRow) (tm : List RawCand) : PutArgs :=
  { board_hash := row.board_hash, moves_sequence := row.moves_sequence,
    board_size := row.board_size, komi := row.komi, top_moves := tm,
    engine_visits := row.engine_visits,
    model_name := row.model_name ++ "+merged" }

/-- The body of the per-row `try:` of src/cache.py
`AnalysisCache.merge_database`, in source order: `self.get` on the
foreign row's exact key, `json.loads` of the foreign payload (`none`,
i.e. undecodable text, raises), `MoveCandidate.from_dict` over the
decoded sequence, then either the as-is insert (on a falsy `existing`)
or the union-by-coordinate merge tagged `+merged`. The `Bool` reports
which branch ran (`true` = merged). -/
def merge_row_attempt (store : List CacheRow) (row : CacheRow) (now : Nat) :
    Except PyErr (List CacheRow × Bool) :=
  match cache_get store row.board_hash row.komi (some row.engine_visits) with
  | .error e => .error e
  | .ok existing =>
    match row.analysis_result with
    | none => .error .jsonDecodeError
    | some v =>
      match pyIterate v with
      | .error e => .error e
      | .ok items =>
        match items.mapM MoveCandidate_from_dict with
        | .error e => .error e
        | .ok top_moves =>
          match existing with
          | none => .ok (cache_put store (insertPutArgs row top_moves) now, false)
          | some ex =>
            match checkHashable ex.top_moves with
            | .error e => .error e
            | .ok _ =>
              match mergeNewMoves ex.top_moves top_moves with
              | .error e => .error e
              | .ok merged_head =>
                .ok (cache_put store
                  (mergePutArgs row (merged_head ++ keepOldMoves ex.top_moves top_moves))
                    now, true)

/-- The `for row in cursor:` loop of `merge_database` with its
`stats` accumulator `(inserted, merged, errors)`: an exception in a row
is caught, counted, and leaves the store untouched. -/
def merge_database_loop (stats : Nat × Nat × Nat) (store : List CacheRow)
    (now : Nat) : List CacheRow → List CacheRow × Nat × Nat × Nat
  | [] => (store, stats)
  | row :: rest =>
    match merge_row_attempt store row now with
    | .ok (s, false) => merge_database_loop (stats.1 + 1, stats.2.1, stats.2.2) s now rest
    | .ok (s, true) => merge_database_loop (stats.1, stats.2.1 + 1, stats.2.2) s now rest
    | .error _ => merge_database_loop (stats.1, stats.2.1, stats.2.2 + 1) store now rest

/-- src/cache.py `AnalysisCache.merge_database`: fold every foreign row
into the local store, returning the final store and the
`(inserted, merged, errors)` counters. -/
def merge_database (store foreign : List CacheRow) (now : Nat) :
    List CacheRow × Nat × Nat × Nat :=
  merge_database_loop (0, 0, 0) store now foreign

/-- The averaged candidate, per the spec's words, on typed candidates. -/
def spec_avg (o n : MoveCandidate) : MoveCandidate :=
  ⟨n.move, (o.winrate + n.winrate) / 2, (o.score_lead + n.score_lead) / 2, n.visits⟩

/-- Spec-side union by coordinate, foreign part: each foreign candidate,
averaged with the (last) local candidate at its coordinate when present. -/
def spec_merge_new (E N : List MoveCandidate) : List MoveCandidate :=
  N.map (fun n =>
    match (E.filter (fun o => decide (o.move = n.move))).getLast? with
    | some o => spec_avg o n
    | none => n)

/-- Spec-side union by coordinate, local part: the local candidates at
coordinates the foreign list does not mention. -/
def spec_keep_old (E N : List MoveCandidate) : List MoveCandidate :=
  E.filter (fun o => ! N.any (fun n => decide (n.move = o.move)))

/-- Spec-side union by coordinate of a local candidate list `E` and a
foreign candidate list `N`. -/
def spec_merge_moves (E N : List MoveCandidate) : List MoveCandidate :=
  spec_merge_new E N ++ spec_keep_old E N

theorem from_dict_to_dict (c : RawCand) :
    MoveCandidate_from_dict (RawCand.to_dict c) = .ok c := rfl

theorem mapM_from_dict_serialize (l : List RawCand) :
    (l.map RawCand.to_dict).mapM MoveCandidate_from_dict = .ok l := by
  induction l with
  | nil => rfl
  | cons c rest ih =>
    rw [List.map_cons, List.mapM_cons, from_dict_to_dict]
    show (rest.map RawCand.to_dict).mapM MoveCandidate_from_dict >>= _ = _
    rw [ih]
    rfl

theorem jsonBeq_jstr (a b : String) : jsonBeq (.jstr a) (.jstr b) = decide (a = b) := by
  show (a == b) = decide (a = b)
  cases h : decide (a = b) with
  | true => simp [of_decide_eq_true h]
  | false => simp [of_decide_eq_false h]

theorem checkHashable_map (E : List MoveCandidate) :
    checkHashable (E.map rawOfCand) = .ok () := by
  rw [checkHashable, if_pos]
  rw [List.all_eq_true]
  intro m hm
  obtain ⟨o, _, rfl⟩ := List.mem_map.mp hm
  rfl

theorem getLast?_map_raw (l : List MoveCandidate) :
    (l.map rawOfCand).getLast? = l.getLast?.map rawOfCand := by
  induction l with
  | nil => rfl
  | cons o rest ih =>
    cases rest with
    | nil => rfl
    | cons p tl =>
      have h1 : (o :: p :: tl).map rawOfCand
          = rawOfCand o :: rawOfCand p :: tl.map rawOfCand := rfl
      rw [h1, List.getLast?_cons_cons]
      have h2 : rawOfCand p :: tl.map rawOfCand = (p :: tl).map rawOfCand := rfl
      rw [h2, ih, List.getLast?_cons_cons]

theorem filter_map_raw (p : RawCand → Bool) (q : MoveCandidate → Bool)
    (hpq : ∀ o, p (rawOfCand o) = q o) (E : List MoveCandidate) :
    (E.map rawOfCand).filter p = (E.filter q).map rawOfCand := by
  induction E with
  | nil => rfl
  | cons o rest ih =>
    have h1 : (o :: rest).map rawOfCand = rawOfCand o :: rest.map rawOfCand := rfl
    rw [h1, List.filter_cons, List.filter_cons, hpq o, ih]
    cases q o with
    | true => rfl
    | false => rfl

theorem lookupExisting_map (E : List MoveCandidate) (s : String) :
    lookupExisting (E.map rawOfCand) (.jstr s)
      = .ok ((E.filter (fun o => decide (o.move = s))).getLast?.map rawOfCand) := by
  rw [lookupExisting, if_pos (show pyHashable (.jstr s) = true from rfl)]
  rw [filter_map_raw (fun m => jsonBeq m.move (.jstr s)) (fun o => decide (o.move = s))
    (fun o => jsonBeq_jstr o.move s) E, getLast?_map_raw]

theorem avgCand_raw (o n : MoveCandidate) :
    avgCand (rawOfCand o) (rawOfCand n) = .ok (rawOfCand (spec_avg o n)) := rfl

theorem mergeNewMoves_map (E N : List MoveCandidate) :
    mergeNewMoves (E.map rawOfCand) (N.map rawOfCand)
      = .ok ((spec_merge_new E N).map rawOfCand) := by
  induction N with
  | nil => rfl
  | cons n rest ih =>
    have hmv : (rawOfCand n).move = JsonVal.jstr n.move := rfl
    have hr : spec_merge_new E (n :: rest)
        = (match (E.filter (fun o => decide (o.move = n.move))).getLast? with
           | some o => spec_avg o n
           | none => n) :: spec_merge_new E rest := rfl
    rw [List.map_cons, mergeNewMoves, hmv, lookupExisting_map, ih, hr]
    cases hlast : (E.filter (fun o => decide (o.move = n.move))).getLast? with
    | none => rfl
    | some o => rfl

theorem any_map_raw (N : List MoveCandidate) (o : MoveCandidate) :
    (N.map rawOfCand).any (fun new_move => jsonBeq new_move.move (rawOfCand o).move)
      = N.any (fun n => decide (n.move = o.move)) := by
  induction N with
  | nil => rfl
  | cons n tl ihn =>
    have h1 : (n :: tl).map rawOfCand = rawOfCand n :: tl.map rawOfCand := rfl
    rw [h1, List.any_cons, List.any_cons, ihn]
    have h2 : jsonBeq (rawOfCand n).move (rawOfCand o).move = decide (n.move = o.move) :=
      jsonBeq_jstr n.move o.move
    rw [h2]

theorem keepOldMoves_map (E N : List MoveCandidate) :
    keepOldMoves (E.map rawOfCand) (N.map rawOfCand)
      = (spec_keep_old E N).map rawOfCand := by
  rw [keepOldMoves, spec_keep_old]
  exact filter_map_raw _ _
    (fun o => by rw [Bool.not_inj_iff]; exact any_map_raw N o) E

/-- A local row whose stored payload is text `json.loads` rejects, at the
key `("h7", visits 100, komi 7)`. -/
def c7Local : CacheRow :=
  { board_hash := "h7", moves_sequence := none, board_size := 9, komi := 7,
    analysis_result := none, engine_visits := 100, model_name := "loc",
    created_at := 0, calculation_duration := none, stopped_by_limit := none,
    limit_setting := none }

/-- A well-typed candidate carried by the foreign row of the C7
counterexample. -/
def c7Cand : MoveCandidate := ⟨"D4", 1/2, 0, 100⟩

/-- A foreign row at the same exact key as `c7Local`, with a well-formed
payload and model name `src`. -/
def c7Foreign : CacheRow :=
  { board_hash := "h7", moves_sequence := some "", board_size := 9, komi := 7,
    analysis_result := some (serialize_top_moves [rawOfCand c7Cand]),
    engine_visits := 100, model_name := "src", created_at := 0,
    calculation_duration := none, stopped_by_limit := none,
    limit_setting := none }

/-- **C7 counterexample.** The claim says a foreign row whose exact key
is present locally is merged by coordinate union and its model name
tagged as merged. Here the local store DOES hold a row with the foreign
row's exact key, yet `merge_database` counts the row as inserted — not
merged — and writes the foreign candidates as-is under the untagged
model name `src`, replacing the local row: `merge_database` tests
presence with `self.get`, which reports a miss whenever the local row's
payload is undecodable (src/cache.py `merge_database`,
`AnalysisCache.get`). -/
theorem merge_database_untagged_overwrite :
    rowMatches c7Foreign.board_hash c7Foreign.engine_visits c7Foreign.komi c7Local
        = true ∧
      merge_database [c7Local] [c7Foreign] 5
        = ([rowOfPut (insertPutArgs c7Foreign [rawOfCand c7Cand]) 5], 1, 0, 0) ∧
      (rowOfPut (insertPutArgs c7Foreign [rawOfCand c7Cand]) 5).model_name = "src" ∧
      "src" ≠ c7Foreign.model_name ++ "+merged" :=
  ⟨rfl, rfl, rfl, by decide⟩

/-- **C7 (amended).** For every foreign row: if the local `get` at the
row's exact key misses (in particular when no local row has that key,
but also when a local row at the key has an undecodable payload) and the
foreign payload decodes to serialized candidates, the candidates are
written as-is under the foreign model name and the row counts as
inserted; if the local `get` hits, the written candidate list is the
coordinate-wise union — coordinates on both sides averaged over winrate
and score lead, keeping the foreign visit figure, one-sided coordinates
passed through — under the foreign model name tagged `+merged`, counted
as merged; and a row whose processing raises is counted as an error and
leaves the store untouched (src/cache.py `AnalysisCache.merge_database`). -/
theorem merge_database_semantics :
    (∀ (store : List CacheRow) (row : CacheRow) (now : Nat) (N : List MoveCandidate),
      cache_get store row.board_hash row.komi (some row.engine_visits) = .ok none →
      row.analysis_result = some (serialize_top_moves (N.map rawOfCand)) →
      merge_row_attempt store row now
        = .ok (cache_put store (insertPutArgs row (N.map rawOfCand)) now, false)) ∧
    (∀ (store : List CacheRow) (row : CacheRow) (now : Nat) (ex : CacheResult)
        (E N : List MoveCandidate),
      cache_get store row.board_hash row.komi (some row.engine_visits) = .ok (some ex) →
      ex.top_moves = E.map rawOfCand →
      row.analysis_result = some (serialize_top_moves (N.map rawOfCand)) →
      merge_row_attempt store row now
        = .ok (cache_put store
            (mergePutArgs row ((spec_merge_moves E N).map rawOfCand)) now, true)) ∧
    (∀ (stats : Nat × Nat × Nat) (store : List CacheRow) (now : Nat)
        (row : CacheRow) (rest : List CacheRow) (e : PyErr),
      merge_row_attempt store row now = .error e →
      merge_database_loop stats store now (row :: rest)
        = merge_database_loop (stats.1, stats.2.1, stats.2.2 + 1) store now rest) := by
  refine ⟨?_, ?_, ?_⟩
  · intro store row now N hget hpay
    rw [merge_row_attempt, hget, hpay]
    show (match pyIterate (serialize_top_moves (N.map rawOfCand)) with
      | Except.error e => Except.error e
      | Except.ok items =>
        match items.mapM MoveCandidate_from_dict with
        | Except.error e => Except.error e
        | Except.ok top_moves =>
          Except.ok (cache_put store (insertPutArgs row top_moves) now, false)) = _
    show (match ((N.map rawOfCand).map RawCand.to_dict).mapM MoveCandidate_from_dict with
      | Except.error e => Except.error e
      | Except.ok top_moves =>
        Except.ok (cache_put store (insertPutArgs row top_moves) now, false)) = _
    rw [mapM_from_dict_serialize]
  · intro store row now ex E N hget hex hpay
    rw [merge_row_attempt, hget, hpay]
    show (match pyIterate (serialize_top_moves (N.map rawOfCand)) with
      | Except.error e => Except.error e
      | Except.ok items =>
        match items.mapM MoveCandidate_from_dict with
        | Except.error e => Except.error e
        | Except.ok top_moves =>
          match checkHashable ex.top_moves with
          | Except.error e => Except.error e
          | Except.ok _ =>
            match mergeNewMoves ex.top_moves top_moves with
            | Except.error e => Except.error e
            | Except.ok merged_head =>
              Except.ok (cache_put store
                (mergePutArgs row (merged_head ++ keepOldMoves ex.top_moves top_moves))
                  now, true)) = _
    show (match ((N.map rawOfCand).map RawCand.to_dict).mapM MoveCandidate_from_dict with
      | Except.error e => Except.error e
      | Except.ok top_moves =>
        match checkHashable ex.top_moves with
        | Except.error e => Except.error e
        | Except.ok _ =>
          match mergeNewMoves ex.top_moves top_moves with
          | Except.error e => Except.error e
          | Except.ok merged_head =>
            Except.ok (cache_put store
              (mergePutArgs row (merged_head ++ keepOldMoves ex.top_moves top_moves))
                now, true)) = _
    rw [mapM_from_dict_serialize, hex]
    show (match checkHashable (E.map rawOfCand) with
      | Except.error e => Except.error e
      | Except.ok _ =>
        match mergeNewMoves (E.map rawOfCand) (N.map rawOfCand) with
        | Except.error e => Except.error e
        | Except.ok merged_head =>
          Except.ok (cache_put store
            (mergePutArgs row (merged_head ++ keepOldMoves (E.map rawOfCand) (N.map rawOfCand)))
              now, true)) = _
    rw [checkHashable_map]
    show (match mergeNewMoves (E.map rawOfCand) (N.map rawOfCand) with
      | Except.error e => Except.error e
      | Except.ok merged_head =>
        Except.ok (cache_put store
          (mergePutArgs row (merged_head ++ keepOldMoves (E.map rawOfCand) (N.map rawOfCand)))
            now, true)) = _
    rw [mergeNewMoves_map]
    show Except.ok (cache_put store
        (mergePutArgs row ((spec_merge_new E N).map rawOfCand
          ++ keepOldMoves (E.map rawOfCand) (N.map rawOfCand))) now, true) = _
    rw [keepOldMoves_map, ← List.map_append, ← spec_merge_moves]
  · intro stats store now row rest e herr
    rw [merge_database_loop, herr]

/-- The local candidate of the C7 witness. -/
def c7Old : MoveCandidate := ⟨"D4", 6/10, 2, 80⟩

/-- The foreign candidate of the C7 witness, at the same coordinate. -/
def c7New : MoveCandidate := ⟨"D4", 4/10, 1, 100⟩

/-- A readable local row at the key `("g7", visits 50, komi 6)`. -/
def c7GoodRow : CacheRow :=
  { board_hash := "g7", moves_sequence := none, board_size := 9, komi := 6,
    analysis_result := some (serialize_top_moves [rawOfCand c7Old]),
    engine_visits := 50, model_name := "loc2", created_at := 0,
    calculation_duration := none, stopped_by_limit := none,
    limit_setting := none }

/-- A foreign row at `c7GoodRow`'s exact key carrying `c7New`. -/
def c7ForeignRow : CacheRow :=
  { board_hash := "g7", moves_sequence := some "", board_size := 9, komi := 6,
    analysis_result := some (serialize_top_moves [rawOfCand c7New]),
    engine_visits := 50, model_name := "f", created_at := 0,
    calculation_duration := none, stopped_by_limit := none,
    limit_setting := none }

/-- Witness for C7's amended merge semantics: the hit branch
instantiated on a one-row local store, with every hypothesis discharged
concretely. -/
theorem merge_database_semantics_witness :
    cache_get [c7GoodRow] c7ForeignRow.board_hash c7ForeignRow.komi
        (some c7ForeignRow.engine_visits)
      = .ok (some (rowToResult c7GoodRow [rawOfCand c7Old])) ∧
    (rowToResult c7GoodRow [rawOfCand c7Old]).top_moves = [c7Old].map rawOfCand ∧
    c7ForeignRow.analysis_result = some (serialize_top_moves ([c7New].map rawOfCand)) ∧
    merge_row_attempt [c7GoodRow] c7ForeignRow 3
      = .ok (cache_put [c7GoodRow]
          (mergePutArgs c7ForeignRow ((spec_merge_moves [c7Old] [c7New]).map rawOfCand))
            3, true) :=
  ⟨rfl, rfl, rfl,
    merge_database_semantics.2.1 [c7GoodRow] c7ForeignRow 3
      (rowToResult c7GoodRow [rawOfCand c7Old]) [c7Old] [c7New] rfl rfl rfl⟩

/-! ## Valid symmetries and symmetry expansion
(src/board.py `get_valid_symmetries`, src/analyzer.py `_expand_symmetries`) -/

/-- One direction of Python `set(a.items()) == set(b.items())`. -/
def itemsSubset (a b : Stones) : Bool :=
  a.all (fun e => b.any (fun f => f = e))

/-- Python `set(a.items()) == set(b.items())`: extensional equality of the
two item sets. -/
def itemsSetEq (a b : Stones) : Bool := itemsSubset a b && itemsSubset b a

/-- src/board.py `get_valid_symmetries`: the transforms whose application
leaves the stone set unchanged; `IDENTITY` is always kept without the
comparison. The source's for-loop with appends builds exactly this
filter of `ALL_TRANSFORMS`. -/
def get_valid_symmetries (stones : Stones) (size : Int) : List SymmetryTransform :=
  ALL_TRANSFORMS.filter (fun t =>
    decide (t = IDENTITY) || itemsSetEq (transform_stones stones size t) stones)

/-- `sym_coords.add(c)`: a Python set modelled as its insertion-ordered
support (the claims below are insensitive to set iteration order). -/
def insertDedup (l : List String) (s : String) : List String :=
  if s ∈ l then l else l ++ [s]

/-- The `for transform in valid_symmetries:` loop of
src/analyzer.py `_expand_symmetries`, collecting `sym_coords`. -/
def symCoordsLoop (move : String) (size : Int) (acc : List String) :
    List SymmetryTransform → Except PyErr (List String)
  | [] => .ok acc
  | t :: rest =>
    match transform_gtp_coord move size t with
    | .error e => .error e
    | .ok c => symCoordsLoop move size (insertDedup acc c) rest

/-- Python `min` over a nonempty collection of strings
(lexicographic by code point, as Lean's `String` order). -/
def strMin (x : String) (xs : List String) : String :=
  xs.foldl (fun a b => if b < a then b else a) x

/-- One entry of the `groups` dict of `_expand_symmetries`:
`canonical_coord -> {"moves": [...], "coords": {...}}`. -/
structure SymGroup where
  canonical : String
  moves : List MoveCandidate
  coords : List String

/-- `groups[canonical]["moves"].append(move)`, creating the entry (with
the current move's `sym_coords`) when the canonical key is new. -/
def addToGroups (groups : List SymGroup) (c : String) (move : MoveCandidate)
    (coords : List String) : List SymGroup :=
  if groups.any (fun g => g.canonical = c) then
    groups.map (fun g => if g.canonical = c then
      { g with moves := g.moves ++ [move] } else g)
  else groups ++ [{ canonical := c, moves := [move], coords := coords }]

/-- The grouping loop of `_expand_symmetries` over `result.top_moves`
("PASS" entries are skipped; `min()` of an empty collection raises
`ValueError`). -/
def buildGroups (size : Int) (vs : List SymmetryTransform) :
    List SymGroup → List MoveCandidate → Except PyErr (List SymGroup)
  | groups, [] => .ok groups
  | groups, move :: rest =>
    if pyUpper move.move = "PASS" then buildGroups size vs groups rest
    else
      match symCoordsLoop move.move size [] vs with
      | .error e => .error e
      | .ok [] => .error .valueError
      | .ok (c :: cs) =>
        buildGroups size vs (addToGroups groups (strMin c cs) move (c :: cs)) rest

/-- `min(m.winrate for m in moves)` over the nonempty list `m :: ms`. -/
def minWinrate (m : MoveCandidate) (ms : List MoveCandidate) : Rat :=
  ms.foldl (fun a x => min a x.winrate) m.winrate

/-- `min(m.score_lead for m in moves)` over the nonempty list `m :: ms`. -/
def minScore (m : MoveCandidate) (ms : List MoveCandidate) : Rat :=
  ms.foldl (fun a x => min a x.score_lead) m.score_lead

/-- `max(m.visits for m in moves)` over the nonempty list `m :: ms`. -/
def maxVisitsOf (m : MoveCandidate) (ms : List MoveCandidate) : Int :=
  ms.foldl (fun a x => max a x.visits) m.visits

/-- The per-group materialization loop of `_expand_symmetries`: one
candidate per coordinate of the group, all carrying the group's minimum
winrate, minimum score lead and maximum visit count. (A group is only
ever created carrying the move that created it, so the empty case is
unreachable.) -/
def expandGroup (g : SymGroup) : List MoveCandidate :=
  match g.moves with
  | [] => []
  | m :: ms => g.coords.map (fun c =>
      { move := c, winrate := minWinrate m ms, score_lead := minScore m ms,
        visits := maxVisitsOf m ms })

/-- Stable insertion into a descending-sorted list: the new element goes
after the elements whose key is not smaller, in particular after equal
keys. -/
def insertDesc {α β : Type} [LinearOrder β] (key : α → β) (a : α) :
    List α → List α
  | [] => [a]
  | b :: bs => if key b < key a then a :: b :: bs else b :: insertDesc key a bs

/-- Python `list.sort(key=..., reverse=True)`: a stable descending sort.
A stable sort's output is uniquely determined by the key, so stable
insertion sort models `list.sort` exactly. -/
def sortDescBy {α β : Type} [LinearOrder β] (key : α → β) (l : List α) : List α :=
  l.foldl (fun acc a => insertDesc key a acc) []

theorem insertDesc_perm {α β : Type} [LinearOrder β] (key : α → β) (a : α)
    (l : List α) : (insertDesc key a l).Perm (a :: l) := by
  induction l with
  | nil => exact List.Perm.refl _
  | cons b bs ih =>
    rw [insertDesc]
    by_cases h : key b < key a
    · rw [if_pos h]
    · rw [if_neg h]
      exact List.Perm.trans (List.Perm.cons b ih) (List.Perm.swap a b bs)

theorem sortDescBy_foldl_perm {α β : Type} [LinearOrder β] (key : α → β) :
    ∀ (l acc : List α),
      (l.foldl (fun acc a => insertDesc key a acc) acc).Perm (acc ++ l) := by
  intro l
  induction l with
  | nil =>
    intro acc
    rw [List.append_nil]
    exact List.Perm.refl acc
  | cons a as ih =>
    intro acc
    rw [List.foldl_cons]
    refine List.Perm.trans (ih (insertDesc key a acc)) ?_
    refine List.Perm.trans (List.Perm.append_right as (insertDesc_perm key a acc)) ?_
    exact List.perm_middle.symm

theorem sortDescBy_perm {α β : Type} [LinearOrder β] (key : α → β) (l : List α) :
    (sortDescBy key l).Perm l :=
  sortDescBy_foldl_perm key l []

/-- src/analyzer.py `_expand_symmetries` on `result.top_moves`: no-op
for a board with no nontrivial symmetry; otherwise group, materialize
every group coordinate, append the "PASS" entries, and sort by winrate
descending (`list.sort` is stable). -/
def expand_symmetries (top_moves : List MoveCandidate) (stones : Stones) (size : Int) :
    Except PyErr (List MoveCandidate) :=
  if (get_valid_symmetries stones size).length ≤ 1 then .ok top_moves
  else
    match buildGroups size (get_valid_symmetries stones size) [] top_moves with
    | .error e => .error e
    | .ok groups =>
      .ok (sortDescBy (fun m => m.winrate)
        ((groups.map expandGroup).flatten
          ++ top_moves.filter (fun m => pyUpper m.move = "PASS")))

/-- `apply_transform` as a function on coordinate pairs. -/
def appT (size : Int) (t : SymmetryTransform) (p : Int × Int) : Int × Int :=
  apply_transform p.1 p.2 size t

/-- Orbit reachability of coordinate `q` from coordinate `p` under a
list of transforms. -/
def orbRel (vs : List SymmetryTransform) (size : Int) (p q : Int × Int) : Prop :=
  ∃ t ∈ vs, appT size t p = q

/-- Decidable form of `orbRel`. -/
def orbDec (vs : List SymmetryTransform) (size : Int) (p q : Int × Int) : Bool :=
  vs.any (fun t => decide (appT size t p = q))

/-- Whether a candidate falls in the orbit of coordinate `p`: not a
PASS, and its parsed coordinate is reached from `p` by a valid
symmetry. -/
def orbMovePred (vs : List SymmetryTransform) (size : Int) (p : Int × Int)
    (m : MoveCandidate) : Bool :=
  ! decide (pyUpper m.move = "PASS") &&
    match gtp_to_coords m.move size with
    | .ok q => orbDec vs size p q
    | .error _ => false

/-- The input candidates falling in the orbit of coordinate `p`. -/
def orbMoves (top_moves : List MoveCandidate) (vs : List SymmetryTransform)
    (size : Int) (p : Int × Int) : List MoveCandidate :=
  top_moves.filter (orbMovePred vs size p)

theorem itemsSubset_iff (a b : Stones) :
    itemsSubset a b = true ↔ ∀ e ∈ a, e ∈ b := by
  rw [itemsSubset, List.all_eq_true]
  constructor
  · intro h e he
    have := h e he
    rw [List.any_eq_true] at this
    obtain ⟨f, hf, hfe⟩ := this
    rw [decide_eq_true_eq] at hfe
    exact hfe ▸ hf
  · intro h e he
    rw [List.any_eq_true]
    exact ⟨e, h e he, by simp⟩

theorem itemsSetEq_iff (a b : Stones) :
    itemsSetEq a b = true ↔ ((∀ e ∈ a, e ∈ b) ∧ ∀ e ∈ b, e ∈ a) := by
  rw [itemsSetEq, Bool.and_eq_true, itemsSubset_iff, itemsSubset_iff]

theorem itemsSetEq_refl (a : Stones) : itemsSetEq a a = true := by
  rw [itemsSetEq_iff]; exact ⟨fun e he => he, fun e he => he⟩

theorem itemsSetEq_symm (a b : Stones) (h : itemsSetEq a b = true) :
    itemsSetEq b a = true := by
  rw [itemsSetEq_iff] at h ⊢; exact ⟨h.2, h.1⟩

theorem itemsSetEq_trans (a b c : Stones) (h1 : itemsSetEq a b = true)
    (h2 : itemsSetEq b c = true) : itemsSetEq a c = true := by
  rw [itemsSetEq_iff] at h1 h2 ⊢
  exact ⟨fun e he => h2.1 e (h1.1 e he), fun e he => h1.2 e (h2.2 e he)⟩

theorem itemsSetEq_map (f : (Int × Int) × String → (Int × Int) × String)
    (a b : Stones) (h : itemsSetEq a b = true) :
    itemsSetEq (a.map f) (b.map f) = true := by
  rw [itemsSetEq_iff] at h ⊢
  constructor
  · intro e he
    obtain ⟨x, hx, rfl⟩ := List.mem_map.mp he
    exact List.mem_map.mpr ⟨x, h.1 x hx, rfl⟩
  · intro e he
    obtain ⟨x, hx, rfl⟩ := List.mem_map.mp he
    exact List.mem_map.mpr ⟨x, h.2 x hx, rfl⟩

/-- Stability of the stone set under one transform, the comparison
`get_valid_symmetries` makes. -/
def stableT (stones : Stones) (size : Int) (t : SymmetryTransform) : Bool :=
  itemsSetEq (transform_stones stones size t) stones

theorem stableT_id (stones : Stones) (size : Int) :
    stableT stones size IDENTITY = true := by
  rw [stableT, transform_stones_id]; exact itemsSetEq_refl stones

theorem transform_stones_setEq (stones : Stones) (size : Int)
    (t : SymmetryTransform) (a b : Stones) (h : itemsSetEq a b = true) :
    itemsSetEq (transform_stones a size t) (transform_stones b size t) = true :=
  itemsSetEq_map _ a b h

theorem stableT_comp (stones : Stones) (size : Int) (t1 t2 : SymmetryTransform)
    (h1 : stableT stones size t1 = true) (h2 : stableT stones size t2 = true) :
    stableT stones size (compT t1 t2) = true := by
  rw [stableT] at h1 h2 ⊢
  rw [← transform_stones_comp]
  exact itemsSetEq_trans _ _ _
    (transform_stones_setEq stones size t2 _ _ h1) h2

theorem stableT_inv (stones : Stones) (size : Int) (t : SymmetryTransform)
    (h : stableT stones size t = true) :
    stableT stones size (get_inverse_transform t) = true := by
  rw [stableT] at h ⊢
  have hc := transform_stones_setEq stones size (get_inverse_transform t) _ _ h
  rw [transform_stones_comp, compT_inverse_right, transform_stones_id] at hc
  exact itemsSetEq_symm _ _ hc

theorem mem_ALL_TRANSFORMS (t : SymmetryTransform) : t ∈ ALL_TRANSFORMS := by
  cases t <;> simp [ALL_TRANSFORMS]

theorem mem_valid_symmetries_iff (stones : Stones) (size : Int)
    (t : SymmetryTransform) :
    t ∈ get_valid_symmetries stones size ↔
      (t = IDENTITY ∨ stableT stones size t = true) := by
  rw [get_valid_symmetries, List.mem_filter]
  rw [Bool.or_eq_true, decide_eq_true_eq]
  exact ⟨fun h => h.2, fun h => ⟨mem_ALL_TRANSFORMS t, h⟩⟩

theorem stableT_of_valid (stones : Stones) (size : Int) (t : SymmetryTransform)
    (h : t ∈ get_valid_symmetries stones size) : stableT stones size t = true := by
  rcases (mem_valid_symmetries_iff stones size t).mp h with h | h
  · exact h ▸ stableT_id stones size
  · exact h

theorem valid_id_mem (stones : Stones) (size : Int) :
    IDENTITY ∈ get_valid_symmetries stones size :=
  (mem_valid_symmetries_iff stones size IDENTITY).mpr (Or.inl rfl)

theorem valid_comp (stones : Stones) (size : Int) (t1 t2 : SymmetryTransform)
    (h1 : t1 ∈ get_valid_symmetries stones size)
    (h2 : t2 ∈ get_valid_symmetries stones size) :
    compT t1 t2 ∈ get_valid_symmetries stones size :=
  (mem_valid_symmetries_iff stones size _).mpr (Or.inr
    (stableT_comp stones size t1 t2 (stableT_of_valid stones size t1 h1)
      (stableT_of_valid stones size t2 h2)))

theorem valid_inv (stones : Stones) (size : Int) (t : SymmetryTransform)
    (h : t ∈ get_valid_symmetries stones size) :
    get_inverse_transform t ∈ get_valid_symmetries stones size :=
  (mem_valid_symmetries_iff stones size _).mpr (Or.inr
    (stableT_inv stones size t (stableT_of_valid stones size t h)))

theorem appT_comp (size : Int) (t1 t2 : SymmetryTransform) (p : Int × Int) :
    appT size t2 (appT size t1 p) = appT size (compT t1 t2) p :=
  apply_transform_comp t1 t2 p.1 p.2 size

theorem appT_id (size : Int) (p : Int × Int) : appT size IDENTITY p = p := rfl

theorem appT_range (size : Int) (t : SymmetryTransform) (p : Int × Int)
    (hp : inRange p size) : inRange (appT size t p) size := by
  obtain ⟨h1, h2, h3, h4⟩ := hp
  have := apply_transform_mem_range t p.1 p.2 size ⟨h1, h2⟩ ⟨h3, h4⟩
  exact ⟨this.1.1, this.1.2, this.2.1, this.2.2⟩

theorem appT_inverse (size : Int) (t : SymmetryTransform) (p : Int × Int)
    (hp : inRange p size) :
    appT size (get_inverse_transform t) (appT size t p) = p := by
  obtain ⟨h1, h2, h3, h4⟩ := hp
  rw [show p = (p.1, p.2) from rfl]
  cases t <;> simp [appT, apply_transform, get_inverse_transform] <;> omega

theorem orbDec_iff (vs : List SymmetryTransform) (size : Int) (p q : Int × Int) :
    orbDec vs size p q = true ↔ orbRel vs size p q := by
  rw [orbDec, List.any_eq_true, orbRel]
  constructor
  · rintro ⟨t, ht, hd⟩; exact ⟨t, ht, of_decide_eq_true hd⟩
  · rintro ⟨t, ht, hd⟩; exact ⟨t, ht, decide_eq_true hd⟩

theorem orbRel_refl (stones : Stones) (vs : List SymmetryTransform) (size : Int)
    (hvs : vs = get_valid_symmetries stones size) (p : Int × Int) :
    orbRel vs size p p :=
  ⟨IDENTITY, hvs ▸ valid_id_mem stones size, appT_id size p⟩

theorem orbRel_symm (stones : Stones) (vs : List SymmetryTransform) (size : Int)
    (hvs : vs = get_valid_symmetries stones size) (p q : Int × Int)
    (hp : inRange p size) (h : orbRel vs size p q) : orbRel vs size q p := by
  obtain ⟨t, ht, rfl⟩ := h
  exact ⟨get_inverse_transform t, hvs ▸ valid_inv stones size t (hvs ▸ ht),
    appT_inverse size t p hp⟩

theorem orbRel_trans (stones : Stones) (vs : List SymmetryTransform) (size : Int)
    (hvs : vs = get_valid_symmetries stones size) (p q r : Int × Int)
    (h1 : orbRel vs size p q) (h2 : orbRel vs size q r) : orbRel vs size p r := by
  obtain ⟨t1, ht1, rfl⟩ := h1
  obtain ⟨t2, ht2, rfl⟩ := h2
  exact ⟨compT t1 t2, hvs ▸ valid_comp stones size t1 t2 (hvs ▸ ht1) (hvs ▸ ht2),
    (appT_comp size t1 t2 p).symm⟩

theorem gtp_to_coords_of_parseHead_none (s : String) (size : Int)
    (h : gtpParseHead s = none) : gtp_to_coords s size = .error .valueError := by
  unfold gtpParseHead at h
  unfold gtp_to_coords
  match hs : s.data with
  | [] => rfl
  | [_] => rfl
  | c :: d :: rest =>
    rw [hs] at h
    simp only at h ⊢
    cases hint : pyInt? (String.mk (d :: rest)) with
    | none => rfl
    | some r =>
      rw [hint] at h
      cases hidx : GTP_COLUMNS.data.findIdx? (fun e => e = c.toUpper) with
      | none => rfl
      | some i => rw [hidx] at h; simp at h

theorem gtp_to_coords_inRange (s : String) (size : Int) (p : Int × Int)
    (h : gtp_to_coords s size = .ok p) : inRange p size := by
  cases hph : gtpParseHead s with
  | none => rw [gtp_to_coords_of_parseHead_none s size hph] at h; exact absurd h (by simp)
  | some xr =>
    rw [gtp_to_coords_of_parseHead s xr.1 xr.2 size (by rw [hph])] at h
    by_cases hc : 0 ≤ (xr.1 : Int) ∧ (xr.1 : Int) < size ∧ 0 ≤ xr.2 - 1 ∧ xr.2 - 1 < size
    · rw [if_pos hc] at h
      cases h
      exact ⟨hc.1, hc.2.1, hc.2.2.1, hc.2.2.2⟩
    · rw [if_neg hc] at h; exact absurd h (by simp)

theorem coords_to_gtp_exists (p : Int × Int) (size : Int) (hsize : size ≤ 19)
    (hp : inRange p size) : ∃ s, coords_to_gtp p.1 p.2 = .ok s := by
  obtain ⟨h1, h2, h3, h4⟩ := hp
  obtain ⟨s, hs, _⟩ := coords_to_gtp_roundtrip p.1 p.2 size hsize ⟨h1, h2⟩ ⟨h3, h4⟩
  exact ⟨s, hs⟩

theorem coords_to_gtp_parse_back (p : Int × Int) (size : Int) (s : String)
    (hsize : size ≤ 19) (hp : inRange p size)
    (h : coords_to_gtp p.1 p.2 = .ok s) : gtp_to_coords s size = .ok p := by
  obtain ⟨h1, h2, h3, h4⟩ := hp
  obtain ⟨s', hs', hb⟩ := coords_to_gtp_roundtrip p.1 p.2 size hsize ⟨h1, h2⟩ ⟨h3, h4⟩
  rw [h] at hs'
  cases hs'
  rw [hb]

theorem coords_to_gtp_inj (p q : Int × Int) (size : Int) (s : String)
    (hsize : size ≤ 19) (hp : inRange p size) (hq : inRange q size)
    (h1 : coords_to_gtp p.1 p.2 = .ok s) (h2 : coords_to_gtp q.1 q.2 = .ok s) :
    p = q := by
  have hb1 := coords_to_gtp_parse_back p size s hsize hp h1
  have hb2 := coords_to_gtp_parse_back q size s hsize hq h2
  rw [hb1] at hb2
  exact Except.ok.inj hb2

/-- On boards up to 19, no printed coordinate upper-cases to "PASS"
(checked exhaustively, like the round-trip). -/
theorem printed_not_pass_bounded :
    ∀ xn : Nat, xn < 19 → ∀ yn : Nat, yn < 19 →
      (coords_to_gtp (xn : Int) (yn : Int)).toOption.map
        (fun s => decide (pyUpper s = "PASS")) = some false := by decide

theorem printed_not_pass (p : Int × Int) (size : Int) (s : String)
    (hsize : size ≤ 19) (hp : inRange p size)
    (h : coords_to_gtp p.1 p.2 = .ok s) : pyUpper s ≠ "PASS" := by
  obtain ⟨h1, h2, h3, h4⟩ := hp
  have hx19 : p.1.toNat < 19 := by omega
  have hy19 : p.2.toNat < 19 := by omega
  have hb := printed_not_pass_bounded p.1.toNat hx19 p.2.toNat hy19
  rw [Int.toNat_of_nonneg h1, Int.toNat_of_nonneg h3, h] at hb
  simp only [Except.toOption, Option.map_some', Option.some.injEq] at hb
  exact of_decide_eq_false hb

theorem transform_gtp_coord_ok (s : String) (size : Int) (t : SymmetryTransform)
    (p : Int × Int) (hnp : pyUpper s ≠ "PASS")
    (hparse : gtp_to_coords s size = .ok p) :
    transform_gtp_coord s size t
      = coords_to_gtp (appT size t p).1 (appT size t p).2 := by
  rw [transform_gtp_coord, if_neg hnp]
  show gtp_to_coords s size >>= _ = _
  rw [hparse]
  rfl

theorem strMin_cons (x b : String) (bs : List String) :
    strMin x (b :: bs) = strMin (if b < x then b else x) bs := rfl

theorem strMin_mem (x : String) (xs : List String) : strMin x xs ∈ x :: xs := by
  induction xs generalizing x with
  | nil => exact List.mem_singleton.mpr rfl
  | cons b bs ih =>
    rw [strMin_cons]
    have h := ih (if b < x then b else x)
    rcases List.mem_cons.mp h with h | h
    · rw [h]
      by_cases hb : b < x
      · rw [if_pos hb]; exact List.mem_cons_of_mem x (List.mem_cons_self b bs)
      · rw [if_neg hb]; exact List.mem_cons_self x (b :: bs)
    · exact List.mem_cons_of_mem x (List.mem_cons_of_mem b h)

theorem strMin_le (x : String) (xs : List String) :
    ∀ s ∈ x :: xs, strMin x xs ≤ s := by
  induction xs generalizing x with
  | nil => intro s hs; rw [List.mem_singleton.mp hs, strMin]; exact le_refl _
  | cons b bs ih =>
    intro s hs
    rw [strMin_cons]
    have hminx : (if b < x then b else x) ≤ x := by
      by_cases hb : b < x
      · rw [if_pos hb]; exact le_of_lt hb
      · rw [if_neg hb]
    have hminb : (if b < x then b else x) ≤ b := by
      by_cases hb : b < x
      · rw [if_pos hb]
      · rw [if_neg hb]; exact le_of_not_lt hb
    rcases List.mem_cons.mp hs with h | h
    · exact le_trans (ih _ _ (List.mem_cons_self _ bs)) (h ▸ hminx)
    · rcases List.mem_cons.mp h with h | h
      · exact le_trans (ih _ _ (List.mem_cons_self _ bs)) (h ▸ hminb)
      · exact ih _ s (List.mem_cons_of_mem _ h)

theorem strMin_congr (x : String) (xs : List String) (y : String) (ys : List String)
    (h : ∀ s, s ∈ x :: xs ↔ s ∈ y :: ys) : strMin x xs = strMin y ys :=
  le_antisymm
    (strMin_le x xs _ ((h _).mpr (strMin_mem y ys)))
    (strMin_le y ys _ ((h _).mp (strMin_mem x xs)))

theorem insertDedup_mem (l : List String) (c s : String) :
    s ∈ insertDedup l c ↔ s ∈ l ∨ s = c := by
  rw [insertDedup]
  by_cases hc : c ∈ l
  · rw [if_pos hc]
    exact ⟨Or.inl, fun h => h.elim id (fun h => h ▸ hc)⟩
  · rw [if_neg hc, List.mem_append, List.mem_singleton]

theorem insertDedup_nodup (l : List String) (c : String) (h : l.Nodup) :
    (insertDedup l c).Nodup := by
  rw [insertDedup]
  by_cases hc : c ∈ l
  · rw [if_pos hc]; exact h
  · rw [if_neg hc]
    exact List.nodup_append.mpr ⟨h, List.nodup_singleton c,
      fun a ha hb => hc ((List.mem_singleton.mp hb) ▸ ha)⟩

theorem symCoordsLoop_ok (move : String) (size : Int) (p : Int × Int)
    (hsize : size ≤ 19) (hnp : pyUpper move ≠ "PASS")
    (hparse : gtp_to_coords move size = .ok p)
    (ts : List SymmetryTransform) (acc : List String) :
    ∃ res, symCoordsLoop move size acc ts = .ok res ∧
      (∀ s, s ∈ res ↔ (s ∈ acc ∨ ∃ t ∈ ts,
        coords_to_gtp (appT size t p).1 (appT size t p).2 = .ok s)) ∧
      (acc.Nodup → res.Nodup) := by
  have hp : inRange p size := gtp_to_coords_inRange move size p hparse
  induction ts generalizing acc with
  | nil =>
    refine ⟨acc, rfl, fun s => ?_, id⟩
    simp
  | cons t rest ih =>
    obtain ⟨c, hc⟩ := coords_to_gtp_exists (appT size t p) size hsize
      (appT_range size t p hp)
    obtain ⟨res, hres, hmem, hnd⟩ := ih (insertDedup acc c)
    refine ⟨res, ?_, ?_, fun h => hnd (insertDedup_nodup acc c h)⟩
    · rw [symCoordsLoop, transform_gtp_coord_ok move size t p hnp hparse, hc]
      show symCoordsLoop move size (insertDedup acc c) rest = Except.ok res
      exact hres
    · intro s
      rw [hmem s, insertDedup_mem]
      constructor
      · rintro ((h | h) | ⟨t', ht', h⟩)
        · exact Or.inl h
        · exact Or.inr ⟨t, List.mem_cons_self t rest, h ▸ hc⟩
        · exact Or.inr ⟨t', List.mem_cons_of_mem t ht', h⟩
      · rintro (h | ⟨t', ht', h⟩)
        · exact Or.inl (Or.inl h)
        · rcases List.mem_cons.mp ht' with h' | h'
          · subst h'
            rw [hc] at h
            exact Or.inl (Or.inr (Except.ok.inj h).symm)
          · exact Or.inr ⟨t', h', h⟩

theorem orbMovePred_iff (vs : List SymmetryTransform) (size : Int) (p : Int × Int)
    (m : MoveCandidate) :
    orbMovePred vs size p m = true ↔
      (pyUpper m.move ≠ "PASS" ∧
        ∃ q, gtp_to_coords m.move size = .ok q ∧ orbRel vs size p q) := by
  rw [orbMovePred, Bool.and_eq_true, Bool.not_eq_true', decide_eq_false_iff_not]
  cases hparse : gtp_to_coords m.move size with
  | error e =>
    constructor
    · rintro ⟨_, h⟩; exact absurd h (by simp)
    · rintro ⟨_, q, hq, _⟩; exact absurd hq (by simp)
  | ok q =>
    constructor
    · rintro ⟨h1, h2⟩
      exact ⟨h1, q, rfl, (orbDec_iff vs size p q).mp h2⟩
    · rintro ⟨h1, q', hq', h2⟩
      cases Except.ok.inj hq'
      exact ⟨h1, (orbDec_iff vs size p q).mpr h2⟩

theorem orbStrings_congr (stones : Stones) (vs : List SymmetryTransform)
    (size : Int) (hvs : vs = get_valid_symmetries stones size) (p q : Int × Int)
    (hp : inRange p size) (hpq : orbRel vs size p q) (s : String) :
    (∃ t ∈ vs, coords_to_gtp (appT size t p).1 (appT size t p).2 = .ok s) ↔
      (∃ t ∈ vs, coords_to_gtp (appT size t q).1 (appT size t q).2 = .ok s) := by
  obtain ⟨t0, ht0, hq0⟩ := hpq
  constructor
  · rintro ⟨t, ht, hprint⟩
    refine ⟨compT (get_inverse_transform t0) t,
      hvs ▸ valid_comp stones size _ _
        (valid_inv stones size t0 (hvs ▸ ht0)) (hvs ▸ ht), ?_⟩
    have he : appT size (compT (get_inverse_transform t0) t) q = appT size t p := by
      rw [← appT_comp, ← hq0, appT_inverse size t0 p hp]
    rw [he]
    exact hprint
  · rintro ⟨t, ht, hprint⟩
    refine ⟨compT t0 t,
      hvs ▸ valid_comp stones size _ _ (hvs ▸ ht0) (hvs ▸ ht), ?_⟩
    have he : appT size (compT t0 t) p = appT size t q := by
      rw [← appT_comp, hq0]
    rw [he]
    exact hprint

theorem least_unique (a b : String) (la lb : List String)
    (ha : a ∈ la) (hamin : ∀ s ∈ la, a ≤ s)
    (hb : b ∈ lb) (hbmin : ∀ s ∈ lb, b ≤ s)
    (hmem : ∀ s, s ∈ la ↔ s ∈ lb) : a = b :=
  le_antisymm (hamin b ((hmem b).mpr hb)) (hbmin a ((hmem a).mp ha))

/-- The grouping invariant for one group `g` with orbit representative
`pg`, after the candidates in `processed` have been folded in. -/
structure GroupSpec (vs : List SymmetryTransform) (size : Int)
    (processed : List MoveCandidate) (g : SymGroup) (pg : Int × Int) : Prop where
  coords_mem : ∀ s, s ∈ g.coords ↔ ∃ t ∈ vs,
    coords_to_gtp (appT size t pg).1 (appT size t pg).2 = .ok s
  coords_nodup : g.coords.Nodup
  canon_mem : g.canonical ∈ g.coords
  canon_min : ∀ s ∈ g.coords, g.canonical ≤ s
  moves_eq : g.moves = orbMoves processed vs size pg
  moves_ne : g.moves ≠ []
  rep_range : inRange pg size

/-- The full grouping invariant, over the proof-side annotation of each
group with its orbit representative. -/
def GroupsInv (vs : List SymmetryTransform) (size : Int)
    (processed : List MoveCandidate) (gs : List (SymGroup × (Int × Int))) : Prop :=
  (gs.map (fun x => x.1.canonical)).Nodup ∧
    (∀ x ∈ gs, GroupSpec vs size processed x.1 x.2) ∧
    (∀ m ∈ processed, pyUpper m.move ≠ "PASS" →
      ∀ q, gtp_to_coords m.move size = .ok q → ∃ x ∈ gs, orbRel vs size x.2 q)

theorem bool_eq_of_iff (a b : Bool) (h : a = true ↔ b = true) : a = b := by
  cases a <;> cases b <;> simp_all

theorem canon_eq_of_orbRel (stones : Stones) (vs : List SymmetryTransform)
    (size : Int) (hvs : vs = get_valid_symmetries stones size)
    (processed : List MoveCandidate) (g : SymGroup) (pg : Int × Int)
    (hg : GroupSpec vs size processed g pg) (q : Int × Int)
    (c : String) (cs : List String)
    (hres : ∀ s, s ∈ c :: cs ↔ ∃ t ∈ vs,
      coords_to_gtp (appT size t q).1 (appT size t q).2 = .ok s)
    (ho : orbRel vs size pg q) : g.canonical = strMin c cs :=
  least_unique _ _ g.coords (c :: cs) hg.canon_mem hg.canon_min
    (strMin_mem c cs) (strMin_le c cs)
    (fun s => by
      rw [hg.coords_mem s, hres s]
      exact orbStrings_congr stones vs size hvs pg q hg.rep_range ho s)

theorem orbRel_of_canon_eq (stones : Stones) (vs : List SymmetryTransform)
    (size : Int) (hvs : vs = get_valid_symmetries stones size) (hsize : size ≤ 19)
    (processed : List MoveCandidate) (g : SymGroup) (pg : Int × Int)
    (hg : GroupSpec vs size processed g pg) (q : Int × Int) (hq : inRange q size)
    (c : String) (cs : List String)
    (hres : ∀ s, s ∈ c :: cs ↔ ∃ t ∈ vs,
      coords_to_gtp (appT size t q).1 (appT size t q).2 = .ok s)
    (hc : g.canonical = strMin c cs) : orbRel vs size pg q := by
  obtain ⟨t1, ht1, hp1⟩ := (hg.coords_mem g.canonical).mp hg.canon_mem
  obtain ⟨t2, ht2, hp2⟩ := (hres (strMin c cs)).mp (strMin_mem c cs)
  rw [hc] at hp1
  have he : appT size t1 pg = appT size t2 q :=
    coords_to_gtp_inj _ _ size _ hsize (appT_range size t1 pg hg.rep_range)
      (appT_range size t2 q hq) hp1 hp2
  have h2 : orbRel vs size (appT size t2 q) q :=
    orbRel_symm stones vs size hvs q _ hq ⟨t2, ht2, rfl⟩
  rw [← he] at h2
  exact orbRel_trans stones vs size hvs pg _ q ⟨t1, ht1, rfl⟩ h2

theorem orbMoves_append (a b : List MoveCandidate) (vs : List SymmetryTransform)
    (size : Int) (p : Int × Int) :
    orbMoves (a ++ b) vs size p = orbMoves a vs size p ++ orbMoves b vs size p :=
  List.filter_append a b

theorem orbMoves_singleton (vs : List SymmetryTransform) (size : Int)
    (p : Int × Int) (m : MoveCandidate) :
    orbMoves [m] vs size p
      = if orbMovePred vs size p m = true then [m] else [] := by
  by_cases h : orbMovePred vs size p m = true
  · rw [orbMoves, List.filter_cons, if_pos h, if_pos h]; rfl
  · rw [orbMoves, List.filter_cons, if_neg h, if_neg h]; rfl

theorem orbMoves_singleton_pass (vs : List SymmetryTransform) (size : Int)
    (p : Int × Int) (m : MoveCandidate) (h : pyUpper m.move = "PASS") :
    orbMoves [m] vs size p = [] := by
  rw [orbMoves_singleton, if_neg]
  rw [orbMovePred_iff]
  rintro ⟨h1, _⟩
  exact h1 h

theorem orbMoves_singleton_of_rel (vs : List SymmetryTransform) (size : Int)
    (p q : Int × Int) (m : MoveCandidate) (hnp : pyUpper m.move ≠ "PASS")
    (hparse : gtp_to_coords m.move size = .ok q) (ho : orbRel vs size p q) :
    orbMoves [m] vs size p = [m] := by
  rw [orbMoves_singleton, if_pos]
  exact (orbMovePred_iff vs size p m).mpr ⟨hnp, q, hparse, ho⟩

theorem orbMoves_singleton_of_not_rel (vs : List SymmetryTransform) (size : Int)
    (p q : Int × Int) (m : MoveCandidate)
    (hparse : gtp_to_coords m.move size = .ok q) (ho : ¬ orbRel vs size p q) :
    orbMoves [m] vs size p = [] := by
  rw [orbMoves_singleton, if_neg]
  rw [orbMovePred_iff]
  rintro ⟨_, q', hq', hrel⟩
  rw [hparse] at hq'
  cases Except.ok.inj hq'
  exact ho hrel

/-- Proof-side form of the update `addToGroups` makes to the hit group,
carried on the annotated pairs. -/
def bumpGroup (c : String) (m : MoveCandidate) (x : SymGroup × (Int × Int)) :
    SymGroup × (Int × Int) :=
  if x.1.canonical = c then ({ x.1 with moves := x.1.moves ++ [m] }, x.2) else x

theorem bumpGroup_canonical (c : String) (m : MoveCandidate)
    (x : SymGroup × (Int × Int)) : (bumpGroup c m x).1.canonical = x.1.canonical := by
  rw [bumpGroup]
  by_cases hx : x.1.canonical = c
  · rw [if_pos hx]
  · rw [if_neg hx]

theorem bumpGroup_snd (c : String) (m : MoveCandidate)
    (x : SymGroup × (Int × Int)) : (bumpGroup c m x).2 = x.2 := by
  rw [bumpGroup]
  by_cases hx : x.1.canonical = c
  · rw [if_pos hx]
  · rw [if_neg hx]

theorem buildGroups_ok (stones : Stones) (size : Int)
    (vs : List SymmetryTransform) (hvs : vs = get_valid_symmetries stones size)
    (hsize : size ≤ 19) (ms : List MoveCandidate) :
    ∀ (processed : List MoveCandidate) (gs : List (SymGroup × (Int × Int))),
    (∀ m ∈ ms, pyUpper m.move ≠ "PASS" → ∃ p, gtp_to_coords m.move size = .ok p) →
    GroupsInv vs size processed gs →
    ∃ gs', buildGroups size vs (gs.map Prod.fst) ms = .ok (gs'.map Prod.fst) ∧
      GroupsInv vs size (processed ++ ms) gs' := by
  induction ms with
  | nil =>
    intro processed gs _ hinv
    exact ⟨gs, rfl, by rw [List.append_nil]; exact hinv⟩
  | cons m rest ih =>
    intro processed gs hms hinv
    obtain ⟨hnd, hspec, hcover⟩ := hinv
    have hmrest : ∀ m' ∈ rest, pyUpper m'.move ≠ "PASS" →
        ∃ p, gtp_to_coords m'.move size = .ok p :=
      fun m' hm' => hms m' (List.mem_cons_of_mem m hm')
    by_cases hpass : pyUpper m.move = "PASS"
    · have hinv' : GroupsInv vs size (processed ++ [m]) gs := by
        refine ⟨hnd, fun x hx => ?_, fun m' hm' hnp' q' hq' => ?_⟩
        · obtain hx' := hspec x hx
          refine ⟨hx'.coords_mem, hx'.coords_nodup, hx'.canon_mem, hx'.canon_min,
            ?_, hx'.moves_ne, hx'.rep_range⟩
          rw [orbMoves_append, orbMoves_singleton_pass vs size x.2 m hpass,
            List.append_nil]
          exact hx'.moves_eq
        · rcases List.mem_append.mp hm' with h | h
          · exact hcover m' h hnp' q' hq'
          · rw [List.mem_singleton.mp h] at hnp'
            exact absurd hpass hnp'
      obtain ⟨gs', heq, hinv''⟩ := ih (processed ++ [m]) gs hmrest hinv'
      refine ⟨gs', ?_, ?_⟩
      · rw [buildGroups, if_pos hpass]; exact heq
      · rw [List.append_assoc, List.singleton_append] at hinv''; exact hinv''
    · obtain ⟨q, hq⟩ := hms m (List.mem_cons_self m rest) hpass
      have hqr : inRange q size := gtp_to_coords_inRange m.move size q hq
      obtain ⟨res, hloop, hresmem0, hnd0⟩ :=
        symCoordsLoop_ok m.move size q hsize hpass hq vs []
      have hresmem : ∀ s, s ∈ res ↔ ∃ t ∈ vs,
          coords_to_gtp (appT size t q).1 (appT size t q).2 = .ok s := by
        intro s
        rw [hresmem0 s]
        simp
      have hresnodup : res.Nodup := hnd0 List.nodup_nil
      obtain ⟨s0, hs0⟩ := coords_to_gtp_exists q size hsize hqr
      have hs0mem : s0 ∈ res := (hresmem s0).mpr
        ⟨IDENTITY, hvs ▸ valid_id_mem stones size, by rw [appT_id]; exact hs0⟩
      have hne : res ≠ [] := fun h => absurd (h ▸ hs0mem) (List.not_mem_nil s0)
      obtain ⟨c, cs, hcc⟩ := List.exists_cons_of_ne_nil hne
      subst hcc
      by_cases hhit : ∃ x ∈ gs, x.1.canonical = strMin c cs
      · have hany : (gs.map Prod.fst).any (fun g => g.canonical = strMin c cs)
            = true := by
          rw [List.any_eq_true]
          obtain ⟨x0, hx0, hc0⟩ := hhit
          exact ⟨x0.1, List.mem_map.mpr ⟨x0, hx0, rfl⟩, decide_eq_true hc0⟩
        have hmap : addToGroups (gs.map Prod.fst) (strMin c cs) m (c :: cs)
            = (gs.map (bumpGroup (strMin c cs) m)).map Prod.fst := by
          rw [addToGroups, if_pos hany, List.map_map, List.map_map]
          apply List.map_congr_left
          intro x _
          show (if x.1.canonical = strMin c cs then _ else x.1)
            = (bumpGroup (strMin c cs) m x).1
          rw [bumpGroup]
          by_cases hx : x.1.canonical = strMin c cs
          · rw [if_pos hx, if_pos hx]
          · rw [if_neg hx, if_neg hx]
        have hinv' : GroupsInv vs size (processed ++ [m])
            (gs.map (bumpGroup (strMin c cs) m)) := by
          refine ⟨?_, ?_, ?_⟩
          · have hml : (gs.map (bumpGroup (strMin c cs) m)).map
                (fun x => x.1.canonical) = gs.map (fun x => x.1.canonical) := by
              rw [List.map_map]
              apply List.map_congr_left
              intro x _
              show (bumpGroup (strMin c cs) m x).1.canonical = x.1.canonical
              exact bumpGroup_canonical _ m x
            rw [hml]
            exact hnd
          · intro x' hx'
            obtain ⟨x, hx, rfl⟩ := List.mem_map.mp hx'
            obtain hgs := hspec x hx
            by_cases hcx : x.1.canonical = strMin c cs
            · rw [bumpGroup, if_pos hcx]
              have horel : orbRel vs size x.2 q :=
                orbRel_of_canon_eq stones vs size hvs hsize processed x.1 x.2
                  hgs q hqr c cs hresmem hcx
              refine ⟨hgs.coords_mem, hgs.coords_nodup, hgs.canon_mem,
                hgs.canon_min, ?_, by simp, hgs.rep_range⟩
              rw [orbMoves_append,
                orbMoves_singleton_of_rel vs size x.2 q m hpass hq horel]
              rw [hgs.moves_eq]
            · rw [bumpGroup, if_neg hcx]
              have horel : ¬ orbRel vs size x.2 q := fun horel =>
                hcx (canon_eq_of_orbRel stones vs size hvs processed x.1 x.2
                  hgs q c cs hresmem horel)
              refine ⟨hgs.coords_mem, hgs.coords_nodup, hgs.canon_mem,
                hgs.canon_min, ?_, hgs.moves_ne, hgs.rep_range⟩
              rw [orbMoves_append,
                orbMoves_singleton_of_not_rel vs size x.2 q m hq horel,
                List.append_nil]
              exact hgs.moves_eq
          · intro m' hm' hnp' q' hq'
            rcases List.mem_append.mp hm' with h | h
            · obtain ⟨x, hx, hrel⟩ := hcover m' h hnp' q' hq'
              refine ⟨bumpGroup (strMin c cs) m x,
                List.mem_map.mpr ⟨x, hx, rfl⟩, ?_⟩
              rw [bumpGroup_snd]
              exact hrel
            · rw [List.mem_singleton.mp h] at hq'
              rw [hq] at hq'
              cases Except.ok.inj hq'
              obtain ⟨x0, hx0, hc0⟩ := hhit
              refine ⟨bumpGroup (strMin c cs) m x0,
                List.mem_map.mpr ⟨x0, hx0, rfl⟩, ?_⟩
              rw [bumpGroup_snd]
              exact orbRel_of_canon_eq stones vs size hvs hsize processed x0.1
                x0.2 (hspec x0 hx0) q hqr c cs hresmem hc0
        obtain ⟨gs', heq, hinv''⟩ := ih (processed ++ [m]) _ hmrest hinv'
        refine ⟨gs', ?_, ?_⟩
        · rw [buildGroups, if_neg hpass, hloop]
          show buildGroups size vs
            (addToGroups (gs.map Prod.fst) (strMin c cs) m (c :: cs)) rest = _
          rw [hmap]
          exact heq
        · rw [List.append_assoc, List.singleton_append] at hinv''; exact hinv''
      · have hany : (gs.map Prod.fst).any (fun g => g.canonical = strMin c cs)
            = false := by
          rw [List.any_eq_false]
          intro g hg hdec
          obtain ⟨x, hx, rfl⟩ := List.mem_map.mp hg
          exact hhit ⟨x, hx, of_decide_eq_true hdec⟩
        have hmap : addToGroups (gs.map Prod.fst) (strMin c cs) m (c :: cs)
            = (gs ++ [(({ canonical := strMin c cs, moves := [m], coords := c :: cs } : SymGroup), q)]).map Prod.fst := by
          rw [addToGroups, if_neg (by rw [hany]; exact Bool.false_ne_true),
            List.map_append]
          rfl
        have hnotrel : ∀ x ∈ gs, ¬ orbRel vs size x.2 q := by
          intro x hx horel
          exact hhit ⟨x, hx, canon_eq_of_orbRel stones vs size hvs processed
            x.1 x.2 (hspec x hx) q c cs hresmem horel⟩
        have hproc_empty : orbMoves processed vs size q = [] := by
          rw [orbMoves, List.filter_eq_nil]
          intro m' hm' hpred
          obtain ⟨hnp', q', hq', hrel⟩ := (orbMovePred_iff vs size q m').mp hpred
          obtain ⟨x, hx, hxrel⟩ := hcover m' hm' hnp' q' hq'
          exact hnotrel x hx (orbRel_trans stones vs size hvs x.2 q' q hxrel
            (orbRel_symm stones vs size hvs q q' hqr hrel))
        have hinv' : GroupsInv vs size (processed ++ [m])
            (gs ++ [(({ canonical := strMin c cs, moves := [m], coords := c :: cs } : SymGroup), q)]) := by
          refine ⟨?_, ?_, ?_⟩
          · rw [List.map_append, List.nodup_append]
            refine ⟨hnd, List.nodup_singleton _, ?_⟩
            intro a ha hb
            obtain ⟨x, hx, rfl⟩ := List.mem_map.mp ha
            have : x.1.canonical = strMin c cs := by
              have hb' := List.mem_singleton.mp hb
              exact hb'
            exact hhit ⟨x, hx, this⟩
          · intro x hx
            rcases List.mem_append.mp hx with h | h
            · obtain hgs := hspec x h
              refine ⟨hgs.coords_mem, hgs.coords_nodup, hgs.canon_mem,
                hgs.canon_min, ?_, hgs.moves_ne, hgs.rep_range⟩
              rw [orbMoves_append,
                orbMoves_singleton_of_not_rel vs size x.2 q m hq (hnotrel x h),
                List.append_nil]
              exact hgs.moves_eq
            · rw [List.mem_singleton.mp h]
              refine ⟨hresmem, hresnodup, strMin_mem c cs, strMin_le c cs,
                ?_, by simp, hqr⟩
              rw [orbMoves_append, hproc_empty, List.nil_append]
              rw [orbMoves_singleton_of_rel vs size q q m hpass hq
                (orbRel_refl stones vs size hvs q)]
          · intro m' hm' hnp' q' hq'
            rcases List.mem_append.mp hm' with h | h
            · obtain ⟨x, hx, hrel⟩ := hcover m' h hnp' q' hq'
              exact ⟨x, List.mem_append_left _ hx, hrel⟩
            · rw [List.mem_singleton.mp h] at hq'
              rw [hq] at hq'
              cases Except.ok.inj hq'
              exact ⟨(({ canonical := strMin c cs, moves := [m], coords := c :: cs } : SymGroup), q),
                List.mem_append_right _ (List.mem_singleton.mpr rfl),
                orbRel_refl stones vs size hvs q⟩
        obtain ⟨gs', heq, hinv''⟩ := ih (processed ++ [m]) _ hmrest hinv'
        refine ⟨gs', ?_, ?_⟩
        · rw [buildGroups, if_neg hpass, hloop]
          show buildGroups size vs
            (addToGroups (gs.map Prod.fst) (strMin c cs) m (c :: cs)) rest = _
          rw [hmap]
          exact heq
        · rw [List.append_assoc, List.singleton_append] at hinv''; exact hinv''

theorem foldl_min_le {α : Type} [LinearOrder α] (l : List α) (a : α) :
    ∀ x ∈ a :: l, l.foldl min a ≤ x := by
  induction l generalizing a with
  | nil =>
    intro x hx
    rw [List.mem_singleton.mp hx]
    exact le_refl _
  | cons b bs ih =>
    intro x hx
    rw [List.foldl_cons]
    have hacc : bs.foldl min (min a b) ≤ min a b :=
      ih (min a b) _ (List.mem_cons_self _ bs)
    rcases List.mem_cons.mp hx with h | h
    · subst h; exact le_trans hacc (min_le_left x b)
    · rcases List.mem_cons.mp h with h | h
      · subst h; exact le_trans hacc (min_le_right a x)
      · exact ih (min a b) x (List.mem_cons_of_mem _ h)

theorem foldl_min_mem {α : Type} [LinearOrder α] (l : List α) (a : α) :
    l.foldl min a ∈ a :: l := by
  induction l generalizing a with
  | nil => exact List.mem_singleton.mpr rfl
  | cons b bs ih =>
    rw [List.foldl_cons]
    rcases List.mem_cons.mp (ih (min a b)) with h | h
    · rcases min_choice a b with hm | hm
      · rw [h, hm]; exact List.mem_cons_self a (b :: bs)
      · rw [h, hm]; exact List.mem_cons_of_mem a (List.mem_cons_self b bs)
    · exact List.mem_cons_of_mem a (List.mem_cons_of_mem b h)

theorem foldl_max_ge {α : Type} [LinearOrder α] (l : List α) (a : α) :
    ∀ x ∈ a :: l, x ≤ l.foldl max a := by
  induction l generalizing a with
  | nil =>
    intro x hx
    rw [List.mem_singleton.mp hx]
    exact le_refl _
  | cons b bs ih =>
    intro x hx
    rw [List.foldl_cons]
    have hacc : max a b ≤ bs.foldl max (max a b) :=
      ih (max a b) _ (List.mem_cons_self _ bs)
    rcases List.mem_cons.mp hx with h | h
    · subst h; exact le_trans (le_max_left x b) hacc
    · rcases List.mem_cons.mp h with h | h
      · subst h; exact le_trans (le_max_right a x) hacc
      · exact ih (max a b) x (List.mem_cons_of_mem _ h)

theorem foldl_max_mem {α : Type} [LinearOrder α] (l : List α) (a : α) :
    l.foldl max a ∈ a :: l := by
  induction l generalizing a with
  | nil => exact List.mem_singleton.mpr rfl
  | cons b bs ih =>
    rw [List.foldl_cons]
    rcases List.mem_cons.mp (ih (max a b)) with h | h
    · rcases max_choice a b with hm | hm
      · rw [h, hm]; exact List.mem_cons_self a (b :: bs)
      · rw [h, hm]; exact List.mem_cons_of_mem a (List.mem_cons_self b bs)
    · exact List.mem_cons_of_mem a (List.mem_cons_of_mem b h)

theorem minWinrate_eq_foldl (m : MoveCandidate) (ms : List MoveCandidate) :
    minWinrate m ms = (ms.map (fun x => x.winrate)).foldl min m.winrate := by
  rw [minWinrate, List.foldl_map]

theorem minScore_eq_foldl (m : MoveCandidate) (ms : List MoveCandidate) :
    minScore m ms = (ms.map (fun x => x.score_lead)).foldl min m.score_lead := by
  rw [minScore, List.foldl_map]

theorem minWinrate_le (m : MoveCandidate) (ms : List MoveCandidate) :
    ∀ x ∈ m :: ms, minWinrate m ms ≤ x.winrate := by
  intro x hx
  rw [minWinrate_eq_foldl]
  apply foldl_min_le (ms.map (fun x => x.winrate)) m.winrate
  rcases List.mem_cons.mp hx with h | h
  · rw [h]; exact List.mem_cons_self _ _
  · exact List.mem_cons_of_mem _ (List.mem_map.mpr ⟨x, h, rfl⟩)

theorem minWinrate_mem (m : MoveCandidate) (ms : List MoveCandidate) :
    ∃ x ∈ m :: ms, minWinrate m ms = x.winrate := by
  rw [minWinrate_eq_foldl]
  rcases List.mem_cons.mp (foldl_min_mem (ms.map (fun x => x.winrate)) m.winrate)
    with h | h
  · exact ⟨m, List.mem_cons_self m ms, h⟩
  · obtain ⟨x, hx, hxe⟩ := List.mem_map.mp h
    exact ⟨x, List.mem_cons_of_mem m hx, hxe ▸ rfl⟩

theorem minScore_le (m : MoveCandidate) (ms : List MoveCandidate) :
    ∀ x ∈ m :: ms, minScore m ms ≤ x.score_lead := by
  intro x hx
  rw [minScore_eq_foldl]
  apply foldl_min_le (ms.map (fun x => x.score_lead)) m.score_lead
  rcases List.mem_cons.mp hx with h | h
  · rw [h]; exact List.mem_cons_self _ _
  · exact List.mem_cons_of_mem _ (List.mem_map.mpr ⟨x, h, rfl⟩)

theorem minScore_mem (m : MoveCandidate) (ms : List MoveCandidate) :
    ∃ x ∈ m :: ms, minScore m ms = x.score_lead := by
  rw [minScore_eq_foldl]
  rcases List.mem_cons.mp (foldl_min_mem (ms.map (fun x => x.score_lead))
    m.score_lead) with h | h
  · exact ⟨m, List.mem_cons_self m ms, h⟩
  · obtain ⟨x, hx, hxe⟩ := List.mem_map.mp h
    exact ⟨x, List.mem_cons_of_mem m hx, hxe ▸ rfl⟩

theorem orbMoves_rep_congr (stones : Stones) (vs : List SymmetryTransform)
    (size : Int) (hvs : vs = get_valid_symmetries stones size)
    (l : List MoveCandidate) (p p' : Int × Int) (hp : inRange p size)
    (hrel : orbRel vs size p p') :
    orbMoves l vs size p' = orbMoves l vs size p := by
  rw [orbMoves, orbMoves]
  apply List.filter_congr
  intro m _
  apply bool_eq_of_iff
  rw [orbMovePred_iff, orbMovePred_iff]
  constructor
  · rintro ⟨h1, q, hq, h2⟩
    exact ⟨h1, q, hq, orbRel_trans stones vs size hvs p p' q hrel h2⟩
  · rintro ⟨h1, q, hq, h2⟩
    exact ⟨h1, q, hq, orbRel_trans stones vs size hvs p' p q
      (orbRel_symm stones vs size hvs p p' hp hrel) h2⟩

theorem coords_printed (vs : List SymmetryTransform) (size : Int)
    (processed : List MoveCandidate) (g : SymGroup) (pg : Int × Int)
    (hg : GroupSpec vs size processed g pg) (s : String) (hs : s ∈ g.coords) :
    ∃ r : Int × Int, inRange r size ∧ coords_to_gtp r.1 r.2 = .ok s := by
  obtain ⟨t, _, hp⟩ := (hg.coords_mem s).mp hs
  exact ⟨appT size t pg, appT_range size t pg hg.rep_range, hp⟩

theorem shared_coord_canon_eq (stones : Stones) (vs : List SymmetryTransform)
    (size : Int) (hvs : vs = get_valid_symmetries stones size) (hsize : size ≤ 19)
    (processed : List MoveCandidate) (x y : SymGroup × (Int × Int))
    (hxs : GroupSpec vs size processed x.1 x.2)
    (hys : GroupSpec vs size processed y.1 y.2)
    (s : String) (hsx : s ∈ x.1.coords) (hsy : s ∈ y.1.coords) :
    x.1.canonical = y.1.canonical := by
  obtain ⟨t1, ht1, h1⟩ := (hxs.coords_mem s).mp hsx
  obtain ⟨t2, ht2, h2⟩ := (hys.coords_mem s).mp hsy
  have he : appT size t1 x.2 = appT size t2 y.2 :=
    coords_to_gtp_inj _ _ size s hsize (appT_range size t1 x.2 hxs.rep_range)
      (appT_range size t2 y.2 hys.rep_range) h1 h2
  have h2' : orbRel vs size (appT size t2 y.2) y.2 :=
    orbRel_symm stones vs size hvs y.2 _ hys.rep_range ⟨t2, ht2, rfl⟩
  rw [← he] at h2'
  have hrel : orbRel vs size x.2 y.2 :=
    orbRel_trans stones vs size hvs x.2 _ y.2 ⟨t1, ht1, rfl⟩ h2'
  exact least_unique _ _ x.1.coords y.1.coords hxs.canon_mem hxs.canon_min
    hys.canon_mem hys.canon_min
    (fun s' => by
      rw [hxs.coords_mem s', hys.coords_mem s']
      exact orbStrings_congr stones vs size hvs x.2 y.2 hxs.rep_range hrel s')

theorem filter_eq_length_nodup (l : List String) (hnd : l.Nodup) (s : String) :
    (l.filter (fun c => decide (c = s))).length = if s ∈ l then 1 else 0 := by
  induction l with
  | nil => rw [if_neg (List.not_mem_nil s)]; rfl
  | cons a as ih =>
    rw [List.filter_cons]
    have hndas := (List.nodup_cons.mp hnd).2
    have hnas := (List.nodup_cons.mp hnd).1
    by_cases ha : a = s
    · rw [if_pos (by simpa using ha), List.length_cons, ih hndas,
        if_neg (ha ▸ hnas), if_pos (List.mem_cons.mpr (Or.inl ha.symm))]
    · rw [if_neg (by simpa using ha), ih hndas]
      by_cases hs : s ∈ as
      · rw [if_pos hs, if_pos (List.mem_cons_of_mem a hs)]
      · rw [if_neg hs, if_neg (fun h => by
          rcases List.mem_cons.mp h with h | h
          · exact ha h.symm
          · exact hs h)]

/-- The candidate materialized for one orbit coordinate. -/
def expandCand (w sc : Rat) (v : Int) (co : String) : MoveCandidate :=
  { move := co, winrate := w, score_lead := sc, visits := v }

theorem expandGroup_eq (g : SymGroup) (m0 : MoveCandidate)
    (ms0 : List MoveCandidate) (hm : g.moves = m0 :: ms0) :
    expandGroup g = g.coords.map
      (expandCand (minWinrate m0 ms0) (minScore m0 ms0) (maxVisitsOf m0 ms0)) := by
  rw [expandGroup, hm]
  rfl

theorem expandGroup_mem (g : SymGroup) (m0 : MoveCandidate)
    (ms0 : List MoveCandidate) (hm : g.moves = m0 :: ms0) (cand : MoveCandidate) :
    cand ∈ expandGroup g ↔ ∃ co ∈ g.coords, cand =
      expandCand (minWinrate m0 ms0) (minScore m0 ms0) (maxVisitsOf m0 ms0) co := by
  rw [expandGroup_eq g m0 ms0 hm, List.mem_map]
  constructor
  · rintro ⟨co, h1, h2⟩; exact ⟨co, h1, h2.symm⟩
  · rintro ⟨co, h1, h2⟩; exact ⟨co, h1, h2.symm⟩

theorem expandGroup_count (vs : List SymmetryTransform) (size : Int)
    (processed : List MoveCandidate) (g : SymGroup) (pg : Int × Int)
    (hg : GroupSpec vs size processed g pg) (s : String) :
    ((expandGroup g).filter (fun cand => cand.move = s)).length
      = if s ∈ g.coords then 1 else 0 := by
  cases hm : g.moves with
  | nil => exact absurd hm hg.moves_ne
  | cons m0 ms0 =>
    rw [expandGroup_eq g m0 ms0 hm, List.filter_map, List.length_map]
    rw [show ((fun cand => decide (cand.move = s)) ∘
        expandCand (minWinrate m0 ms0) (minScore m0 ms0) (maxVisitsOf m0 ms0))
      = (fun c => decide (c = s)) from rfl]
    exact filter_eq_length_nodup g.coords hg.coords_nodup s

theorem join_count_zero (vs : List SymmetryTransform) (size : Int)
    (processed : List MoveCandidate) (gs' : List (SymGroup × (Int × Int)))
    (hspecs : ∀ x ∈ gs', GroupSpec vs size processed x.1 x.2) (s : String)
    (hnone : ∀ x ∈ gs', s ∉ x.1.coords) :
    ((gs'.map (fun x => expandGroup x.1)).flatten.filter
      (fun cand => cand.move = s)).length = 0 := by
  induction gs' with
  | nil => rfl
  | cons y ys ih =>
    rw [List.map_cons, List.flatten_cons, List.filter_append, List.length_append,
      expandGroup_count vs size processed y.1 y.2
        (hspecs y (List.mem_cons_self y ys)),
      if_neg (hnone y (List.mem_cons_self y ys)),
      ih (fun x hx => hspecs x (List.mem_cons_of_mem y hx))
        (fun x hx => hnone x (List.mem_cons_of_mem y hx))]

theorem join_count_one (stones : Stones) (vs : List SymmetryTransform)
    (size : Int) (hvs : vs = get_valid_symmetries stones size) (hsize : size ≤ 19)
    (processed : List MoveCandidate) (s : String) :
    ∀ (gs' : List (SymGroup × (Int × Int))),
    (∀ x ∈ gs', GroupSpec vs size processed x.1 x.2) →
    ((gs'.map (fun x => x.1.canonical)).Nodup) →
    ∀ x0 ∈ gs', s ∈ x0.1.coords →
    ((gs'.map (fun x => expandGroup x.1)).flatten.filter
      (fun cand => cand.move = s)).length = 1 := by
  intro gs'
  induction gs' with
  | nil => intro _ _ x0 hx0; exact absurd hx0 (List.not_mem_nil x0)
  | cons y ys ih =>
    intro hspecs hnd x0 hx0 hs
    have hnd' : (y.1.canonical :: ys.map (fun x => x.1.canonical)).Nodup := by
      rw [List.map_cons] at hnd; exact hnd
    have hndc : y.1.canonical ∉ ys.map (fun x => x.1.canonical) :=
      (List.nodup_cons.mp hnd').1
    have hndys : (ys.map (fun x => x.1.canonical)).Nodup :=
      (List.nodup_cons.mp hnd').2
    rw [List.map_cons, List.flatten_cons, List.filter_append, List.length_append]
    rcases List.mem_cons.mp hx0 with h | h
    · subst h
      rw [expandGroup_count vs size processed x0.1 x0.2
          (hspecs x0 (List.mem_cons_self x0 ys)), if_pos hs,
        join_count_zero vs size processed ys
          (fun x hx => hspecs x (List.mem_cons_of_mem x0 hx)) s
          (fun x hx hsx => hndc (by
            rw [shared_coord_canon_eq stones vs size hvs hsize processed x0 x
              (hspecs x0 (List.mem_cons_self x0 ys))
              (hspecs x (List.mem_cons_of_mem x0 hx)) s hs hsx]
            exact List.mem_map.mpr ⟨x, hx, rfl⟩))]
    · have hyzero : s ∉ y.1.coords := fun hsy => hndc (by
        rw [shared_coord_canon_eq stones vs size hvs hsize processed y x0
          (hspecs y (List.mem_cons_self y ys))
          (hspecs x0 (List.mem_cons_of_mem y h)) s hsy hs]
        exact List.mem_map.mpr ⟨x0, h, rfl⟩)
      rw [expandGroup_count vs size processed y.1 y.2
          (hspecs y (List.mem_cons_self y ys)), if_neg hyzero,
        ih (fun x hx => hspecs x (List.mem_cons_of_mem y hx)) hndys x0 h hs]

theorem join_no_pass (vs : List SymmetryTransform) (size : Int) (hsize : size ≤ 19)
    (processed : List MoveCandidate) (gs' : List (SymGroup × (Int × Int)))
    (hspecs : ∀ x ∈ gs', GroupSpec vs size processed x.1 x.2) :
    ∀ cand ∈ (gs'.map (fun x => expandGroup x.1)).flatten,
      pyUpper cand.move ≠ "PASS" := by
  intro cand hcand
  rw [List.mem_flatten] at hcand
  obtain ⟨l, hl, hcl⟩ := hcand
  obtain ⟨x, hx, rfl⟩ := List.mem_map.mp hl
  obtain hgs := hspecs x hx
  obtain ⟨m0, ms0, hm⟩ := List.exists_cons_of_ne_nil hgs.moves_ne
  obtain ⟨co, hco, rfl⟩ := (expandGroup_mem x.1 m0 ms0 hm cand).mp hcl
  obtain ⟨r, hr, hpr⟩ := coords_printed vs size processed x.1 x.2 hgs co hco
  exact printed_not_pass r size co hsize hr hpr

/-- What `_expand_symmetries` guarantees for a board with a nontrivial
symmetry, in the spec's terms: every presented non-PASS candidate sits
on a coordinate of the orbit of some input candidate and carries the
minimum winrate and minimum score lead observed among the input
candidates falling in that orbit; exactly one candidate is materialized
for every coordinate of every input candidate's orbit; and the PASS
entries pass through unchanged. -/
def ExpandSpec (stones : Stones) (size : Int)
    (top_moves out : List MoveCandidate) : Prop :=
  (∀ cand ∈ out, pyUpper cand.move ≠ "PASS" →
    ∃ m ∈ top_moves, ∃ p q, pyUpper m.move ≠ "PASS" ∧
      gtp_to_coords m.move size = .ok p ∧
      orbRel (get_valid_symmetries stones size) size p q ∧
      coords_to_gtp q.1 q.2 = .ok cand.move ∧
      (∃ m' ∈ orbMoves top_moves (get_valid_symmetries stones size) size p,
        cand.winrate = m'.winrate) ∧
      (∀ m' ∈ orbMoves top_moves (get_valid_symmetries stones size) size p,
        cand.winrate ≤ m'.winrate) ∧
      (∃ m' ∈ orbMoves top_moves (get_valid_symmetries stones size) size p,
        cand.score_lead = m'.score_lead) ∧
      (∀ m' ∈ orbMoves top_moves (get_valid_symmetries stones size) size p,
        cand.score_lead ≤ m'.score_lead)) ∧
  (∀ m ∈ top_moves, pyUpper m.move ≠ "PASS" →
    ∀ p q, gtp_to_coords m.move size = .ok p →
      orbRel (get_valid_symmetries stones size) size p q →
      ∃ s, coords_to_gtp q.1 q.2 = .ok s ∧
        (out.filter (fun cand => cand.move = s)).length = 1) ∧
  (out.filter (fun cand => pyUpper cand.move = "PASS")).Perm
    (top_moves.filter (fun cand => pyUpper cand.move = "PASS"))

/-- **C6.** On a board invariant under a nontrivial subset of the 8
transforms (more than just the identity is valid), and for engine
candidates whose non-PASS coordinates parse on the board,
`_expand_symmetries` groups the candidates into orbits under the board's
valid symmetries, materializes exactly one candidate for every
coordinate of every orbit, and gives each one the minimum winrate and
minimum score lead observed among the original candidates falling in
that orbit, passing PASS entries through
(src/analyzer.py `GoAnalyzer._expand_symmetries`,
src/board.py `get_valid_symmetries`). -/
theorem expand_symmetries_orbit_minima (stones : Stones) (size : Int)
    (top_moves : List MoveCandidate) (hsize : size ≤ 19)
    (hnt : 1 < (get_valid_symmetries stones size).length)
    (hparse : ∀ m ∈ top_moves, pyUpper m.move ≠ "PASS" →
      ∃ p, gtp_to_coords m.move size = .ok p) :
    ∃ out, expand_symmetries top_moves stones size = .ok out ∧
      ExpandSpec stones size top_moves out := by
  set vs := get_valid_symmetries stones size with hvs
  have hinv0 : GroupsInv vs size [] [] :=
    ⟨List.nodup_nil, fun x hx => absurd hx (List.not_mem_nil x),
      fun m hm => absurd hm (List.not_mem_nil m)⟩
  obtain ⟨gs', heq, hinv⟩ :=
    buildGroups_ok stones size vs hvs hsize top_moves [] [] hparse hinv0
  rw [List.nil_append] at hinv
  obtain ⟨hnd, hspecs, hcover⟩ := hinv
  have heq' : buildGroups size vs [] top_moves = .ok (gs'.map Prod.fst) := heq
  have hbase : (gs'.map Prod.fst).map expandGroup
      = gs'.map (fun x => expandGroup x.1) := by
    rw [List.map_map]
    rfl
  refine ⟨sortDescBy (fun m => m.winrate)
      (((gs'.map Prod.fst).map expandGroup).flatten
        ++ top_moves.filter (fun m => pyUpper m.move = "PASS")), ?_, ?_, ?_, ?_⟩
  · rw [expand_symmetries, if_neg (by rw [← hvs]; omega), heq']
  · intro cand hcand hnp
    have hcb : cand ∈ ((gs'.map Prod.fst).map expandGroup).flatten
        ++ top_moves.filter (fun m => pyUpper m.move = "PASS") :=
      (sortDescBy_perm _ _).mem_iff.mp hcand
    rcases List.mem_append.mp hcb with hj | hpp
    · rw [hbase, List.mem_flatten] at hj
      obtain ⟨l, hl, hcl⟩ := hj
      obtain ⟨x, hx, rfl⟩ := List.mem_map.mp hl
      have hgs := hspecs x hx
      obtain ⟨m0, ms0, hm⟩ := List.exists_cons_of_ne_nil hgs.moves_ne
      obtain ⟨co, hco, rfl⟩ := (expandGroup_mem x.1 m0 ms0 hm _).mp hcl
      have hm0 : m0 ∈ orbMoves top_moves vs size x.2 := by
        rw [← hgs.moves_eq, hm]
        exact List.mem_cons_self m0 ms0
      have hm0' := List.mem_filter.mp hm0
      obtain ⟨hnp0, q0, hq0, hrel0⟩ := (orbMovePred_iff vs size x.2 m0).mp hm0'.2
      obtain ⟨t, ht, hpt⟩ := (hgs.coords_mem co).mp hco
      have hlist : orbMoves top_moves vs size q0 = m0 :: ms0 := by
        rw [orbMoves_rep_congr stones vs size hvs top_moves x.2 q0
          hgs.rep_range hrel0, ← hgs.moves_eq, hm]
      refine ⟨m0, hm0'.1, q0, appT size t x.2, hnp0, hq0, ?_, hpt, ?_, ?_, ?_, ?_⟩
      · exact orbRel_trans stones vs size hvs q0 x.2 _
          (orbRel_symm stones vs size hvs x.2 q0 hgs.rep_range hrel0)
          ⟨t, ht, rfl⟩
      · rw [hlist]
        obtain ⟨x', hx', he⟩ := minWinrate_mem m0 ms0
        exact ⟨x', hx', he⟩
      · rw [hlist]
        exact minWinrate_le m0 ms0
      · rw [hlist]
        obtain ⟨x', hx', he⟩ := minScore_mem m0 ms0
        exact ⟨x', hx', he⟩
      · rw [hlist]
        exact minScore_le m0 ms0
    · exact absurd (List.mem_filter.mp hpp).2 (by simpa using hnp)
  · intro m hm hnp p q hp hrel
    have hpr : inRange p size := gtp_to_coords_inRange m.move size p hp
    have hqr : inRange q size := by
      obtain ⟨t, _, he⟩ := hrel
      rw [← he]
      exact appT_range size t p hpr
    obtain ⟨s, hs⟩ := coords_to_gtp_exists q size hsize hqr
    refine ⟨s, hs, ?_⟩
    have hpf := (sortDescBy_perm (fun m : MoveCandidate => m.winrate)
        (((gs'.map Prod.fst).map expandGroup).flatten
          ++ top_moves.filter (fun m => pyUpper m.move = "PASS"))).filter
      (fun cand => decide (cand.move = s))
    rw [hpf.length_eq, List.filter_append, List.length_append]
    have hpass0 : ((top_moves.filter (fun m => pyUpper m.move = "PASS")).filter
        (fun cand => cand.move = s)).length = 0 := by
      rw [List.length_eq_zero, List.filter_eq_nil_iff]
      intro cand hcand hmv
      have hcp := (List.mem_filter.mp hcand).2
      rw [of_decide_eq_true hmv] at hcp
      exact printed_not_pass q size s hsize hqr hs (of_decide_eq_true hcp)
    obtain ⟨x0, hx0, hrel0⟩ := hcover m hm hnp p hp
    have hsx0 : s ∈ x0.1.coords := by
      rw [(hspecs x0 hx0).coords_mem s]
      obtain ⟨t', ht', he'⟩ :=
        orbRel_trans stones vs size hvs x0.2 p q hrel0 hrel
      exact ⟨t', ht', by rw [he']; exact hs⟩
    rw [hbase, join_count_one stones vs size hvs hsize top_moves s gs'
      hspecs hnd x0 hx0 hsx0, hpass0]
  · have hjp : (((gs'.map Prod.fst).map expandGroup).flatten).filter
        (fun cand => pyUpper cand.move = "PASS") = [] := by
      rw [List.filter_eq_nil_iff]
      intro cand hcand hpp
      rw [hbase] at hcand
      exact join_no_pass vs size hsize top_moves gs' hspecs cand hcand
        (of_decide_eq_true hpp)
    have hps : ((top_moves.filter (fun m => pyUpper m.move = "PASS")).filter
        (fun cand => pyUpper cand.move = "PASS"))
        = top_moves.filter (fun cand => pyUpper cand.move = "PASS") := by
      rw [List.filter_eq_self]
      intro cand hcand
      exact (List.mem_filter.mp hcand).2
    have hperm := ((sortDescBy_perm (fun m : MoveCandidate => m.winrate)
        (((gs'.map Prod.fst).map expandGroup).flatten
          ++ top_moves.filter (fun m => pyUpper m.move = "PASS"))).filter
      (fun cand => pyUpper cand.move = "PASS"))
    rw [List.filter_append, hjp, hps, List.nil_append] at hperm
    exact hperm

/-- The single engine candidate of the C6 witness, on an empty 9×9 board
(all 8 transforms are valid symmetries there). -/
def c6Move : MoveCandidate := ⟨"D4", 1/2, 0, 10⟩

/-- Witness for C6: the expansion theorem instantiated on the empty 9×9
board and one candidate at D4, with every hypothesis discharged
concretely. -/
theorem expand_symmetries_orbit_minima_witness :
    ((9 : Int) ≤ 19 ∧ 1 < (get_valid_symmetries [] 9).length ∧
      (∀ m ∈ [c6Move], pyUpper m.move ≠ "PASS" →
        ∃ p, gtp_to_coords m.move 9 = .ok p)) ∧
    (∃ out, expand_symmetries [c6Move] [] 9 = .ok out ∧
      ExpandSpec [] 9 [c6Move] out) :=
  ⟨⟨by decide, by decide,
      fun m hm _ => ⟨(3, 3), by rw [List.mem_singleton.mp hm]; rfl⟩⟩,
    expand_symmetries_orbit_minima [] 9 [c6Move] (by decide) (by decide)
      (fun m hm _ => ⟨(3, 3), by rw [List.mem_singleton.mp hm]; rfl⟩)⟩

/-! ## KataGo GTP streaming analysis (src/katago_gtp.py) -/

/-- Python regex `\s` over the ASCII whitespace this protocol produces. -/
def isPyWs (c : Char) : Bool :=
  c = ' ' || c = '\t' || c = '\n' || c = '\r' || c = '\x0b' || c = '\x0c'

/-- Strip a literal character prefix, returning the remainder. -/
def stripPrefixChars : List Char → List Char → Option (List Char)
  | [], l => some l
  | _ :: _, [] => none
  | p :: ps, c :: cs => if c = p then stripPrefixChars ps cs else none

theorem stripPrefixChars_length (p : List Char) :
    ∀ (l l1 : List Char), stripPrefixChars p l = some l1 →
      l1.length + p.length = l.length := by
  induction p with
  | nil =>
    intro l l1 h
    cases Option.some.inj h
    rfl
  | cons c ps ih =>
    intro l l1 h
    cases l with
    | nil => exact absurd h (by rw [stripPrefixChars]; simp)
    | cons d ds =>
      rw [stripPrefixChars] at h
      by_cases hd : d = c
      · rw [if_pos hd] at h
        have := ih ds l1 h
        rw [List.length_cons, List.length_cons]
        omega
      · rw [if_neg hd] at h
        exact absurd h (by simp)

/-- `re.split(r'info move\s+', line)`: cut the line at every occurrence
of the literal `info move` followed by whitespace (the leftmost,
non-overlapping matches, greedy in the whitespace). The fuel argument
only bounds the recursion; every step consumes at least one character,
so `length + 1` fuel never runs out. -/
def splitIMF : Nat → List Char → List Char → List String
  | 0, acc, l => [String.mk (acc.reverse ++ l)]
  | fuel + 1, acc, l =>
    match l with
    | [] => [String.mk acc.reverse]
    | c :: rest =>
      match stripPrefixChars "info move".data (c :: rest) with
      | some (d :: l2) =>
        if isPyWs d then
          String.mk acc.reverse :: splitIMF fuel [] ((d :: l2).dropWhile isPyWs)
        else splitIMF fuel (c :: acc) rest
      | _ => splitIMF fuel (c :: acc) rest

def splitInfoMove (line : String) : List String :=
  splitIMF (line.data.length + 1) [] line.data

/-- Python `str.split()`: split on whitespace runs, dropping empties
(`cur` is the reversed word being read). -/
def splitWsAux (cur : List Char) : List Char → List (List Char)
  | [] => if cur.isEmpty then [] else [cur.reverse]
  | c :: rest =>
    if isPyWs c then
      if cur.isEmpty then splitWsAux [] rest
      else cur.reverse :: splitWsAux [] rest
    else splitWsAux (c :: cur) rest

def pySplitWs (s : String) : List String :=
  (splitWsAux [] s.data).map String.mk

/-- Leftmost match of `key` + `\s+` + an optional sign + a nonempty run
of `numChar`s, returning the captured sign-and-run — the shape of the
three `re.search` calls of `_parse_kata_analyze_line`. -/
def tryMatchKeyNum (key : List Char) (numChar : Char → Bool) (allowNeg : Bool)
    (l : List Char) : Option String :=
  match stripPrefixChars key l with
  | none => none
  | some l1 =>
    match l1.takeWhile isPyWs with
    | [] => none
    | _ :: _ =>
      match hd : l1.dropWhile isPyWs, allowNeg with
      | '-' :: r, true =>
        match r.takeWhile numChar with
        | [] => none
        | num => some (String.mk ('-' :: num))
      | l2, _ =>
        match l2.takeWhile numChar with
        | [] => none
        | num => some (String.mk num)

def reSearchNum (key : List Char) (numChar : Char → Bool) (allowNeg : Bool) :
    List Char → Option String
  | [] => none
  | c :: rest =>
    match tryMatchKeyNum key numChar allowNeg (c :: rest) with
    | some g => some g
    | none => reSearchNum key numChar allowNeg rest

/-- Python `float()` on a string drawn from `-?[\d.]+`: at most one dot
and at least one digit; the exact decimal value as a rational
(`intpart.fracpart` as one `mkRat`, which evaluates by kernel
reduction). -/
def pyFloat? (s : String) : Option Rat :=
  match s.data with
  | '-' :: ds => (pyFloatMag ds).map (fun q => mkRat (-q.num) q.den)
  | ds => pyFloatMag ds
where
  pyFloatMag (ds : List Char) : Option Rat :=
    if ds.all (fun c => isAsciiDigit c || c = '.')
        && decide ((ds.filter (fun c => c = '.')).length ≤ 1)
        && decide (ds.filter isAsciiDigit ≠ []) then
      some (mkRat (digitsToNat (ds.takeWhile (fun c => c ≠ '.'))
            * 10 ^ ((ds.dropWhile (fun c => c ≠ '.')).drop 1).length
          + digitsToNat ((ds.dropWhile (fun c => c ≠ '.')).drop 1))
        (10 ^ ((ds.dropWhile (fun c => c ≠ '.')).drop 1).length))
    else none

/-- One `for part in parts[1:]` iteration of
src/katago_gtp.py `_parse_kata_analyze_line`: require a first word and
the `visits`/`winrate` matches, default a missing `scoreLead` to 0, and
skip the segment (`none`) when a numeric conversion raises
`ValueError`. -/
def parseSegment (part : String) : Option MoveCandidate :=
  match pySplitWs part with
  | [] => none
  | w :: _ =>
    match reSearchNum "visits".data isAsciiDigit false part.data,
        reSearchNum "winrate".data (fun c => isAsciiDigit c || c = '.') false
          part.data with
    | some vstr, some wstr =>
      match pyFloat? wstr with
      | none => none
      | some wr =>
        match reSearchNum "scoreLead".data (fun c => isAsciiDigit c || c = '.')
            true part.data with
        | some sstr =>
          match pyFloat? sstr with
          | none => none
          | some sc => some ⟨pyUpper w, wr, sc, (digitsToNat vstr.data : Int)⟩
        | none => some ⟨pyUpper w, wr, 0, (digitsToNat vstr.data : Int)⟩
    | _, _ => none

/-- src/katago_gtp.py `_parse_kata_analyze_line`: split on `info move`,
parse each following segment, sort by visits descending (stable), and
keep the first `top_n`. -/
def parse_kata_analyze_line (line : String) (top_n : Nat) : List MoveCandidate :=
  (sortDescBy (fun m => m.visits)
    (((splitInfoMove line).drop 1).filterMap parseSegment)).take top_n

/-- Python `str.strip()`. -/
def pyStrip (s : String) : String :=
  String.mk (((s.data.dropWhile isPyWs).reverse.dropWhile isPyWs).reverse)

/-- The `genmove`-and-`undo` fallback of src/katago_gtp.py
`KataGoGTP.analyze`: the returned candidate list and the GTP commands it
sends. A PASS / RESIGN / empty reply yields no candidate. -/
def genmoveFallback (reply next_player : String) (visits : Int) :
    List MoveCandidate × List String :=
  (if pyUpper (pyStrip reply) ≠ "" ∧ pyUpper (pyStrip reply) ≠ "PASS"
      ∧ pyUpper (pyStrip reply) ≠ "RESIGN"
    then [⟨pyUpper (pyStrip reply), 1/2, 0, visits⟩] else [],
   ["genmove " ++ next_player, "undo"])

/-- src/katago_gtp.py `KataGoGTP.analyze` after the streaming loop: the
collected `info` lines and the engine's `genmove` reply are inputs (the
timing of the read loop and the `stop` drain are outside the model);
parse the LAST collected line, and fall back to `genmove` + `undo` when
nothing was collected or the parse yields no candidate. The second
component lists the GTP commands sent after the stream. -/
def gtpAnalyze (response_lines : List String) (genmove_reply next_player : String)
    (visits : Int) (top_n : Nat) : List MoveCandidate × List String :=
  match response_lines.getLast? with
  | none => genmoveFallback genmove_reply next_player visits
  | some last =>
    match parse_kata_analyze_line last top_n with
    | [] => genmoveFallback genmove_reply next_player visits
    | c :: cands => (c :: cands, [])

/-- **C8 counterexample.** The claim says a run with no parseable
snapshot returns exactly one low-confidence candidate. Here the only
collected line has no parseable segment, the engine answers the
best-move request with `pass`, and `analyze` returns ZERO candidates
(the `genmove` fallback yields a candidate only for a reply that is not
PASS, RESIGN or empty — src/katago_gtp.py `KataGoGTP.analyze`,
lines 364-372). -/
theorem analyze_fallback_empty_on_pass :
    parse_kata_analyze_line "info move zz" 3 = [] ∧
    gtpAnalyze ["info move zz"] " pass\n" "B" 100 3
      = ([], ["genmove B", "undo"]) ∧
    ∀ cand : MoveCandidate,
      (gtpAnalyze ["info move zz"] " pass\n" "B" 100 3).1 ≠ [cand] :=
  ⟨rfl, rfl, by
    intro cand h
    rw [show (gtpAnalyze ["info move zz"] " pass\n" "B" 100 3).1 = []
      from rfl] at h
    exact List.noConfusion h⟩

/-- **C8 (amended).** When the last collected snapshot line (or none at
all) yields no parseable candidate, `analyze` falls back to a single
best-move request immediately followed by an undo; the fallback returns
exactly one candidate with win probability 0.5, score lead 0 and the
requested visit budget ONLY when the engine's reply is a move — a PASS,
RESIGN or empty reply returns an empty list instead, and the caller is
never failed. A malformed candidate segment within a snapshot is
skipped without aborting the parse, leaving the other segments'
candidates intact (src/katago_gtp.py `KataGoGTP.analyze`,
`_parse_kata_analyze_line`). -/
theorem analyze_fallback_semantics :
    (∀ (lines : List String) (last reply player : String) (visits : Int)
        (top_n : Nat),
      lines.getLast? = some last → parse_kata_analyze_line last top_n = [] →
      gtpAnalyze lines reply player visits top_n
        = genmoveFallback reply player visits) ∧
    (∀ (reply player : String) (visits : Int),
      (genmoveFallback reply player visits).2
        = ["genmove " ++ player, "undo"]) ∧
    (∀ (reply player : String) (visits : Int),
      pyUpper (pyStrip reply) ≠ "" → pyUpper (pyStrip reply) ≠ "PASS" →
      pyUpper (pyStrip reply) ≠ "RESIGN" →
      (genmoveFallback reply player visits).1
        = [⟨pyUpper (pyStrip reply), 1/2, 0, visits⟩]) ∧
    (∀ (reply player : String) (visits : Int),
      (pyUpper (pyStrip reply) = "" ∨ pyUpper (pyStrip reply) = "PASS"
        ∨ pyUpper (pyStrip reply) = "RESIGN") →
      (genmoveFallback reply player visits).1 = []) ∧
    (∀ (segs1 segs2 : List String) (bad : String), parseSegment bad = none →
      (segs1 ++ bad :: segs2).filterMap parseSegment
        = (segs1 ++ segs2).filterMap parseSegment) ∧
    parse_kata_analyze_line ("info move Q3 visits 45 winrate 0.52 scoreLead 0.3 "
        ++ "info move R4 visits oops winrate ..4 "
        ++ "info move D5 visits 30 winrate 0.48") 3
      = [⟨"Q3", mkRat 52 100, mkRat 3 10, 45⟩, ⟨"D5", mkRat 48 100, 0, 30⟩] := by
  refine ⟨?_, ?_, ?_, ?_, ?_, ?_⟩
  · intro lines last reply player visits top_n hlast hparse
    rw [gtpAnalyze, hlast]
    show (match parse_kata_analyze_line last top_n with
      | [] => genmoveFallback reply player visits
      | c :: cands => (c :: cands, [])) = _
    rw [hparse]
  · intro reply player visits
    rfl
  · intro reply player visits h1 h2 h3
    show (if pyUpper (pyStrip reply) ≠ "" ∧ pyUpper (pyStrip reply) ≠ "PASS"
        ∧ pyUpper (pyStrip reply) ≠ "RESIGN"
      then [expandCand (1/2) 0 visits (pyUpper (pyStrip reply))] else []) = _
    rw [if_pos (show pyUpper (pyStrip reply) ≠ "" ∧ pyUpper (pyStrip reply) ≠ "PASS"
      ∧ pyUpper (pyStrip reply) ≠ "RESIGN" from ⟨h1, h2, h3⟩)]
    rfl
  · intro reply player visits h
    show (if pyUpper (pyStrip reply) ≠ "" ∧ pyUpper (pyStrip reply) ≠ "PASS"
        ∧ pyUpper (pyStrip reply) ≠ "RESIGN"
      then [expandCand (1/2) 0 visits (pyUpper (pyStrip reply))] else []) = _
    rw [if_neg]
    rintro ⟨h1, h2, h3⟩
    rcases h with h | h | h
    · exact h1 h
    · exact h2 h
    · exact h3 h
  · intro segs1 segs2 bad h
    rw [List.filterMap_append, List.filterMap_append,
      List.filterMap_cons_none h]
  · decide

/-- Witness for C8's amended fallback semantics: the no-parseable-line
branch instantiated concretely. -/
theorem analyze_fallback_semantics_witness :
    (["x"] : List String).getLast? = some "x" ∧
    parse_kata_analyze_line "x" 3 = [] ∧
    gtpAnalyze ["x"] " Q16\n" "B" 7 3 = genmoveFallback " Q16\n" "B" 7 :=
  ⟨rfl, rfl, analyze_fallback_semantics.1 ["x"] "x" " Q16\n" "B" 7 3 rfl rfl⟩

/-! ## The analyzer's cache-miss path (src/analyzer.py `GoAnalyzer.analyze`) -/

/-- Python tuple unpacking `a, b = l` of a list: succeeds only when the
list has exactly two elements, otherwise raises `ValueError`. -/
def pyUnpack2 {α : Type} (l : List α) : Except PyErr (α × α) :=
  match l with
  | [a, b] => .ok (a, b)
  | _ => .error .valueError

/-- The keyword parameters accepted by src/cache.py
`AnalysisCache.put` (lines 410-422). -/
def put_param_names : List String :=
  ["board_hash", "moves_sequence", "board_size", "komi", "top_moves",
    "engine_visits", "model_name", "calculation_duration",
    "stopped_by_limit", "limit_setting"]

/-- The keyword arguments src/analyzer.py `GoAnalyzer.analyze` passes to
`self.cache.put` (lines 251-263). -/
def analyze_put_kwargs : List String :=
  ["board_hash", "moves_sequence", "board_size", "komi", "top_moves",
    "engine_visits", "model_name", "calculation_duration",
    "stopped_by_limit", "limit_setting", "ownership"]

/-- Python call binding: passing a keyword a function's signature does
not declare raises `TypeError` (unexpected keyword argument). -/
def pyCallBind (params passed : List String) : Except PyErr Unit :=
  if passed.all (fun k => params.contains k) then .ok () else .error .typeError

/-- src/analyzer.py `GoAnalyzer.analyze`, cache-miss path from line 193
on: `top_moves, ownership = self.katago.analyze(...)` tuple-unpacks the
engine's FLAT candidate list (`KataGoGTP.analyze` returns
`List[MoveCandidate]`), so each name binds a single `MoveCandidate`;
with a non-identity canonical transform the next step iterates
`for move in top_moves:`, which raises `TypeError` on a non-iterable;
with the identity transform the path reaches `self.cache.put(...,
ownership=canonical_ownership)`, whose binding raises `TypeError`
because `put` declares no `ownership` parameter. `.ok` would mean the
miss path completed without raising. -/
def analyzeMissPath (cands : List MoveCandidate)
    (transform_used : SymmetryTransform) : Except PyErr Unit :=
  match pyUnpack2 cands with
  | .error e => .error e
  | .ok _ =>
    if transform_used ≠ IDENTITY then .error .typeError
    else
      match pyCallBind put_param_names analyze_put_kwargs with
      | .error e => .error e
      | .ok _ => .ok ()

/-- **C1.** The claim says a cache miss calls the engine, stores a
canonical copy and returns without raising. In fact EVERY cache-miss
execution raises: the engine's flat candidate list is tuple-unpacked
into two names (`ValueError` unless it has exactly two entries), a
non-identity orientation then iterates a single `MoveCandidate`
(`TypeError`), and the identity orientation passes the unsupported
`ownership` keyword to `AnalysisCache.put` (`TypeError`) — so nothing
is ever stored and no result is returned
(src/analyzer.py `GoAnalyzer.analyze` lines 193 and 251-263). -/
theorem analyze_miss_always_raises (cands : List MoveCandidate)
    (transform_used : SymmetryTransform) :
    ∃ e, analyzeMissPath cands transform_used = .error e ∧
      (e = .valueError ∨ e = .typeError) := by
  match cands with
  | [] => exact ⟨.valueError, rfl, Or.inl rfl⟩
  | [a] => exact ⟨.valueError, rfl, Or.inl rfl⟩
  | a :: b :: c :: rest => exact ⟨.valueError, rfl, Or.inl rfl⟩
  | [a, b] =>
    by_cases ht : transform_used = IDENTITY
    · refine ⟨.typeError, ?_, Or.inr rfl⟩
      rw [analyzeMissPath]
      show (if transform_used ≠ IDENTITY then Except.error .typeError
        else match pyCallBind put_param_names analyze_put_kwargs with
          | .error e => .error e
          | .ok _ => .ok ()) = _
      rw [if_neg (by simp [ht])]
      rfl
    · refine ⟨.typeError, ?_, Or.inr rfl⟩
      rw [analyzeMissPath]
      show (if transform_used ≠ IDENTITY then Except.error .typeError
        else match pyCallBind put_param_names analyze_put_kwargs with
          | .error e => .error e
          | .ok _ => .ok ()) = _
      rw [if_pos ht]

/-- The C1 failure is not hypothetical: on the identity orientation with
a two-candidate engine reply — the most benign inputs possible — the
miss path still raises `TypeError`, and the unpack of a realistic
3-candidate reply raises `ValueError`. -/
theorem analyze_miss_always_raises_example :
    analyzeMissPath [c6Move, c6Move] IDENTITY = .error .typeError ∧
      analyzeMissPath [c6Move, c6Move, c6Move] ROTATE_90
        = .error .valueError := ⟨rfl, rfl⟩

end GoApp
